import Mathlib

/-! # dump_fmap: the human-readable FMAP listing

A shallow embedding of `utility/dump_fmap.c` (the part between "Stuff for
human-readable form" and "End of human-reable stuff"): the node table
`all_nodes`, the range predicates, duplicate coalescing, parent resolution,
child-array building and the recursive printer `show`.

Conventions of the embedding.

* `uint32_t` fields are natural numbers reduced modulo `2^32` where the C code
  stores them (`start`, `size`, `end` of a node, the size column of a gap row).
* A `node_t *` into `all_nodes` is the index of the node; `NULL` is `none`.
* `printf` output is a list of structured rows (`out_t`), one constructor per
  format string of the source.
* `show` sorts the child array of the node it visits in place; the printer
  therefore carries the table in its state, and `human_fmap` returns the table
  as the printer leaves it.
* `end` and `show` are reserved words of Lean; the field `end` is `end_`, the
  field `alias` is `alias_` and the function `show` is `show_`.
-/

namespace DumpFmap

/-- Modulus of `uint32_t` arithmetic. -/
def U32 : Nat := 4294967296

/-- One area record of the FMAP (`FmapAreaHeader` of fmap.h): `area_offset` and
`area_size` are 32-bit fields, `area_name` is the name already cut to
`FMAP_NAMELEN` bytes. -/
structure FmapAreaHeader where
  area_offset : Nat
  area_size : Nat
  area_name : String
deriving DecidableEq, Repr

/-- The FMAP header (`FmapHeader` of fmap.h) together with the `fmap_nareas`
area records that follow it in memory (`ah = (FmapAreaHeader *)(fmh + 1)`).
`fmap_nareas` is the length of `areas`. -/
structure FmapHeader where
  fmap_base : Nat
  fmap_size : Nat
  areas : List FmapAreaHeader
deriving DecidableEq, Repr

/-- The working node of the source (`node_t`). `parent` is an index into
`all_nodes`; `child` is the calloc-ed array of child pointers, the empty list
standing for the `NULL` array pointer; `alias_` is the linked list of alias
names, head first. -/
structure node_t where
  name : String
  start : Nat
  size : Nat
  end_ : Nat
  parent : Option Nat
  num_children : Nat
  child : List (Option Nat)
  alias_ : List String
deriving DecidableEq, Repr

/-- A zeroed node, as `calloc` returns it. -/
instance : Inhabited node_t :=
  ⟨{ name := "", start := 0, size := 0, end_ := 0, parent := none,
     num_children := 0, child := [], alias_ := [] }⟩

/-- The table `all_nodes` together with the local `numnodes` of `human_fmap`.
The root sits at index `numnodes`. -/
structure table_t where
  all_nodes : List node_t
  numnodes : Nat
deriving DecidableEq, Repr

/-- Rows written to standard output. `overlap_error` is the three `printf`
calls reporting a pair, `overlap_hint` is "Use more -h args to ignore this
error", `header` is the column header, `line` is one call of `line()`,
`warning` is the unused-regions warning. -/
inductive out_t where
  | overlap_error (name_i name_j : String) (start_i end_i start_j end_j : Nat)
  | overlap_hint
  | header
  | line (indent : Nat) (name : String) (start end_ size : Nat) (append : String)
  | warning
deriving DecidableEq, Repr

/-- Read `all_nodes[i]`. -/
def nd (all_nodes : List node_t) (i : Nat) : node_t := all_nodes.getD i default

/-- Write one element: `all_nodes[i] = f(all_nodes[i])`. -/
def upd (all_nodes : List node_t) (i : Nat) (f : node_t → node_t) : List node_t :=
  all_nodes.set i (f (nd all_nodes i))

/-! ## Range predicates (source lines 192-217) -/

/-- Source `overlaps(i, j)`. -/
def overlaps (all_nodes : List node_t) (i j : Nat) : Bool :=
  decide ((nd all_nodes i).start < (nd all_nodes j).start) &&
  decide ((nd all_nodes j).start < (nd all_nodes i).end_) &&
  decide ((nd all_nodes j).start < (nd all_nodes i).end_) &&
  decide ((nd all_nodes i).end_ < (nd all_nodes j).end_)

/-- Source `encloses(i, j)`. -/
def encloses (all_nodes : List node_t) (i j : Nat) : Bool :=
  decide ((nd all_nodes i).start ≤ (nd all_nodes j).start) &&
  decide ((nd all_nodes i).end_ ≥ (nd all_nodes j).end_)

/-- Source `duplicates(i, j)`. -/
def duplicates (all_nodes : List node_t) (i j : Nat) : Bool :=
  decide ((nd all_nodes i).start = (nd all_nodes j).start) &&
  decide ((nd all_nodes i).end_ = (nd all_nodes j).end_)

/-! ## Loading the records (source lines 264-289) -/

/-- The node made of one area record. -/
def mk_node (ah : FmapAreaHeader) : node_t :=
  { name := ah.area_name
    start := ah.area_offset % U32
    size := ah.area_size % U32
    end_ := (ah.area_offset + ah.area_size) % U32
    parent := none, num_children := 0, child := [], alias_ := [] }

/-- The root node, made of the header. -/
def root_node (fmh : FmapHeader) : node_t :=
  { name := "-entire flash-"
    start := fmh.fmap_base % U32
    size := fmh.fmap_size % U32
    end_ := (fmh.fmap_base + fmh.fmap_size) % U32
    parent := none, num_children := 0, child := [], alias_ := [] }

/-- The table after the conversion loop and the addition of the root:
`numnodes + 1` entries, the root last. -/
def load (fmh : FmapHeader) : table_t :=
  { all_nodes := fmh.areas.map mk_node ++ [root_node fmh]
    numnodes := fmh.areas.length }

/-! ## Duplicate coalescing (source lines 219-230 and 292-300) -/

/-- The copy loop of `add_dupe`: `for (k = j; k < numnodes; k++)
all_nodes[k] = all_nodes[k + 1]`, as `n` remaining iterations from `k`. -/
def shift_down : Nat → Nat → List node_t → List node_t
  | 0, _, all_nodes => all_nodes
  | n + 1, k, all_nodes => shift_down n (k + 1) (all_nodes.set k (nd all_nodes (k + 1)))

/-- Source `add_dupe(i, j, numnodes)`. -/
def add_dupe (i j numnodes : Nat) (all_nodes : List node_t) : List node_t :=
  let a := upd all_nodes i
    (fun x => { x with alias_ := (nd all_nodes j).name :: x.alias_ })
  shift_down (numnodes - j) j a

/-- The inner loop `for (j = i + 1; j < numnodes; j++)` of the coalescing
pass, started at `j`. The first argument bounds the number of iterations;
`numnodes - j` is enough, since `j` grows and `numnodes` never does. -/
def coalesce_j (i : Nat) : Nat → Nat → table_t → table_t
  | 0, _, t => t
  | fuel + 1, j, t =>
    if j < t.numnodes then
      if duplicates t.all_nodes i j then
        coalesce_j i fuel (j + 1)
          { all_nodes := add_dupe i j t.numnodes t.all_nodes, numnodes := t.numnodes - 1 }
      else coalesce_j i fuel (j + 1) t
    else t

/-- The outer loop `for (i = 0; i < numnodes; i++)` of the coalescing pass,
started at `i`, with a bound on the number of iterations. -/
def coalesce_i : Nat → Nat → table_t → table_t
  | 0, _, t => t
  | fuel + 1, i, t =>
    if i < t.numnodes then
      coalesce_i fuel (i + 1) (coalesce_j i (t.numnodes - (i + 1)) (i + 1) t)
    else t

/-- The coalescing pass ("First, coalesce any duplicates"). -/
def coalesce (t : table_t) : table_t := coalesce_i t.numnodes 0 t

/-! ## Parent resolution (source lines 305-330) -/

/-- Local state of the inner loop of parent resolution: the candidate `k`,
the error counter and the output so far. -/
structure scan_t where
  k : Nat
  errorcnt : Nat
  out : List out_t
deriving DecidableEq, Repr

/-- The body of the inner loop for one `j`. -/
def resolve_step (opt_overlap : Int) (all_nodes : List node_t) (i j : Nat)
    (s : scan_t) : scan_t :=
  if i = j then s
  else if overlaps all_nodes i j then
    { k := s.k
      errorcnt := if opt_overlap < 2 then s.errorcnt + 1 else s.errorcnt
      out := s.out ++
        [out_t.overlap_error (nd all_nodes i).name (nd all_nodes j).name
          (nd all_nodes i).start (nd all_nodes i).end_
          (nd all_nodes j).start (nd all_nodes j).end_] ++
        (if opt_overlap < 2 then [out_t.overlap_hint] else []) }
  else if encloses all_nodes j i && decide ((nd all_nodes j).size < (nd all_nodes s.k).size) then
    { s with k := j }
  else s

/-- The inner loop `for (j = 0; j < numnodes; j++)`, over the list of the
values of `j` still to visit. -/
def resolve_j (opt_overlap : Int) (all_nodes : List node_t) (i : Nat) :
    List Nat → scan_t → scan_t
  | [], s => s
  | j :: js, s => resolve_j opt_overlap all_nodes i js (resolve_step opt_overlap all_nodes i j s)

/-- State of the outer loop of parent resolution. -/
structure resolve_t where
  all_nodes : List node_t
  errorcnt : Nat
  out : List out_t
deriving DecidableEq, Repr

/-- The body of the outer loop for one `i`: scan with `k = numnodes`, then
`all_nodes[i].parent = all_nodes + k`. -/
def resolve_node (opt_overlap : Int) (numnodes : Nat) (i : Nat) (r : resolve_t) : resolve_t :=
  let s := resolve_j opt_overlap r.all_nodes i (List.range numnodes)
    { k := numnodes, errorcnt := r.errorcnt, out := r.out }
  { all_nodes := upd r.all_nodes i (fun x => { x with parent := some s.k })
    errorcnt := s.errorcnt
    out := s.out }

/-- The outer loop `for (i = 0; i < numnodes; i++)`, over the list of the
values of `i` still to visit. -/
def resolve_i (opt_overlap : Int) (numnodes : Nat) : List Nat → resolve_t → resolve_t
  | [], r => r
  | i :: is, r => resolve_i opt_overlap numnodes is (resolve_node opt_overlap numnodes i r)

/-- Parent resolution on a table. The counter `errorcnt` is a C `int`; with
at most 65535 areas (`fmap_nareas` is 16 bits wide) it stays below `2^31`. -/
def resolve (opt_overlap : Int) (t : table_t) : resolve_t :=
  resolve_i opt_overlap t.numnodes (List.range t.numnodes)
    { all_nodes := t.all_nodes, errorcnt := 0, out := [] }

/-! ## Child arrays (source lines 232-247 and 332-338) -/

/-- The first child-building loop ("how many"), over the list of the values
of `i` still to visit: `all_nodes[i].parent->num_children++`. -/
def count_children : List Nat → List node_t → List node_t
  | [], a => a
  | i :: is, a =>
    count_children is
      (match (nd a i).parent with
       | some p => upd a p (fun x => { x with num_children := x.num_children + 1 })
       | none => a)

/-- The slot loop of `add_child`: `for (i = 0; i < p->num_children; i++)
if (!p->child[i]) { p->child[i] = all_nodes + n; return; }`, with the number
of slots still to inspect. -/
def fill_slot (n : Nat) : Nat → List (Option Nat) → List (Option Nat)
  | 0, c => c
  | _ + 1, [] => []
  | _ + 1, none :: r => some n :: r
  | m + 1, some x :: r => some x :: fill_slot n m r

/-- Source `add_child(p, n)`, `p` given by its index. The array is calloc-ed
on first use when `num_children` is not zero (allocation is taken to
succeed). -/
def add_child (all_nodes : List node_t) (p n : Nat) : List node_t :=
  upd all_nodes p (fun x =>
    { x with child := (fill_slot n x.num_children
        (if x.num_children ≠ 0 ∧ x.child = [] then List.replicate x.num_children none
         else x.child)) })

/-- The second child-building loop ("here they are"). -/
def add_children : List Nat → List node_t → List node_t
  | [], a => a
  | i :: is, a =>
    add_children is
      (match (nd a i).parent with
       | some p => add_child a p i
       | none => a)

/-- Both child-building loops. -/
def build_children (numnodes : Nat) (all_nodes : List node_t) : List node_t :=
  add_children (List.range numnodes) (count_children (List.range numnodes) all_nodes)

/-! ## Sorting and printing (source lines 132-190) -/

/-- Exchange of `ary[i]` and `ary[j]` through `tmp`. -/
def swap (ary : List Nat) (i j : Nat) : List Nat :=
  (ary.set i (ary.getD j 0)).set j (ary.getD i 0)

/-- The inner loop of `sort_nodes`, `n` iterations from `j`. -/
def sort_j (all_nodes : List node_t) (i : Nat) : Nat → Nat → List Nat → List Nat
  | 0, _, ary => ary
  | n + 1, j, ary =>
    sort_j all_nodes i n (j + 1)
      (if (nd all_nodes (ary.getD j 0)).start > (nd all_nodes (ary.getD i 0)).start
       then swap ary i j else ary)

/-- The outer loop of `sort_nodes`, `n` iterations from `i`. -/
def sort_i (all_nodes : List node_t) (num : Nat) : Nat → Nat → List Nat → List Nat
  | 0, _, ary => ary
  | n + 1, i, ary =>
    sort_i all_nodes num n (i + 1) (sort_j all_nodes i (num - (i + 1)) (i + 1) ary)

/-- Source `sort_nodes(num, ary)`: the array of node pointers is a list of
indices into `all_nodes`. -/
def sort_nodes (all_nodes : List node_t) (num : Nat) (ary : List Nat) : List Nat :=
  sort_i all_nodes num num 0 ary

/-- State of the printer: the node table (`show` sorts the child arrays in
place), the output so far and the global `gapcount`. -/
structure show_t where
  all_nodes : List node_t
  out : List out_t
  gapcount : Nat
deriving DecidableEq, Repr

/-- Source `line(indent, name, start, end, size, append)`; a null `append`
is the empty string. -/
def line (indent : Nat) (name : String) (start end_ size : Nat) (append : String) : out_t :=
  out_t.line indent name start end_ size append

/-- Source `empty(indent, start, end, name)`; the size column is the
`uint32_t` difference `end - start`. -/
def empty (opt_gaps : Nat) (indent start end_ : Nat) (name : String) (s : show_t) : show_t :=
  { s with
    out := if opt_gaps ≠ 0 then
        s.out ++ [line (indent + 1) "" start end_ ((end_ + U32 - start) % U32)
          ("  // gap in " ++ name)]
      else s.out
    gapcount := s.gapcount + 1 }

/-- The pointers of a child array; `none` when a slot is `NULL`. -/
def child_ptrs : List (Option Nat) → Option (List Nat)
  | [] => some []
  | none :: _ => none
  | some c :: r => (child_ptrs r).map (fun l => c :: l)

/-- The gap found before child `i` of a node (first `if` of the loop of
`show`): from the end of the first child to the end of the node. -/
def gap_first (pn c : node_t) (i : Nat) : List (Nat × Nat) :=
  if i = 0 ∧ pn.end_ ≠ c.end_ then [(c.end_, pn.end_)] else []

/-- The gap found after child `i` (second `if`): from the end of the next
child to the start of this one. -/
def gap_next (pn c next : node_t) (i : Nat) : List (Nat × Nat) :=
  if i < pn.num_children - 1 ∧ c.start ≠ next.end_ then [(next.end_, c.start)] else []

/-- The gap found after the last child (third `if`): from the start of the
node to the start of the last child. -/
def gap_last (pn c : node_t) (i : Nat) : List (Nat × Nat) :=
  if i = pn.num_children - 1 ∧ c.start ≠ pn.start then [(pn.start, c.start)] else []

/-- One call of `empty` for each gap of the list. -/
def empties (opt_gaps indent : Nat) (name : String) (gs : List (Nat × Nat)) (s : show_t) :
    show_t :=
  gs.foldl (fun s g => empty opt_gaps indent g.1 g.2 name s) s

/-- Source `show(p, indent, show_first)`, `p` given by its index. The first
argument bounds the depth of the recursion. `sort_nodes(p->num_children,
p->child)` sorts the child array of `p` in place: the sorted array is written
to the table of the state, and every `p->child[i]` of the loop is read from
the table as it is at that moment. `show` writes to no field but `child`, so
the bound `p->num_children` of the loop is the value found at entry. The
result is `none` when the bound of the recursion is reached, when the child
array of a visited node has not `num_children` slots, or when a child array
that is read has a `NULL` slot. -/
def show_ (opt_gaps : Nat) : Nat → Nat → Nat → Nat → show_t → Option show_t
  | 0, _, _, _, _ => none
  | fuel + 1, p, indent, show_first, s =>
    let pn := nd s.all_nodes p
    let s1 : show_t :=
      if show_first ≠ 0 then
        { s with out := s.out ++ line indent pn.name pn.start pn.end_ pn.size "" ::
            pn.alias_.map (fun a => line indent a pn.start pn.end_ pn.size "  // DUPLICATE") }
      else s
    match (if pn.child.length = pn.num_children then child_ptrs pn.child else none) with
    | none => none
    | some ary0 =>
      let s2 : show_t :=
        { s1 with all_nodes := upd s.all_nodes p (fun x =>
            { x with child := (sort_nodes s.all_nodes pn.num_children ary0).map some }) }
      (List.range pn.num_children).foldlM (fun s i =>
        match child_ptrs (nd s.all_nodes p).child with
        | none => none
        | some ary =>
          match show_ opt_gaps fuel (ary.getD i 0) (indent + show_first) 1
              (empties opt_gaps indent (nd s.all_nodes p).name
                (gap_first (nd s.all_nodes p) (nd s.all_nodes (ary.getD i 0)) i) s) with
          | none => none
          | some s3 =>
            match child_ptrs (nd s3.all_nodes p).child with
            | none => none
            | some ary3 =>
              some (empties opt_gaps indent (nd s3.all_nodes p).name
                (gap_last (nd s3.all_nodes p) (nd s3.all_nodes (ary3.getD i 0)) i)
                (empties opt_gaps indent (nd s3.all_nodes p).name
                  (gap_next (nd s3.all_nodes p) (nd s3.all_nodes (ary3.getD i 0))
                    (nd s3.all_nodes (ary3.getD (i + 1) 0)) i) s3))) s2

/-! ## The whole of `human_fmap` (source lines 249-348) -/

/-- What a run of `human_fmap` leaves: the return value, the output, the
node table as it is at the return, with `numnodes`, and the two counters. -/
structure result_t where
  retval : Nat
  out : List out_t
  all_nodes : List node_t
  numnodes : Nat
  errorcnt : Nat
  gapcount : Nat
deriving DecidableEq, Repr

/-- Source `human_fmap`, with the globals `opt_overlap` and `opt_gaps` as
arguments and `gapcount` starting at zero. The result is `none` only when
the printer has none. -/
def human_fmap (opt_overlap : Int) (opt_gaps : Nat) (fmh : FmapHeader) : Option result_t :=
  let t := coalesce (load fmh)
  let r := resolve opt_overlap t
  if r.errorcnt ≠ 0 then
    some { retval := 1, out := r.out, all_nodes := r.all_nodes, numnodes := t.numnodes,
           errorcnt := r.errorcnt, gapcount := 0 }
  else
    let a := build_children t.numnodes r.all_nodes
    match show_ opt_gaps (t.numnodes + 1) t.numnodes 0 opt_gaps
        { all_nodes := a, out := r.out ++ [out_t.header], gapcount := 0 } with
    | none => none
    | some s =>
      some { retval := 0
             out := s.out ++ (if s.gapcount ≠ 0 ∧ opt_gaps = 0 then [out_t.warning] else [])
             all_nodes := s.all_nodes, numnodes := t.numnodes
             errorcnt := r.errorcnt, gapcount := s.gapcount }

/-! ## Auxiliary notions for the properties, and example inputs -/

/-- Two tables agree on the fields read by parent resolution. -/
def same_geom (a b : List node_t) : Prop :=
  ∀ x, (nd a x).start = (nd b x).start ∧ (nd a x).end_ = (nd b x).end_ ∧
    (nd a x).size = (nd b x).size ∧ (nd a x).name = (nd b x).name

/-- The parent that the scan for node `i` selects. -/
def scan_parent (a : List node_t) (numnodes i : Nat) : Nat :=
  (resolve_j 0 a i (List.range numnodes) { k := numnodes, errorcnt := 0, out := [] }).k

/-- Number of `j` of the list with `i != j` and `overlaps(i, j)`. -/
def ov_count (a : List node_t) (i : Nat) (js : List Nat) : Nat :=
  (js.filter (fun j => decide (i ≠ j) && overlaps a i j)).length

/-- Rows of the overlap diagnostics. -/
def is_diag : out_t → Bool
  | out_t.overlap_error _ _ _ _ _ _ => true
  | out_t.overlap_hint => true
  | _ => false

/-- Two tables agree on every field but `parent`. -/
def same_but_parent (a b : List node_t) : Prop :=
  a.length = b.length ∧
  ∀ x, ({ nd a x with parent := none } : node_t) = { nd b x with parent := none }

/-- Example input: area A = [0,50) and area B = [10,20) in the image [0,100). -/
def ex_nested : FmapHeader :=
  { fmap_base := 0, fmap_size := 100,
    areas := [⟨0, 50, "A"⟩, ⟨10, 10, "B"⟩] }

/-- Example input: one area A = [200,300) outside the image [0,100). -/
def ex_outside : FmapHeader :=
  { fmap_base := 0, fmap_size := 100, areas := [⟨200, 100, "A"⟩] }

/-- One merge of the coalescing pass: `add_dupe(i, j, numnodes); numnodes--`. -/
def merge_step (i j : Nat) (t : table_t) : table_t :=
  { all_nodes := add_dupe i j t.numnodes t.all_nodes, numnodes := t.numnodes - 1 }

/-- Start of an area record as a `uint32_t`. -/
def area_start (ah : FmapAreaHeader) : Nat := ah.area_offset % U32

/-- End of an area record as a `uint32_t`: `area_offset + area_size`. -/
def area_end (ah : FmapAreaHeader) : Nat := (ah.area_offset + ah.area_size) % U32

/-- Two nodes agree on every field but the alias list. -/
def eq_but_alias (u v : node_t) : Prop :=
  u.name = v.name ∧ u.start = v.start ∧ u.size = v.size ∧ u.end_ = v.end_ ∧
  u.parent = v.parent ∧ u.num_children = v.num_children ∧ u.child = v.child

/-- What holds of the table all through the coalescing pass on the records of
`fmh`: the root sits at index `numnodes`, inside the array; the nodes below
it carry exactly the ranges of the records; no node has a parent or children
yet. -/
def coalesce_inv (fmh : FmapHeader) (t : table_t) : Prop :=
  t.numnodes < t.all_nodes.length ∧
  nd t.all_nodes t.numnodes = root_node fmh ∧
  (∀ x, x < t.numnodes → ∃ a ∈ fmh.areas,
    (nd t.all_nodes x).start = area_start a ∧ (nd t.all_nodes x).end_ = area_end a ∧
    (nd t.all_nodes x).size = a.area_size % U32) ∧
  (∀ a ∈ fmh.areas, ∃ x, x < t.numnodes ∧
    (nd t.all_nodes x).start = area_start a ∧ (nd t.all_nodes x).end_ = area_end a) ∧
  (∀ x, (nd t.all_nodes x).parent = none ∧ (nd t.all_nodes x).num_children = 0 ∧
    (nd t.all_nodes x).child = [])

/-- The unordered pairs of area nodes (indices `x < y` below `n`) that overlap
in one order or the other. -/
def overlap_pairs (a : List node_t) (n : Nat) : Finset (Nat × Nat) :=
  (Finset.range n ×ˢ Finset.range n).filter
    (fun p => p.1 < p.2 ∧ (overlaps a p.1 p.2 = true ∨ overlaps a p.2 p.1 = true))

/-- The row that reports the overlap of nodes `i` and `j`. -/
def overlap_row (a : List node_t) (i j : Nat) : out_t :=
  out_t.overlap_error (nd a i).name (nd a j).name
    (nd a i).start (nd a i).end_ (nd a j).start (nd a j).end_

/-- Spec scenario 3: areas P = [0,60) and Q = [40,100) in the image [0,100). -/
def ex_overlap : FmapHeader :=
  { fmap_base := 0, fmap_size := 100, areas := [⟨0, 60, "P"⟩, ⟨40, 60, "Q"⟩] }

/-- Example input: one area A = [50,150) across the end of the image [0,100). -/
def ex_straddle : FmapHeader :=
  { fmap_base := 0, fmap_size := 100, areas := [⟨50, 100, "A"⟩] }

/-- Failing input of the coalescing pass: three records X, Y, Z in a row with
the same range [10,20), in the image [0,100). -/
def ex_triple : FmapHeader :=
  { fmap_base := 0, fmap_size := 100,
    areas := [⟨10, 10, "X"⟩, ⟨10, 10, "Y"⟩, ⟨10, 10, "Z"⟩] }

/-- Spec scenario 1: areas A = [0,100), B = [0,50), C = [50,100) in the image
[0,100). -/
def ex_abc : FmapHeader :=
  { fmap_base := 0, fmap_size := 100,
    areas := [⟨0, 100, "A"⟩, ⟨0, 50, "B"⟩, ⟨50, 50, "C"⟩] }

/-- Spec scenario 2, generalised: two records named `nx` and `ny` with the
same range [s,t), in the image [b,e). -/
def ex_dup (nx ny : String) (b s t e : Nat) : FmapHeader :=
  { fmap_base := b, fmap_size := e - b,
    areas := [⟨s, t - s, nx⟩, ⟨s, t - s, ny⟩] }

/-- The sort key of a child pointer: the start of the node it points to. -/
def key (all_nodes : List node_t) (c : Nat) : Nat := (nd all_nodes c).start

/-- Number of `i` of the list whose parent is node `x`. -/
def cnt (a : List node_t) (is : List Nat) (x : Nat) : Nat :=
  (is.filter (fun i => decide ((nd a i).parent = some x))).length

/-- A child array of `c` slots of which the first hold the pointers `f`, the
rest being `NULL`; the `NULL` array pointer as long as nothing was added. -/
def slots (f : List Nat) (c : Nat) : List (Option Nat) :=
  if f = [] then [] else f.map some ++ List.replicate (c - f.length) none

/-- Two tables agree on the parent of every node. -/
def same_parent (a b : List node_t) : Prop :=
  a.length = b.length ∧ ∀ x, (nd a x).parent = (nd b x).parent

/-- A valid input: the image and every area end below `2^32` (no `start +
size` wraps around), every area lies within the image range, and no two
areas overlap. -/
def valid_input (fmh : FmapHeader) : Prop :=
  fmh.fmap_base + fmh.fmap_size < U32 ∧
  (∀ a ∈ fmh.areas, a.area_offset + a.area_size < U32 ∧ fmh.fmap_base ≤ a.area_offset ∧
    a.area_offset + a.area_size ≤ fmh.fmap_base + fmh.fmap_size) ∧
  (∀ a ∈ fmh.areas, ∀ b ∈ fmh.areas,
    ¬ (a.area_offset < b.area_offset ∧ b.area_offset < a.area_offset + a.area_size ∧
       a.area_offset + a.area_size < b.area_offset + b.area_size))

/-- The ranges of the final node set (the area nodes below `numnodes` and the
root at `numnodes`) are pairwise distinct. -/
def distinct_ranges (t : table_t) : Prop :=
  ∀ y, y < t.numnodes + 1 → ∀ x, x < y → duplicates t.all_nodes x y = false

/-- The geometry of a table on a valid input with distinct ranges: no range
is inverted and `size` is `end - start`; the root (index `n`) encloses every
area node; no two area nodes overlap; no two nodes have the same range. -/
def geom_ok (a : List node_t) (n : Nat) : Prop :=
  (∀ x, x ≤ n → (nd a x).start ≤ (nd a x).end_ ∧
    (nd a x).size = (nd a x).end_ - (nd a x).start) ∧
  (∀ x, x < n → (nd a n).start ≤ (nd a x).start ∧ (nd a x).end_ ≤ (nd a n).end_) ∧
  (∀ x y, x < n → y < n → overlaps a x y = false) ∧
  (∀ y, y < n + 1 → ∀ x, x < y → duplicates a x y = false)

/-- The ranges met by one iteration of the loop of `show`, in the order of
the source: the gap before the first child, the child, the gap down to the
next child, the gap after the last child. -/
def piece_row (pn c next : node_t) (i : Nat) : List (Nat × Nat) :=
  gap_first pn c i ++ [(c.start, c.end_)] ++ gap_next pn c next i ++ gap_last pn c i

/-- The ranges of the children of node `p` and of the gaps that `show`
computes at `p`, in the order in which `show` meets them. -/
def show_pieces (all_nodes : List node_t) (p : Nat) : List (Nat × Nat) :=
  match (if (nd all_nodes p).child.length = (nd all_nodes p).num_children
         then child_ptrs (nd all_nodes p).child else none) with
  | none => []
  | some ary0 =>
    (List.range (nd all_nodes p).num_children).flatMap (fun i =>
      piece_row (nd all_nodes p)
        (nd all_nodes ((sort_nodes all_nodes (nd all_nodes p).num_children ary0).getD i 0))
        (nd all_nodes ((sort_nodes all_nodes (nd all_nodes p).num_children ary0).getD (i + 1) 0))
        i)

/-- Number of ranges of the list that hold the byte `x`. -/
def covers (x : Nat) (l : List (Nat × Nat)) : Nat :=
  (l.filter (fun r => decide (r.1 ≤ x ∧ x < r.2))).length

/-- The table that `human_fmap` hands to `show`: coalesced, resolved, with
the child arrays built. -/
def final_table (opt_overlap : Int) (fmh : FmapHeader) : List node_t :=
  build_children (coalesce (load fmh)).numnodes
    (resolve opt_overlap (coalesce (load fmh))).all_nodes

/-- Example input: area A = [0,100), the range of the image, and area
B = [10,20) inside it. -/
def ex_full : FmapHeader :=
  { fmap_base := 0, fmap_size := 100, areas := [⟨0, 100, "A"⟩, ⟨10, 10, "B"⟩] }

/-- Number of rows of the output that report an overlapping pair. -/
def error_rows (out : List out_t) : Nat :=
  (out.filter (fun o => match o with
    | out_t.overlap_error _ _ _ _ _ _ => true
    | _ => false)).length

/-- The half-open ranges of nodes `i` and `j` share the byte `x`. -/
def shares_byte (all_nodes : List node_t) (i j x : Nat) : Prop :=
  ((nd all_nodes i).start ≤ x ∧ x < (nd all_nodes i).end_) ∧
  ((nd all_nodes j).start ≤ x ∧ x < (nd all_nodes j).end_)

/-- Example table for the sibling sort: nodes with starts 0, 0 and 50. -/
def ex_sort_table : List node_t := (load ex_abc).all_nodes

/-- Example input for the tie-break: the empty area B = [40,40) lies at the
border of P = [0,40) and Q = [40,80), which both enclose it and have the
same size; image [0,100). -/
def ex_tie : FmapHeader :=
  { fmap_base := 0, fmap_size := 100,
    areas := [⟨40, 0, "B"⟩, ⟨0, 40, "P"⟩, ⟨40, 40, "Q"⟩] }

/-- The gaps that `show` computes at node `p`, in the order in which it
meets them (the ranges of `show_pieces` without the children). -/
def show_gaps (all_nodes : List node_t) (p : Nat) : List (Nat × Nat) :=
  match (if (nd all_nodes p).child.length = (nd all_nodes p).num_children
         then child_ptrs (nd all_nodes p).child else none) with
  | none => []
  | some ary0 =>
    (List.range (nd all_nodes p).num_children).flatMap (fun i =>
      gap_first (nd all_nodes p)
        (nd all_nodes ((sort_nodes all_nodes (nd all_nodes p).num_children ary0).getD i 0)) i ++
      gap_next (nd all_nodes p)
        (nd all_nodes ((sort_nodes all_nodes (nd all_nodes p).num_children ary0).getD i 0))
        (nd all_nodes ((sort_nodes all_nodes (nd all_nodes p).num_children ary0).getD (i + 1) 0))
        i ++
      gap_last (nd all_nodes p)
        (nd all_nodes ((sort_nodes all_nodes (nd all_nodes p).num_children ary0).getD i 0)) i)

/-- Example input: two areas side by side, A = [0,50) and B = [60,80), in
the image [0,100). -/
def ex_siblings : FmapHeader :=
  { fmap_base := 0, fmap_size := 100, areas := [⟨0, 50, "A"⟩, ⟨60, 20, "B"⟩] }

/-- A gap row: a row written by `line` whose trailing text starts with
"  // gap in " (the text that `empty` makes). The rows of nodes have an empty
trailing text, the rows of aliases have "  // DUPLICATE". -/
def is_gap_row : out_t → Bool
  | out_t.line _ _ _ _ _ app => decide (app.data.take 12 = "  // gap in ".data)
  | _ => false

/-- Number of gap rows of an output. -/
def gap_rows (out : List out_t) : Nat := (out.filter is_gap_row).length

/-- Rows written by `line`. -/
def is_line_row : out_t → Bool
  | out_t.line _ _ _ _ _ _ => true
  | _ => false

/-- The rows that `show` writes for a node itself: its own row, then one row
for each alias, in the order of the alias list. -/
def node_rows (indent : Nat) (pn : node_t) : List out_t :=
  line indent pn.name pn.start pn.end_ pn.size "" ::
    pn.alias_.map (fun a => line indent a pn.start pn.end_ pn.size "  // DUPLICATE")

/-- State `s2` comes from state `s` by printing: the output grew by rows of
`line` only, `gapcount` did not decrease, and the new gap rows are as many as
the gaps counted when gaps are displayed, none otherwise. -/
def grows (opt_gaps : Nat) (s s2 : show_t) : Prop :=
  ∃ rows, s2.out = s.out ++ rows ∧ (∀ o ∈ rows, is_line_row o = true) ∧
    s.gapcount ≤ s2.gapcount ∧
    gap_rows rows = (if opt_gaps ≠ 0 then s2.gapcount - s.gapcount else 0)

/-- The body of the loop of `show` for child `i`, as in `show_`: `p` is the
node, `fuel` the bound left for the calls on the children. -/
def show_body (opt_gaps fuel p indent show_first : Nat) (s : show_t) (i : Nat) :
    Option show_t :=
  match child_ptrs (nd s.all_nodes p).child with
  | none => none
  | some ary =>
    match show_ opt_gaps fuel (ary.getD i 0) (indent + show_first) 1
        (empties opt_gaps indent (nd s.all_nodes p).name
          (gap_first (nd s.all_nodes p) (nd s.all_nodes (ary.getD i 0)) i) s) with
    | none => none
    | some s3 =>
      match child_ptrs (nd s3.all_nodes p).child with
      | none => none
      | some ary3 =>
        some (empties opt_gaps indent (nd s3.all_nodes p).name
          (gap_last (nd s3.all_nodes p) (nd s3.all_nodes (ary3.getD i 0)) i)
          (empties opt_gaps indent (nd s3.all_nodes p).name
            (gap_next (nd s3.all_nodes p) (nd s3.all_nodes (ary3.getD i 0))
              (nd s3.all_nodes (ary3.getD (i + 1) 0)) i) s3))

/-- The state with which the loop of `show` starts: the rows of the node
written when `show_first` is set, and the sorted child array of `p` written
to the table. -/
def show_start (p indent show_first : Nat) (ary0 : List Nat) (s : show_t) : show_t :=
  { all_nodes := upd s.all_nodes p (fun x =>
      { x with child := (sort_nodes s.all_nodes (nd s.all_nodes p).num_children ary0).map some })
    out := if show_first ≠ 0 then s.out ++ node_rows indent (nd s.all_nodes p) else s.out
    gapcount := s.gapcount }

/-- Table `b` is table `a` with the child arrays rearranged: every node of
`b` is the node of `a` but for the order of its child array. -/
def child_perm (a b : List node_t) : Prop :=
  ∀ x, ({ nd b x with child := [] } : node_t) = { nd a x with child := [] } ∧
    List.Perm (nd b x).child (nd a x).child

/-- One step up the tree: the parent that the scan selects for an area node;
the root and the entries behind it stay where they are. -/
def up (a : List node_t) (n c : Nat) : Nat := if c < n then scan_parent a n c else c

/-- Node `c` lies `k` parent steps below the root (index `n`). -/
def at_depth (a : List node_t) (n k c : Nat) : Prop :=
  (up a n)^[k] c = n ∧ ∀ m, m < k → (up a n)^[m] c < n

/-- One call `add_dupe(i, j, numnodes)` made by the coalescing pass, with the
table as it is before the call. -/
structure merge_t where
  i : Nat
  j : Nat
  before : table_t

/-- The calls of `add_dupe` made by the inner loop of the coalescing pass, in
order: the same loop as `coalesce_j`, recording instead of returning. -/
def coalesce_j_log (i : Nat) : Nat → Nat → table_t → List merge_t
  | 0, _, _ => []
  | fuel + 1, j, t =>
    if j < t.numnodes then
      if duplicates t.all_nodes i j then
        { i := i, j := j, before := t } :: coalesce_j_log i fuel (j + 1) (merge_step i j t)
      else coalesce_j_log i fuel (j + 1) t
    else []

/-- The calls of `add_dupe` made by the outer loop of the coalescing pass. -/
def coalesce_i_log : Nat → Nat → table_t → List merge_t
  | 0, _, _ => []
  | fuel + 1, i, t =>
    if i < t.numnodes then
      coalesce_j_log i (t.numnodes - (i + 1)) (i + 1) t ++
        coalesce_i_log fuel (i + 1) (coalesce_j i (t.numnodes - (i + 1)) (i + 1) t)
    else []

/-- The calls of `add_dupe` made by the whole coalescing pass, in order. -/
def coalesce_log (t : table_t) : List merge_t := coalesce_i_log t.numnodes 0 t

/-- The name that a call of `add_dupe` adds to an alias list: the name of
node `j` at the time of the call. -/
def merged_name (e : merge_t) : String := (nd e.before.all_nodes e.j).name

/-- Example input: X, Y, W, Z with X, Y, Z = [10,20) and W = [30,40), in the
image [0,100). -/
def ex_xywz : FmapHeader :=
  { fmap_base := 0, fmap_size := 100,
    areas := [⟨10, 10, "X"⟩, ⟨10, 10, "Y"⟩, ⟨30, 10, "W"⟩, ⟨10, 10, "Z"⟩] }

/-- The table after the merges of a list, made in the order of the list. -/
def replay (t : table_t) : List merge_t → table_t
  | [] => t
  | e :: l => replay (merge_step e.i e.j t) l

/-- The list records merges made one after the other from table `t`: each
entry holds the table that the entries before it leave. -/
def is_trace (t : table_t) : List merge_t → Prop
  | [] => True
  | e :: l => e.before = t ∧ is_trace (merge_step e.i e.j t) l

/-- Record `o` of the header, a zero record past the end of the list. -/
def area_at (fmh : FmapHeader) (o : Nat) : FmapAreaHeader :=
  fmh.areas.getD o { area_offset := 0, area_size := 0, area_name := "" }

/-- The node made of record `p.1` that carries the names of the records of
`p.2` as its aliases. -/
def ghost_node (fmh : FmapHeader) (p : Nat × List Nat) : node_t :=
  { mk_node (area_at fmh p.1) with alias_ := p.2.map (fun o => (area_at fmh o).area_name) }

/-- Entry `x` of a bookkeeping list: for each node, the index of the record
it was made of and the indices of the records merged into it. -/
def gd (g : List (Nat × List Nat)) (x : Nat) : Nat × List Nat := g.getD x (0, [])

/-- The bookkeeping of `add_dupe(i, j, numnodes)`: the record of node `j`
goes in front of the list of node `i`, and entry `j` is removed. -/
def ghost_merge (i j : Nat) (g : List (Nat × List Nat)) : List (Nat × List Nat) :=
  (g.set i ((gd g i).1, (gd g j).1 :: (gd g i).2)).eraseIdx j

/-- All the record indices of a bookkeeping list: for each node its own
record, then the records merged into it. -/
def ghost_flat (g : List (Nat × List Nat)) : List Nat := g.flatMap (fun p => p.1 :: p.2)

/-- The bookkeeping list `g` describes the table `t`: node `x` is the node
of record `(gd g x).1` with the names of the records `(gd g x).2` as aliases;
the records of the nodes are in the order of the input; each alias record has
the start and the end of the record of its node; and every record of the
input occurs exactly once in `g`. -/
def ghost_inv (fmh : FmapHeader) (t : table_t) (g : List (Nat × List Nat)) : Prop :=
  g.length = t.numnodes ∧ t.numnodes < t.all_nodes.length ∧
  (∀ x, x < t.numnodes → nd t.all_nodes x = ghost_node fmh (gd g x)) ∧
  List.Sublist (g.map Prod.fst) (List.range fmh.areas.length) ∧
  (∀ x, x < t.numnodes → ∀ o ∈ (gd g x).2,
    area_start (area_at fmh o) = area_start (area_at fmh (gd g x).1) ∧
    area_end (area_at fmh o) = area_end (area_at fmh (gd g x).1)) ∧
  List.Perm (ghost_flat g) (List.range fmh.areas.length)

/-- The indices of `all_nodes` used by the copy loop of `add_dupe`, in the
order of use: round `k` writes entry `k` and reads entry `k + 1`. The
recursion is that of `shift_down`. -/
def shift_down_indices : Nat → Nat → List Nat
  | 0, _ => []
  | n + 1, k => k :: (k + 1) :: shift_down_indices n (k + 1)

/-- The indices of `all_nodes` used by `add_dupe(i, j, numnodes)`: it reads
`all_nodes[j].name`, reads and writes `all_nodes[i].alias`, then runs the
copy loop from `j`. -/
def add_dupe_indices (i j numnodes : Nat) : List Nat :=
  j :: i :: i :: shift_down_indices (numnodes - j) j

/-! # Properties -/

/-! ## Table access -/

theorem nd_upd (a : List node_t) (i j : Nat) (f : node_t → node_t) :
    nd (upd a i f) j = if j = i ∧ i < a.length then f (nd a i) else nd a j := by
  unfold upd nd
  by_cases h : j = i
  · subst h
    by_cases hl : j < a.length
    · simp [List.getD_eq_getElem?_getD, List.getElem?_set, hl]
    · have hn : a[j]? = none := List.getElem?_eq_none (Nat.le_of_not_lt hl)
      simp [List.getD_eq_getElem?_getD, List.getElem?_set, hl, hn]
  · have h2 : ¬ i = j := fun e => h e.symm
    simp [List.getD_eq_getElem?_getD, List.getElem?_set, h, h2]

theorem length_upd (a : List node_t) (i : Nat) (f : node_t → node_t) :
    (upd a i f).length = a.length := by
  simp [upd]

theorem same_geom_refl (a : List node_t) : same_geom a a := fun _ => ⟨rfl, rfl, rfl, rfl⟩

theorem same_geom_trans {a b c : List node_t} (h1 : same_geom a b) (h2 : same_geom b c) :
    same_geom a c := fun x =>
  ⟨(h1 x).1.trans (h2 x).1, (h1 x).2.1.trans (h2 x).2.1,
   (h1 x).2.2.1.trans (h2 x).2.2.1, (h1 x).2.2.2.trans (h2 x).2.2.2⟩

theorem same_geom_upd_parent (a : List node_t) (i : Nat) (k : Option Nat) :
    same_geom (upd a i (fun x => { x with parent := k })) a := by
  intro x
  rw [nd_upd]
  split
  · rename_i h; rw [h.1]; exact ⟨rfl, rfl, rfl, rfl⟩
  · exact ⟨rfl, rfl, rfl, rfl⟩

theorem overlaps_congr {a b : List node_t} (h : same_geom a b) (i j : Nat) :
    overlaps a i j = overlaps b i j := by
  simp only [overlaps, (h i).1, (h j).1, (h i).2.1, (h j).2.1]

theorem encloses_congr {a b : List node_t} (h : same_geom a b) (i j : Nat) :
    encloses a i j = encloses b i j := by
  simp only [encloses, (h i).1, (h j).1, (h i).2.1, (h j).2.1]

theorem resolve_step_congr {a b : List node_t} (h : same_geom a b) (opt : Int) (i j : Nat)
    (s : scan_t) : resolve_step opt a i j s = resolve_step opt b i j s := by
  simp only [resolve_step, overlaps_congr h, encloses_congr h, (h i).1, (h j).1, (h i).2.1,
    (h j).2.1, (h j).2.2.1, (h s.k).2.2.1, (h i).2.2.2, (h j).2.2.2]

theorem resolve_j_congr {a b : List node_t} (h : same_geom a b) (opt : Int) (i : Nat)
    (js : List Nat) (s : scan_t) : resolve_j opt a i js s = resolve_j opt b i js s := by
  induction js generalizing s with
  | nil => rfl
  | cons j js ih => simp only [resolve_j, resolve_step_congr h, ih]

/-! ## The inner scan of parent resolution -/

theorem overlaps_not_encloses (a : List node_t) (i j : Nat) (h : overlaps a i j = true) :
    encloses a j i = false := by
  simp only [overlaps, encloses, Bool.and_eq_true, decide_eq_true_eq, Bool.and_eq_false_imp,
    decide_eq_false_iff_not] at *
  omega

theorem resolve_step_k (opt : Int) (a : List node_t) (i j : Nat) (s : scan_t) :
    ((resolve_step opt a i j s).k = s.k ∨
      ((resolve_step opt a i j s).k = j ∧ j ≠ i ∧ encloses a j i = true)) ∧
    (nd a (resolve_step opt a i j s).k).size ≤ (nd a s.k).size ∧
    (j ≠ i → encloses a j i = true →
      (nd a (resolve_step opt a i j s).k).size ≤ (nd a j).size) := by
  unfold resolve_step
  split
  · rename_i hij
    exact ⟨Or.inl rfl, le_refl _, fun h => absurd hij.symm h⟩
  · rename_i hij
    split
    · rename_i hov
      refine ⟨Or.inl rfl, le_refl _, fun _ he => ?_⟩
      rw [overlaps_not_encloses a i j hov] at he
      exact absurd he (by simp)
    · split
      · rename_i hen
        rw [Bool.and_eq_true, decide_eq_true_eq] at hen
        exact ⟨Or.inr ⟨rfl, fun e => hij e.symm, hen.1⟩, le_of_lt hen.2, fun _ _ => le_refl _⟩
      · rename_i hen
        rw [Bool.and_eq_true, decide_eq_true_eq] at hen
        exact ⟨Or.inl rfl, le_refl _, fun _ he => Nat.le_of_not_lt (fun hlt => hen ⟨he, hlt⟩)⟩

theorem resolve_j_k (opt : Int) (a : List node_t) (i : Nat) (js : List Nat) (s : scan_t) :
    ((resolve_j opt a i js s).k = s.k ∨
      ((resolve_j opt a i js s).k ∈ js ∧ (resolve_j opt a i js s).k ≠ i ∧
        encloses a (resolve_j opt a i js s).k i = true)) ∧
    (nd a (resolve_j opt a i js s).k).size ≤ (nd a s.k).size ∧
    (∀ j ∈ js, j ≠ i → encloses a j i = true →
      (nd a (resolve_j opt a i js s).k).size ≤ (nd a j).size) := by
  induction js generalizing s with
  | nil => exact ⟨Or.inl rfl, le_refl _, fun j hj => absurd hj (List.not_mem_nil j)⟩
  | cons j js ih =>
    simp only [resolve_j]
    obtain ⟨h1, h2, h3⟩ := ih (resolve_step opt a i j s)
    obtain ⟨g1, g2, g3⟩ := resolve_step_k opt a i j s
    refine ⟨?_, le_trans h2 g2, ?_⟩
    · rcases h1 with h1 | ⟨hm, hne, hen⟩
      · rcases g1 with g1 | ⟨gj, gne, gen⟩
        · exact Or.inl (h1.trans g1)
        · refine Or.inr ⟨?_, ?_, ?_⟩
          · rw [h1, gj]; exact List.mem_cons_self _ _
          · rw [h1, gj]; exact gne
          · rw [h1, gj]; exact gen
      · exact Or.inr ⟨List.mem_cons_of_mem _ hm, hne, hen⟩
    · intro x hx hxi hxe
      rcases List.mem_cons.1 hx with hx | hx
      · subst hx; exact le_trans h2 (g3 hxi hxe)
      · exact h3 x hx hxi hxe

/-- The candidate does not depend on the option, the counter or the output. -/
theorem resolve_step_k_indep (opt opt2 : Int) (a : List node_t) (i j : Nat) (s s2 : scan_t)
    (h : s.k = s2.k) : (resolve_step opt a i j s).k = (resolve_step opt2 a i j s2).k := by
  unfold resolve_step
  by_cases hij : i = j
  · simp [hij, h]
  · by_cases hov : overlaps a i j = true
    · simp [hij, hov, h]
    · by_cases hen : (encloses a j i && decide ((nd a j).size < (nd a s.k).size)) = true
      · have hen2 := hen
        rw [h] at hen2
        simp [hij, hov, hen, hen2]
      · have hen2 := hen
        rw [h] at hen2
        simp [hij, hov, hen, hen2, h]

theorem resolve_j_k_indep (opt opt2 : Int) (a : List node_t) (i : Nat) (js : List Nat)
    (s s2 : scan_t) (h : s.k = s2.k) :
    (resolve_j opt a i js s).k = (resolve_j opt2 a i js s2).k := by
  induction js generalizing s s2 with
  | nil => exact h
  | cons j js ih =>
    simp only [resolve_j]
    exact ih _ _ (resolve_step_k_indep opt opt2 a i j s s2 h)

theorem resolve_step_err (opt : Int) (a : List node_t) (i j : Nat) (s : scan_t) :
    (resolve_step opt a i j s).errorcnt =
      s.errorcnt + (if opt < 2 then ov_count a i [j] else 0) := by
  unfold resolve_step ov_count
  by_cases hij : i = j
  · simp [hij]
  · by_cases hov : overlaps a i j = true
    · by_cases ho : opt < 2 <;> simp [hij, hov, ho]
    · by_cases hen : (encloses a j i && decide ((nd a j).size < (nd a s.k).size)) = true
      · simp [hij, hov, hen]
      · simp [hij, hov, hen]

theorem ov_count_cons (a : List node_t) (i j : Nat) (js : List Nat) :
    ov_count a i (j :: js) = ov_count a i [j] + ov_count a i js := by
  unfold ov_count
  rw [show j :: js = [j] ++ js from rfl, List.filter_append, List.length_append]

theorem resolve_j_err (opt : Int) (a : List node_t) (i : Nat) (js : List Nat) (s : scan_t) :
    (resolve_j opt a i js s).errorcnt =
      s.errorcnt + (if opt < 2 then ov_count a i js else 0) := by
  induction js generalizing s with
  | nil => simp [resolve_j, ov_count]
  | cons j js ih =>
    simp only [resolve_j]
    rw [ih, resolve_step_err, ov_count_cons a i j js]
    by_cases ho : opt < 2
    · simp only [ho, if_true]; omega
    · simp [ho]

theorem resolve_step_out (opt : Int) (a : List node_t) (i j : Nat) (s : scan_t) :
    ∀ o ∈ (resolve_step opt a i j s).out, o ∈ s.out ∨ is_diag o = true := by
  intro o ho
  unfold resolve_step at ho
  by_cases hij : i = j
  · simp only [hij, if_true] at ho; exact Or.inl ho
  · by_cases hov : overlaps a i j = true
    · simp only [hij, hov, if_true, if_false] at ho
      rcases List.mem_append.1 ho with ho | ho
      · rcases List.mem_append.1 ho with ho | ho
        · exact Or.inl ho
        · rw [List.mem_singleton] at ho; subst ho; exact Or.inr rfl
      · by_cases h2 : opt < 2
        · simp only [h2, if_true, List.mem_singleton] at ho; subst ho; exact Or.inr rfl
        · simp [h2] at ho
    · by_cases hen : (encloses a j i && decide ((nd a j).size < (nd a s.k).size)) = true
      · simp only [hij, hov, hen, if_true, if_false] at ho; exact Or.inl ho
      · simp only [hij, hov, hen, if_false] at ho; exact Or.inl ho

theorem resolve_j_out (opt : Int) (a : List node_t) (i : Nat) (js : List Nat) (s : scan_t) :
    ∀ o ∈ (resolve_j opt a i js s).out, o ∈ s.out ∨ is_diag o = true := by
  induction js generalizing s with
  | nil => intro o ho; exact Or.inl ho
  | cons j js ih =>
    intro o ho
    simp only [resolve_j] at ho
    rcases ih _ o ho with h | h
    · exact resolve_step_out opt a i j s o h
    · exact Or.inr h

/-! ## The outer loop of parent resolution -/

theorem same_but_parent_refl (a : List node_t) : same_but_parent a a := ⟨rfl, fun _ => rfl⟩

theorem same_but_parent_trans {a b c : List node_t} (h1 : same_but_parent a b)
    (h2 : same_but_parent b c) : same_but_parent a c :=
  ⟨h1.1.trans h2.1, fun x => (h1.2 x).trans (h2.2 x)⟩

theorem same_but_parent_geom {a b : List node_t} (h : same_but_parent a b) : same_geom a b := by
  intro x
  have e := h.2 x
  have e1 := congrArg node_t.start e
  have e2 := congrArg node_t.end_ e
  have e3 := congrArg node_t.size e
  have e4 := congrArg node_t.name e
  exact ⟨e1, e2, e3, e4⟩

theorem same_but_parent_upd (a : List node_t) (i : Nat) (k : Option Nat) :
    same_but_parent (upd a i (fun x => { x with parent := k })) a := by
  refine ⟨length_upd _ _ _, fun x => ?_⟩
  rw [nd_upd]
  split
  · rename_i h; rw [h.1]
  · rfl

theorem scan_parent_congr {a b : List node_t} (h : same_geom a b) (n i : Nat) :
    scan_parent a n i = scan_parent b n i := by
  unfold scan_parent
  rw [resolve_j_congr h]

theorem ov_count_congr {a b : List node_t} (h : same_geom a b) (i : Nat) (js : List Nat) :
    ov_count a i js = ov_count b i js := by
  unfold ov_count
  simp only [overlaps_congr h]

theorem resolve_node_nodes (opt : Int) (n i : Nat) (r : resolve_t) :
    (resolve_node opt n i r).all_nodes =
      upd r.all_nodes i (fun x => { x with parent := some (scan_parent r.all_nodes n i) }) := by
  unfold resolve_node scan_parent
  simp only
  rw [resolve_j_k_indep opt 0 r.all_nodes i (List.range n)
    { k := n, errorcnt := r.errorcnt, out := r.out } { k := n, errorcnt := 0, out := [] } rfl]

theorem resolve_node_err (opt : Int) (n i : Nat) (r : resolve_t) :
    (resolve_node opt n i r).errorcnt =
      r.errorcnt + (if opt < 2 then ov_count r.all_nodes i (List.range n) else 0) := by
  unfold resolve_node
  simp only
  rw [resolve_j_err]

theorem resolve_node_out (opt : Int) (n i : Nat) (r : resolve_t) :
    ∀ o ∈ (resolve_node opt n i r).out, o ∈ r.out ∨ is_diag o = true := by
  unfold resolve_node
  simp only
  exact resolve_j_out opt r.all_nodes i (List.range n) _

theorem resolve_i_spec (opt : Int) (n : Nat) (is : List Nat) (r : resolve_t) :
    same_but_parent (resolve_i opt n is r).all_nodes r.all_nodes ∧
    (∀ x, x ∉ is → (nd (resolve_i opt n is r).all_nodes x).parent = (nd r.all_nodes x).parent) ∧
    (∀ x ∈ is, x < r.all_nodes.length →
      (nd (resolve_i opt n is r).all_nodes x).parent = some (scan_parent r.all_nodes n x)) ∧
    (resolve_i opt n is r).errorcnt = r.errorcnt +
      (if opt < 2 then (is.map (fun i => ov_count r.all_nodes i (List.range n))).sum else 0) ∧
    (∀ o ∈ (resolve_i opt n is r).out, o ∈ r.out ∨ is_diag o = true) := by
  induction is generalizing r with
  | nil =>
    refine ⟨same_but_parent_refl _, fun _ _ => rfl, fun x hx => absurd hx (List.not_mem_nil x),
      ?_, fun o ho => Or.inl ho⟩
    simp [resolve_i]
  | cons i is ih =>
    simp only [resolve_i]
    obtain ⟨h1, h2, h3, h4, h5⟩ := ih (resolve_node opt n i r)
    have hn := resolve_node_nodes opt n i r
    have hsp : same_but_parent (resolve_node opt n i r).all_nodes r.all_nodes := by
      rw [hn]; exact same_but_parent_upd _ _ _
    have hg := same_but_parent_geom hsp
    refine ⟨same_but_parent_trans h1 hsp, ?_, ?_, ?_, ?_⟩
    · intro x hx
      have hxi : x ≠ i := fun e => hx (e ▸ List.mem_cons_self _ _)
      have hxs : x ∉ is := fun e => hx (List.mem_cons_of_mem _ e)
      rw [h2 x hxs, hn, nd_upd]
      simp [hxi]
    · intro x hx hlen
      by_cases hxs : x ∈ is
      · rw [h3 x hxs (by rw [hsp.1]; exact hlen), scan_parent_congr hg]
      · have hxi : x = i := by
          rcases List.mem_cons.1 hx with h | h
          · exact h
          · exact absurd h hxs
        subst hxi
        rw [h2 x hxs, hn, nd_upd]
        simp [hlen]
    · rw [h4, resolve_node_err]
      by_cases ho : opt < 2
      · simp only [ho, if_true, List.map_cons, List.sum_cons]
        have : (List.map (fun i_1 => ov_count (resolve_node opt n i r).all_nodes i_1 (List.range n)) is)
            = List.map (fun i => ov_count r.all_nodes i (List.range n)) is := by
          apply List.map_congr_left
          intro x _
          exact ov_count_congr hg x _
        rw [this]; omega
      · simp [ho]
    · intro o ho
      rcases h5 o ho with h | h
      · exact resolve_node_out opt n i r o h
      · exact Or.inr h

/-! ## Shape of the table through coalescing -/

theorem length_shift_down (n k : Nat) (a : List node_t) :
    (shift_down n k a).length = a.length := by
  induction n generalizing k a with
  | zero => rfl
  | succ n ih => simp [shift_down, ih]

theorem length_add_dupe (i j n : Nat) (a : List node_t) :
    (add_dupe i j n a).length = a.length := by
  simp [add_dupe, length_shift_down, length_upd]

theorem coalesce_j_shape (i fuel j : Nat) (t : table_t) :
    (coalesce_j i fuel j t).all_nodes.length = t.all_nodes.length ∧
    (coalesce_j i fuel j t).numnodes ≤ t.numnodes := by
  induction fuel generalizing j t with
  | zero => exact ⟨rfl, le_refl _⟩
  | succ fuel ih =>
    unfold coalesce_j
    split
    · split
      · obtain ⟨h1, h2⟩ := ih (j + 1)
          { all_nodes := add_dupe i j t.numnodes t.all_nodes, numnodes := t.numnodes - 1 }
        exact ⟨h1.trans (length_add_dupe _ _ _ _), le_trans h2 (Nat.sub_le _ _)⟩
      · exact ih (j + 1) t
    · exact ⟨rfl, le_refl _⟩

theorem coalesce_i_shape (fuel i : Nat) (t : table_t) :
    (coalesce_i fuel i t).all_nodes.length = t.all_nodes.length ∧
    (coalesce_i fuel i t).numnodes ≤ t.numnodes := by
  induction fuel generalizing i t with
  | zero => exact ⟨rfl, le_refl _⟩
  | succ fuel ih =>
    unfold coalesce_i
    split
    · obtain ⟨h1, h2⟩ := ih (i + 1) (coalesce_j i (t.numnodes - (i + 1)) (i + 1) t)
      obtain ⟨g1, g2⟩ := coalesce_j_shape i (t.numnodes - (i + 1)) (i + 1) t
      exact ⟨h1.trans g1, le_trans h2 g2⟩
    · exact ⟨rfl, le_refl _⟩

theorem coalesce_load_lt (fmh : FmapHeader) :
    (coalesce (load fmh)).numnodes < (coalesce (load fmh)).all_nodes.length := by
  obtain ⟨h1, h2⟩ := coalesce_i_shape (load fmh).numnodes 0 (load fmh)
  unfold coalesce
  rw [h1]
  have : (load fmh).numnodes < (load fmh).all_nodes.length := by simp [load]
  omega

/-- What `resolve` leaves in the table: every field but `parent` as before,
and the parent of each area node the one selected by its scan. -/
theorem resolve_spec (opt : Int) (t : table_t) (hlen : t.numnodes ≤ t.all_nodes.length) :
    same_but_parent (resolve opt t).all_nodes t.all_nodes ∧
    (∀ x, x < t.numnodes →
      (nd (resolve opt t).all_nodes x).parent = some (scan_parent t.all_nodes t.numnodes x)) ∧
    (∀ x, t.numnodes ≤ x → (nd (resolve opt t).all_nodes x).parent = (nd t.all_nodes x).parent) := by
  obtain ⟨h1, h2, h3, _, _⟩ := resolve_i_spec opt t.numnodes (List.range t.numnodes)
    { all_nodes := t.all_nodes, errorcnt := 0, out := [] }
  refine ⟨h1, fun x hx => ?_, fun x hx => ?_⟩
  · exact h3 x (List.mem_range.2 hx) (lt_of_lt_of_le hx hlen)
  · exact h2 x (fun h => absurd (List.mem_range.1 h) (by omega))

theorem scan_parent_spec (a : List node_t) (n i : Nat) :
    (scan_parent a n i = n ∨
      (scan_parent a n i < n ∧ scan_parent a n i ≠ i ∧ encloses a (scan_parent a n i) i = true)) ∧
    (nd a (scan_parent a n i)).size ≤ (nd a n).size ∧
    (∀ j, j < n → j ≠ i → encloses a j i = true →
      (nd a (scan_parent a n i)).size ≤ (nd a j).size) := by
  obtain ⟨h1, h2, h3⟩ := resolve_j_k 0 a i (List.range n) { k := n, errorcnt := 0, out := [] }
  refine ⟨?_, h2, fun j hj => h3 j (List.mem_range.2 hj)⟩
  rcases h1 with h1 | ⟨hm, hne, hen⟩
  · exact Or.inl h1
  · exact Or.inr ⟨List.mem_range.1 hm, hne, hen⟩

/-! ## Coalescing: what one merge does, and induction over the pass -/

theorem nd_set (a : List node_t) (k x : Nat) (v : node_t) :
    nd (a.set k v) x = if x = k ∧ k < a.length then v else nd a x := by
  unfold nd
  by_cases h : x = k
  · subst h
    by_cases hl : x < a.length
    · simp [List.getD_eq_getElem?_getD, List.getElem?_set, hl]
    · have hn : a[x]? = none := List.getElem?_eq_none (Nat.le_of_not_lt hl)
      simp [List.getD_eq_getElem?_getD, List.getElem?_set, hl, hn]
  · have h2 : ¬ k = x := fun e => h e.symm
    simp [List.getD_eq_getElem?_getD, List.getElem?_set, h, h2]

theorem nd_ge_length (a : List node_t) (x : Nat) (h : a.length ≤ x) : nd a x = default := by
  unfold nd
  simp [List.getD_eq_getElem?_getD, List.getElem?_eq_none h]

theorem nd_shift_down (n k x : Nat) (a : List node_t) :
    nd (shift_down n k a) x = if k ≤ x ∧ x < k + n then nd a (x + 1) else nd a x := by
  induction n generalizing k a with
  | zero => rw [if_neg (by omega)]; rfl
  | succ n ih =>
    rw [shift_down, ih]
    by_cases h1 : k + 1 ≤ x ∧ x < k + 1 + n
    · rw [if_pos h1, if_pos (by omega), nd_set, if_neg (by omega)]
    · rw [if_neg h1, nd_set]
      by_cases h2 : x = k
      · subst h2
        by_cases hl : x < a.length
        · rw [if_pos ⟨rfl, hl⟩, if_pos (by omega)]
        · rw [if_neg (by omega), if_pos (by omega), nd_ge_length a x (by omega),
            nd_ge_length a (x + 1) (by omega)]
      · rw [if_neg (by omega), if_neg (by omega)]

theorem nd_add_dupe (i j n x : Nat) (a : List node_t) (hj : j ≤ n) :
    nd (add_dupe i j n a) x =
      if j ≤ x ∧ x < n then
        nd (upd a i (fun y => { y with alias_ := (nd a j).name :: y.alias_ })) (x + 1)
      else nd (upd a i (fun y => { y with alias_ := (nd a j).name :: y.alias_ })) x := by
  unfold add_dupe
  simp only
  rw [nd_shift_down]
  by_cases h : j ≤ x ∧ x < n
  · rw [if_pos h, if_pos (by omega)]
  · rw [if_neg h, if_neg (by omega)]

theorem coalesce_j_induction (P : table_t → Prop)
    (hstep : ∀ t i j, i < j → j < t.numnodes → duplicates t.all_nodes i j = true →
      P t → P (merge_step i j t))
    (i fuel j : Nat) (t : table_t) (hij : i < j) (h : P t) : P (coalesce_j i fuel j t) := by
  induction fuel generalizing j t with
  | zero => exact h
  | succ fuel ih =>
    unfold coalesce_j
    split
    · rename_i hlt
      split
      · rename_i hd
        exact ih (j + 1) _ (by omega) (hstep t i j hij hlt hd h)
      · exact ih (j + 1) t (by omega) h
    · exact h

theorem coalesce_i_induction (P : table_t → Prop)
    (hstep : ∀ t i j, i < j → j < t.numnodes → duplicates t.all_nodes i j = true →
      P t → P (merge_step i j t))
    (fuel i : Nat) (t : table_t) (h : P t) : P (coalesce_i fuel i t) := by
  induction fuel generalizing i t with
  | zero => exact h
  | succ fuel ih =>
    unfold coalesce_i
    split
    · exact ih (i + 1) _ (coalesce_j_induction P hstep i _ (i + 1) t (by omega) h)
    · exact h

/-- Induction over the coalescing pass: what every merge keeps, the pass keeps. -/
theorem coalesce_induction (P : table_t → Prop)
    (hstep : ∀ t i j, i < j → j < t.numnodes → duplicates t.all_nodes i j = true →
      P t → P (merge_step i j t))
    (t : table_t) (h : P t) : P (coalesce t) :=
  coalesce_i_induction P hstep t.numnodes 0 t h

/-! ## Coalescing keeps the ranges and the root -/

theorem eq_but_alias_upd (a : List node_t) (i x : Nat) (l : node_t → List String) :
    eq_but_alias (nd (upd a i (fun y => { y with alias_ := l y })) x) (nd a x) := by
  rw [nd_upd]
  split
  · rename_i h; rw [h.1]; exact ⟨rfl, rfl, rfl, rfl, rfl, rfl, rfl⟩
  · exact ⟨rfl, rfl, rfl, rfl, rfl, rfl, rfl⟩

theorem nd_merge_step (t : table_t) (i j x : Nat) (hj : j < t.numnodes) :
    eq_but_alias (nd (merge_step i j t).all_nodes x)
      (nd t.all_nodes (if j ≤ x ∧ x < t.numnodes then x + 1 else x)) := by
  unfold merge_step
  simp only
  rw [nd_add_dupe i j t.numnodes x t.all_nodes (le_of_lt hj)]
  split
  · exact eq_but_alias_upd t.all_nodes i (x + 1) (fun y => (nd t.all_nodes j).name :: y.alias_)
  · exact eq_but_alias_upd t.all_nodes i x (fun y => (nd t.all_nodes j).name :: y.alias_)

theorem merge_step_length (t : table_t) (i j : Nat) :
    (merge_step i j t).all_nodes.length = t.all_nodes.length := by
  simp [merge_step, length_add_dupe]

theorem coalesce_inv_load (fmh : FmapHeader) : coalesce_inv fmh (load fmh) := by
  have hnd : ∀ x, x < fmh.areas.length →
      ∃ a ∈ fmh.areas, nd (load fmh).all_nodes x = mk_node a := by
    intro x hx
    refine ⟨fmh.areas[x], List.getElem_mem _, ?_⟩
    simp [nd, load, List.getD_eq_getElem?_getD, List.getElem?_append_left, hx]
  have hroot : nd (load fmh).all_nodes fmh.areas.length = root_node fmh := by
    simp [nd, load, List.getD_eq_getElem?_getD, List.getElem?_append_right]
  refine ⟨by simp [load], hroot, ?_, ?_, ?_⟩
  · intro x hx
    obtain ⟨a, ha, e⟩ := hnd x hx
    exact ⟨a, ha, by rw [e]; rfl, by rw [e]; rfl, by rw [e]; rfl⟩
  · intro a ha
    obtain ⟨x, hx, e⟩ := List.getElem_of_mem ha
    refine ⟨x, hx, ?_⟩
    obtain ⟨b, _, e2⟩ := hnd x hx
    have : nd (load fmh).all_nodes x = mk_node a := by
      simp [nd, load, List.getD_eq_getElem?_getD, List.getElem?_append_left, hx, e]
    rw [this]; exact ⟨rfl, rfl⟩
  · intro x
    rcases Nat.lt_trichotomy x fmh.areas.length with h | h | h
    · obtain ⟨a, _, e⟩ := hnd x h
      rw [e]; exact ⟨rfl, rfl, rfl⟩
    · rw [h, hroot]; exact ⟨rfl, rfl, rfl⟩
    · rw [nd_ge_length _ _ (by simp [load]; omega)]; exact ⟨rfl, rfl, rfl⟩

theorem coalesce_inv_step (fmh : FmapHeader) (t : table_t) (i j : Nat) (hij : i < j)
    (hj : j < t.numnodes) (hd : duplicates t.all_nodes i j = true) (h : coalesce_inv fmh t) :
    coalesce_inv fmh (merge_step i j t) := by
  obtain ⟨h1, h2, h3, h4, h5⟩ := h
  have hn : (merge_step i j t).numnodes = t.numnodes - 1 := rfl
  have hd2 : (nd t.all_nodes i).start = (nd t.all_nodes j).start ∧
      (nd t.all_nodes i).end_ = (nd t.all_nodes j).end_ := by
    simpa [duplicates] using hd
  refine ⟨?_, ?_, ?_, ?_, ?_⟩
  · rw [merge_step_length, hn]; omega
  · have e := nd_merge_step t i j (t.numnodes - 1) hj
    rw [if_pos (by omega), show t.numnodes - 1 + 1 = t.numnodes by omega, h2] at e
    have e0 : nd (merge_step i j t).all_nodes (t.numnodes - 1) =
        nd (upd t.all_nodes i (fun y => { y with alias_ := (nd t.all_nodes j).name :: y.alias_ }))
          t.numnodes := by
      unfold merge_step
      simp only
      rw [nd_add_dupe i j t.numnodes _ t.all_nodes (le_of_lt hj), if_pos (by omega),
        show t.numnodes - 1 + 1 = t.numnodes by omega]
    rw [hn, e0, nd_upd, if_neg (by omega), h2]
  · intro x hx
    rw [hn] at hx
    have e := nd_merge_step t i j x hj
    obtain ⟨a, ha, g1, g2, g3⟩ := h3 (if j ≤ x ∧ x < t.numnodes then x + 1 else x)
      (by split <;> omega)
    exact ⟨a, ha, e.2.1.trans g1, e.2.2.2.1.trans g2, e.2.2.1.trans g3⟩
  · intro a ha
    obtain ⟨x, hx, g1, g2⟩ := h4 a ha
    rcases Nat.lt_trichotomy x j with hlt | heq | hgt
    · refine ⟨x, by rw [hn]; omega, ?_⟩
      have e := nd_merge_step t i j x hj
      rw [if_neg (by omega)] at e
      exact ⟨e.2.1.trans g1, e.2.2.2.1.trans g2⟩
    · refine ⟨i, by rw [hn]; omega, ?_⟩
      have e := nd_merge_step t i j i hj
      rw [if_neg (by omega)] at e
      subst heq
      exact ⟨e.2.1.trans (hd2.1.trans g1), e.2.2.2.1.trans (hd2.2.trans g2)⟩
    · refine ⟨x - 1, by rw [hn]; omega, ?_⟩
      have e := nd_merge_step t i j (x - 1) hj
      rw [if_pos (by omega), show x - 1 + 1 = x by omega] at e
      exact ⟨e.2.1.trans g1, e.2.2.2.1.trans g2⟩
  · intro x
    have e := nd_merge_step t i j x hj
    obtain ⟨g1, g2, g3⟩ := h5 (if j ≤ x ∧ x < t.numnodes then x + 1 else x)
    exact ⟨e.2.2.2.2.1.trans g1, e.2.2.2.2.2.1.trans g2, e.2.2.2.2.2.2.trans g3⟩

theorem coalesce_inv_coalesce (fmh : FmapHeader) : coalesce_inv fmh (coalesce (load fmh)) :=
  coalesce_induction (coalesce_inv fmh) (coalesce_inv_step fmh) (load fmh) (coalesce_inv_load fmh)

/-! ## Counting the overlap errors -/

theorem overlaps_asymm (a : List node_t) (i j : Nat) (h : overlaps a i j = true) :
    overlaps a j i = false := by
  simp only [overlaps, Bool.and_eq_true, decide_eq_true_eq, Bool.and_eq_false_imp,
    decide_eq_false_iff_not] at *
  omega

theorem ov_count_eq_card (a : List node_t) (i n : Nat) :
    ov_count a i (List.range n) =
      ((Finset.range n).filter (fun j => i ≠ j ∧ overlaps a i j = true)).card := by
  unfold ov_count
  have hr : (List.range n).toFinset = Finset.range n := by
    ext x; simp
  rw [← List.toFinset_card_of_nodup ((List.nodup_range n).filter _), List.toFinset_filter, hr]
  congr 1
  apply Finset.filter_congr
  intro x _
  simp

theorem list_sum_range (f : Nat → Nat) (n : Nat) :
    ((List.range n).map f).sum = ∑ i in Finset.range n, f i := by
  induction n with
  | zero => simp
  | succ n ih => rw [List.range_succ, List.map_append, List.sum_append, ih, Finset.sum_range_succ]; simp

theorem sum_ov_count (a : List node_t) (n : Nat) :
    ((List.range n).map (fun i => ov_count a i (List.range n))).sum =
      (overlap_pairs a n).card := by
  rw [list_sum_range]
  simp only [ov_count_eq_card, overlap_pairs, Finset.card_filter]
  rw [Finset.sum_product]
  have hL : ∀ i j : Nat, (if i ≠ j ∧ overlaps a i j = true then 1 else 0) =
      (if i < j ∧ overlaps a i j = true then 1 else 0) +
      (if j < i ∧ overlaps a i j = true then (1 : Nat) else 0) := by
    intro i j
    by_cases h : overlaps a i j = true
    · rcases Nat.lt_trichotomy i j with h1 | h1 | h1
      · simp [h, h1, Nat.ne_of_lt h1, Nat.lt_asymm h1]
      · simp [h1]
      · simp [h, h1, Nat.ne_of_gt h1, Nat.lt_asymm h1]
    · simp [h]
  have hR : ∀ i j : Nat,
      (if i < j ∧ (overlaps a i j = true ∨ overlaps a j i = true) then 1 else 0) =
      (if i < j ∧ overlaps a i j = true then 1 else 0) +
      (if i < j ∧ overlaps a j i = true then (1 : Nat) else 0) := by
    intro i j
    by_cases h1 : i < j
    · by_cases h : overlaps a i j = true
      · simp [h1, h, overlaps_asymm a i j h]
      · simp [h1, h]
    · simp [h1]
  simp only [hL, hR, Finset.sum_add_distrib]
  congr 1
  rw [Finset.sum_comm]

theorem resolve_errorcnt (opt : Int) (t : table_t) :
    (resolve opt t).errorcnt =
      if opt < 2 then (overlap_pairs t.all_nodes t.numnodes).card else 0 := by
  obtain ⟨_, _, _, h4, _⟩ := resolve_i_spec opt t.numnodes (List.range t.numnodes)
    { all_nodes := t.all_nodes, errorcnt := 0, out := [] }
  unfold resolve
  rw [h4, sum_ov_count]
  simp

theorem resolve_out_diag (opt : Int) (t : table_t) :
    ∀ o ∈ (resolve opt t).out, is_diag o = true := by
  obtain ⟨_, _, _, _, h5⟩ := resolve_i_spec opt t.numnodes (List.range t.numnodes)
    { all_nodes := t.all_nodes, errorcnt := 0, out := [] }
  intro o ho
  rcases h5 o ho with h | h
  · exact absurd h (List.not_mem_nil o)
  · exact h

theorem overlap_pairs_nonempty_iff (a : List node_t) (n : Nat) :
    (overlap_pairs a n).card ≠ 0 ↔ ∃ x y, x < n ∧ y < n ∧ overlaps a x y = true := by
  rw [Finset.card_ne_zero]
  constructor
  · rintro ⟨p, hp⟩
    simp only [overlap_pairs, Finset.mem_filter, Finset.mem_product, Finset.mem_range] at hp
    rcases hp.2.2 with h | h
    · exact ⟨p.1, p.2, hp.1.1, hp.1.2, h⟩
    · exact ⟨p.2, p.1, hp.1.2, hp.1.1, h⟩
  · rintro ⟨x, y, hx, hy, h⟩
    have hne : x ≠ y := by
      intro e; subst e
      simp [overlaps] at h
    rcases Nat.lt_or_gt_of_ne hne with hlt | hgt
    · exact ⟨(x, y), by
        simp only [overlap_pairs, Finset.mem_filter, Finset.mem_product, Finset.mem_range]
        exact ⟨⟨hx, hy⟩, hlt, Or.inl h⟩⟩
    · exact ⟨(y, x), by
        simp only [overlap_pairs, Finset.mem_filter, Finset.mem_product, Finset.mem_range]
        exact ⟨⟨hy, hx⟩, hgt, Or.inr h⟩⟩

theorem overlaps_iff (a : List node_t) (x y : Nat) :
    overlaps a x y = true ↔
      (nd a x).start < (nd a y).start ∧ (nd a y).start < (nd a x).end_ ∧
      (nd a x).end_ < (nd a y).end_ := by
  simp only [overlaps, Bool.and_eq_true, decide_eq_true_eq]
  constructor
  · rintro ⟨⟨⟨h1, h2⟩, _⟩, h3⟩; exact ⟨h1, h2, h3⟩
  · rintro ⟨h1, h2, h3⟩; exact ⟨⟨⟨h1, h2⟩, h2⟩, h3⟩

theorem exists_overlap_iff (fmh : FmapHeader) :
    (∃ x y, x < (coalesce (load fmh)).numnodes ∧ y < (coalesce (load fmh)).numnodes ∧
      overlaps (coalesce (load fmh)).all_nodes x y = true) ↔
    ∃ a ∈ fmh.areas, ∃ b ∈ fmh.areas,
      area_start a < area_start b ∧ area_start b < area_end a ∧ area_end a < area_end b := by
  obtain ⟨_, _, h3, h4, _⟩ := coalesce_inv_coalesce fmh
  constructor
  · rintro ⟨x, y, hx, hy, h⟩
    rw [overlaps_iff] at h
    obtain ⟨a, ha, a1, a2, _⟩ := h3 x hx
    obtain ⟨b, hb, b1, b2, _⟩ := h3 y hy
    exact ⟨a, ha, b, hb, by rw [← a1, ← b1]; exact h.1, by rw [← a2, ← b1]; exact h.2.1,
      by rw [← a2, ← b2]; exact h.2.2⟩
  · rintro ⟨a, ha, b, hb, h⟩
    obtain ⟨x, hx, a1, a2⟩ := h4 a ha
    obtain ⟨y, hy, b1, b2⟩ := h4 b hb
    refine ⟨x, y, hx, hy, ?_⟩
    rw [overlaps_iff, a1, a2, b1, b2]
    exact h

theorem human_fmap_fail_iff (opt : Int) (gaps : Nat) (fmh : FmapHeader) :
    (∃ r, human_fmap opt gaps fmh = some r ∧ r.retval = 1) ↔
      (resolve opt (coalesce (load fmh))).errorcnt ≠ 0 := by
  unfold human_fmap
  simp only
  split
  · rename_i h
    constructor
    · intro _; exact h
    · intro _; exact ⟨_, rfl, rfl⟩
  · rename_i h
    constructor
    · rintro ⟨r, hr, h1⟩
      split at hr
      · exact absurd hr (by simp)
      · injection hr with hr
        rw [← hr] at h1
        exact absurd h1 (by simp)
    · intro h2; exact absurd h2 h

theorem human_fmap_fail_out (opt : Int) (gaps : Nat) (fmh : FmapHeader) (r : result_t)
    (hr : human_fmap opt gaps fmh = some r) (h1 : r.retval = 1) :
    r.out = (resolve opt (coalesce (load fmh))).out ∧
    r.errorcnt = (resolve opt (coalesce (load fmh))).errorcnt ∧ r.gapcount = 0 := by
  unfold human_fmap at hr
  simp only at hr
  split at hr
  · injection hr with hr
    rw [← hr]
    exact ⟨rfl, rfl, rfl⟩
  · split at hr
    · exact absurd hr (by simp)
    · injection hr with hr
      rw [← hr] at h1
      exact absurd h1 (by simp)

/-! ## Every overlap of two area nodes is reported -/

theorem overlap_row_congr {a b : List node_t} (h : same_geom a b) (i j : Nat) :
    overlap_row a i j = overlap_row b i j := by
  simp only [overlap_row, (h i).1, (h j).1, (h i).2.1, (h j).2.1, (h i).2.2.2, (h j).2.2.2]

theorem resolve_step_out_sub (opt : Int) (a : List node_t) (i j : Nat) (s : scan_t) :
    ∀ o ∈ s.out, o ∈ (resolve_step opt a i j s).out := by
  intro o ho
  unfold resolve_step
  split
  · exact ho
  · split
    · exact List.mem_append_left _ (List.mem_append_left _ ho)
    · split
      · exact ho
      · exact ho

theorem resolve_j_out_sub (opt : Int) (a : List node_t) (i : Nat) (js : List Nat) (s : scan_t) :
    ∀ o ∈ s.out, o ∈ (resolve_j opt a i js s).out := by
  induction js generalizing s with
  | nil => intro o ho; exact ho
  | cons j js ih =>
    intro o ho
    exact ih _ o (resolve_step_out_sub opt a i j s o ho)

theorem resolve_j_reports (opt : Int) (a : List node_t) (i j : Nat) (js : List Nat) (s : scan_t)
    (hj : j ∈ js) (hij : i ≠ j) (hov : overlaps a i j = true) :
    overlap_row a i j ∈ (resolve_j opt a i js s).out := by
  induction js generalizing s with
  | nil => exact absurd hj (List.not_mem_nil j)
  | cons x js ih =>
    simp only [resolve_j]
    rcases List.mem_cons.1 hj with h | h
    · subst h
      apply resolve_j_out_sub
      unfold resolve_step
      rw [if_neg hij, if_pos hov]
      exact List.mem_append_left _ (List.mem_append_right _ (List.mem_singleton.2 rfl))
    · exact ih _ h

theorem resolve_i_out_sub (opt : Int) (n : Nat) (is : List Nat) (r : resolve_t) :
    ∀ o ∈ r.out, o ∈ (resolve_i opt n is r).out := by
  induction is generalizing r with
  | nil => intro o ho; exact ho
  | cons i is ih =>
    intro o ho
    simp only [resolve_i]
    apply ih
    unfold resolve_node
    exact resolve_j_out_sub opt r.all_nodes i (List.range n) _ o ho

theorem resolve_i_reports (opt : Int) (n i j : Nat) (is : List Nat) (r : resolve_t)
    (hi : i ∈ is) (hj : j < n) (hij : i ≠ j) (hov : overlaps r.all_nodes i j = true) :
    overlap_row r.all_nodes i j ∈ (resolve_i opt n is r).out := by
  induction is generalizing r with
  | nil => exact absurd hi (List.not_mem_nil i)
  | cons x is ih =>
    simp only [resolve_i]
    rcases List.mem_cons.1 hi with h | h
    · subst h
      apply resolve_i_out_sub
      unfold resolve_node
      exact resolve_j_reports opt r.all_nodes i j (List.range n) _ (List.mem_range.2 hj) hij hov
    · have hsp : same_but_parent (resolve_node opt n x r).all_nodes r.all_nodes := by
        rw [resolve_node_nodes]; exact same_but_parent_upd _ _ _
      have hg := same_but_parent_geom hsp
      rw [← overlap_row_congr hg]
      exact ih _ h (by rw [overlaps_congr hg]; exact hov)

theorem resolve_reports (opt : Int) (t : table_t) (i j : Nat) (hi : i < t.numnodes)
    (hj : j < t.numnodes) (hov : overlaps t.all_nodes i j = true) :
    overlap_row t.all_nodes i j ∈ (resolve opt t).out := by
  have hij : i ≠ j := by
    intro e; subst e
    simp [overlaps] at hov
  exact resolve_i_reports opt t.numnodes i j (List.range t.numnodes)
    { all_nodes := t.all_nodes, errorcnt := 0, out := [] } (List.mem_range.2 hi) hj hij hov

/-! ## sort_nodes: permutation and order -/

theorem getD_set_nat (l : List Nat) (k x v : Nat) :
    (l.set k v).getD x 0 = if x = k ∧ k < l.length then v else l.getD x 0 := by
  by_cases h : x = k
  · subst h
    by_cases hl : x < l.length
    · simp [List.getElem?_set, hl]
    · have hn : l[x]? = none := List.getElem?_eq_none (Nat.le_of_not_lt hl)
      simp [List.getElem?_set, hl, hn]
  · have h2 : ¬ k = x := fun e => h e.symm
    simp [List.getElem?_set, h, h2]

theorem cons_set_perm (t : List Nat) (j a : Nat) (hj : j < t.length) :
    List.Perm (t.getD j 0 :: t.set j a) (a :: t) := by
  induction t generalizing j with
  | nil => exact absurd hj (Nat.not_lt_zero _)
  | cons b t ih =>
    cases j with
    | zero => simpa using List.Perm.swap a b t
    | succ j =>
      have hj2 : j < t.length := by simpa using hj
      have h1 : List.Perm (t.getD j 0 :: b :: t.set j a) (b :: t.getD j 0 :: t.set j a) :=
        List.Perm.swap b (t.getD j 0) (t.set j a)
      have h2 : List.Perm (b :: t.getD j 0 :: t.set j a) (b :: a :: t) :=
        List.Perm.cons b (ih j hj2)
      have h3 : List.Perm (b :: a :: t) (a :: b :: t) := List.Perm.swap a b t
      simpa using h1.trans (h2.trans h3)

theorem swap_perm (l : List Nat) (i j : Nat) (hij : i < j) (hj : j < l.length) :
    List.Perm (swap l i j) l := by
  induction l generalizing i j with
  | nil => exact absurd hj (Nat.not_lt_zero _)
  | cons a t ih =>
    cases j with
    | zero => exact absurd hij (Nat.not_lt_zero _)
    | succ j =>
      have hj2 : j < t.length := by simpa using hj
      cases i with
      | zero =>
        have := cons_set_perm t j a hj2
        simpa [swap] using this
      | succ i =>
        have := ih i j (by omega) hj2
        simpa [swap] using List.Perm.cons a this

theorem swap_getD (l : List Nat) (i j x : Nat) (hij : i < j) (hj : j < l.length) :
    (swap l i j).getD x 0 =
      if x = i then l.getD j 0 else if x = j then l.getD i 0 else l.getD x 0 := by
  unfold swap
  rw [getD_set_nat, getD_set_nat, List.length_set]
  by_cases h1 : x = j
  · rw [if_pos ⟨h1, hj⟩, if_neg (by omega), if_pos h1]
  · rw [if_neg (by omega)]
    by_cases h2 : x = i
    · rw [if_pos ⟨h2, by omega⟩, if_pos h2]
    · rw [if_neg (by omega), if_neg h2, if_neg h1]

theorem swap_length (l : List Nat) (i j : Nat) : (swap l i j).length = l.length := by
  simp [swap]

/-- The inner loop of `sort_nodes`: `n` iterations from `j`, with `i < j`. -/
theorem sort_j_spec (a : List node_t) (i n j : Nat) (ary : List Nat)
    (hij : i < j) (hlen : j + n ≤ ary.length)
    (hmax : ∀ x, i < x → x < j → key a (ary.getD x 0) ≤ key a (ary.getD i 0)) :
    List.Perm (sort_j a i n j ary) ary ∧
    (∀ x, x < i → (sort_j a i n j ary).getD x 0 = ary.getD x 0) ∧
    (∀ y, i ≤ y → y < ary.length →
      ∃ z, i ≤ z ∧ z < ary.length ∧ (sort_j a i n j ary).getD y 0 = ary.getD z 0) ∧
    (∀ x, i < x → x < j + n →
      key a ((sort_j a i n j ary).getD x 0) ≤ key a ((sort_j a i n j ary).getD i 0)) := by
  induction n generalizing j ary with
  | zero =>
    exact ⟨List.Perm.refl _, fun _ _ => rfl, fun y hy hl => ⟨y, hy, hl, rfl⟩, hmax⟩
  | succ n ih =>
    rw [sort_j]
    by_cases hgt : (nd a (ary.getD j 0)).start > (nd a (ary.getD i 0)).start
    · rw [if_pos hgt]
      have hjl : j < ary.length := by omega
      have hsl := swap_length ary i j
      obtain ⟨p1, p2, p3, p4⟩ := ih (j + 1) (swap ary i j) (by omega) (by rw [hsl]; omega)
        (by
          intro x hx1 hx2
          rw [swap_getD ary i j x hij hjl, swap_getD ary i j i hij hjl, if_neg (by omega),
            if_pos rfl]
          by_cases hxj : x = j
          · rw [if_pos hxj]; exact le_of_lt hgt
          · rw [if_neg hxj]
            exact le_trans (hmax x hx1 (by omega)) (le_of_lt hgt))
      refine ⟨p1.trans (swap_perm ary i j hij hjl), ?_, ?_, ?_⟩
      · intro x hx
        rw [p2 x hx, swap_getD ary i j x hij hjl, if_neg (by omega), if_neg (by omega)]
      · intro y hy hl
        obtain ⟨z, hz1, hz2, hz3⟩ := p3 y hy (by rw [hsl]; exact hl)
        rw [hsl] at hz2
        rw [hz3, swap_getD ary i j z hij hjl]
        by_cases h1 : z = i
        · rw [if_pos h1]; exact ⟨j, by omega, hjl, rfl⟩
        · rw [if_neg h1]
          by_cases h2 : z = j
          · rw [if_pos h2]; exact ⟨i, le_refl _, by omega, rfl⟩
          · rw [if_neg h2]; exact ⟨z, hz1, hz2, rfl⟩
      · intro x hx1 hx2
        exact p4 x hx1 (by omega)
    · rw [if_neg hgt]
      obtain ⟨p1, p2, p3, p4⟩ := ih (j + 1) ary (by omega) (by omega)
        (by
          intro x hx1 hx2
          by_cases hxj : x = j
          · rw [hxj]; exact Nat.le_of_not_lt hgt
          · exact hmax x hx1 (by omega))
      exact ⟨p1, p2, p3, fun x hx1 hx2 => p4 x hx1 (by omega)⟩

/-- The outer loop of `sort_nodes`: `n` iterations from `i`, on an array of
`num = i + n` pointers whose first `i` places are final. -/
theorem sort_i_spec (a : List node_t) (num n i : Nat) (ary : List Nat)
    (hnum : i + n = num) (hlen : ary.length = num)
    (hpre : ∀ x y, x < i → x < y → y < num →
      key a (ary.getD y 0) ≤ key a (ary.getD x 0)) :
    List.Perm (sort_i a num n i ary) ary ∧
    (∀ x y, x < y → y < num →
      key a ((sort_i a num n i ary).getD y 0) ≤ key a ((sort_i a num n i ary).getD x 0)) := by
  induction n generalizing i ary with
  | zero =>
    refine ⟨List.Perm.refl _, fun x y hxy hy => ?_⟩
    exact hpre x y (by omega) hxy hy
  | succ n ih =>
    rw [sort_i]
    obtain ⟨q1, q2, q3, q4⟩ := sort_j_spec a i (num - (i + 1)) (i + 1) ary (by omega)
      (by omega) (fun x h1 h2 => absurd h2 (by omega))
    obtain ⟨p1, p2⟩ := ih (i + 1) (sort_j a i (num - (i + 1)) (i + 1) ary) (by omega)
      (by rw [q1.length_eq]; exact hlen)
      (by
        intro x y hx hxy hy
        by_cases hxi : x = i
        · subst hxi
          exact q4 y hxy (by omega)
        · by_cases hyi : y < i
          · rw [q2 x (by omega), q2 y hyi]
            exact hpre x y (by omega) hxy hy
          · obtain ⟨z, hz1, hz2, hz3⟩ := q3 y (by omega) (by omega)
            rw [hz3, q2 x (by omega)]
            exact hpre x z (by omega) (by omega) (by omega))
    exact ⟨p1.trans q1, p2⟩

/-- The array after `sort_nodes` is a rearrangement of the array before, in
order of non-increasing start. -/
theorem sort_nodes_spec (a : List node_t) (ary : List Nat) :
    List.Perm (sort_nodes a ary.length ary) ary ∧
    (∀ x y, x < y → y < ary.length →
      key a ((sort_nodes a ary.length ary).getD y 0) ≤
        key a ((sort_nodes a ary.length ary).getD x 0)) :=
  sort_i_spec a ary.length ary.length 0 ary (by omega) rfl
    (fun x _ hx => absurd hx (Nat.not_lt_zero _))

/-! ## The child arrays after both building loops -/

theorem cnt_congr {a b : List node_t} (h : same_parent a b) (is : List Nat) (x : Nat) :
    cnt a is x = cnt b is x := by
  unfold cnt
  simp only [h.2]

theorem cnt_cons (a : List node_t) (i : Nat) (is : List Nat) (x : Nat) :
    cnt a (i :: is) x = (if (nd a i).parent = some x then 1 else 0) + cnt a is x := by
  unfold cnt
  rw [List.filter_cons]
  by_cases h : (nd a i).parent = some x
  · simp [h]; omega
  · simp [h]

theorem count_children_spec (is : List Nat) (a : List node_t)
    (hp : ∀ i ∈ is, ∀ p, (nd a i).parent = some p → p < a.length) :
    (count_children is a).length = a.length ∧
    ∀ x, nd (count_children is a) x =
      { nd a x with num_children := (nd a x).num_children + cnt a is x } := by
  induction is generalizing a with
  | nil => exact ⟨rfl, fun x => by simp [count_children, cnt]⟩
  | cons i is ih =>
    rw [count_children]
    cases hpar : (nd a i).parent with
    | none =>
      simp only
      obtain ⟨h1, h2⟩ := ih a (fun j hj => hp j (List.mem_cons_of_mem _ hj))
      refine ⟨h1, fun x => ?_⟩
      rw [h2 x, cnt_cons, hpar]
      simp
    | some p =>
      simp only
      have hpl : p < a.length := hp i (List.mem_cons_self _ _) p hpar
      have hsame : same_parent
          (upd a p (fun x => { x with num_children := x.num_children + 1 })) a := by
        refine ⟨length_upd _ _ _, fun x => ?_⟩
        rw [nd_upd]
        split
        · rename_i h; rw [h.1]
        · rfl
      obtain ⟨h1, h2⟩ := ih (upd a p (fun x => { x with num_children := x.num_children + 1 }))
        (by
          intro j hj q hq
          rw [hsame.2] at hq
          rw [hsame.1]
          exact hp j (List.mem_cons_of_mem _ hj) q hq)
      refine ⟨h1.trans hsame.1, fun x => ?_⟩
      rw [h2 x, cnt_congr hsame, cnt_cons, hpar, nd_upd]
      by_cases hx : x = p
      · subst hx
        rw [if_pos ⟨rfl, hpl⟩]
        simp only [if_true]
        congr 1
        omega
      · rw [if_neg (by omega)]
        have : ¬ (some p = some x) := fun e => hx (Option.some.inj e).symm
        rw [if_neg this]
        simp

theorem fill_slot_spec (i : Nat) (f : List Nat) (c k : Nat) (hk : 0 < k) (hc : f.length < c) :
    fill_slot i c (f.map some ++ List.replicate k none) =
      f.map some ++ some i :: List.replicate (k - 1) none := by
  induction f generalizing c with
  | nil =>
    obtain ⟨k, rfl⟩ : ∃ k', k = k' + 1 := ⟨k - 1, by omega⟩
    obtain ⟨c, rfl⟩ : ∃ c', c = c' + 1 := ⟨c - 1, by simp at hc; omega⟩
    simp [fill_slot, List.replicate_succ]
  | cons b f ih =>
    obtain ⟨c, rfl⟩ : ∃ c', c = c' + 1 := ⟨c - 1, by simp at hc; omega⟩
    rw [List.map_cons, List.cons_append, fill_slot, ih c (by simpa using hc), List.cons_append]

theorem add_child_slots (i c : Nat) (f : List Nat) (hc : f.length < c) :
    fill_slot i c (if c ≠ 0 ∧ slots f c = [] then List.replicate c none else slots f c) =
      slots (f ++ [i]) c := by
  by_cases hf : f = []
  · subst hf
    have h0 : c ≠ 0 := by simp at hc; omega
    rw [if_pos ⟨h0, by simp [slots]⟩]
    have := fill_slot_spec i [] c c (by omega) (by simpa using hc)
    simpa [slots] using this
  · have hne : slots f c ≠ [] := by
      unfold slots
      rw [if_neg hf]
      cases f with
      | nil => exact absurd rfl hf
      | cons b f => simp
    rw [if_neg (fun h => hne h.2)]
    unfold slots
    rw [if_neg hf, if_neg (by simp)]
    rw [fill_slot_spec i f c (c - f.length) (by omega) hc]
    simp [Nat.sub_sub]

theorem add_children_spec (is : List Nat) (a : List node_t) (f : Nat → List Nat)
    (hp : ∀ i ∈ is, ∀ p, (nd a i).parent = some p → p < a.length)
    (h1 : ∀ x, (nd a x).child = slots (f x) (nd a x).num_children)
    (h2 : ∀ x, (f x).length + cnt a is x ≤ (nd a x).num_children) :
    (add_children is a).length = a.length ∧
    ∀ x, nd (add_children is a) x =
      { nd a x with child := (slots
          (f x ++ is.filter (fun i => decide ((nd a i).parent = some x)))
          (nd a x).num_children) } := by
  induction is generalizing a f with
  | nil =>
    refine ⟨rfl, fun x => ?_⟩
    simp only [add_children, List.filter_nil, List.append_nil]
    rw [← h1 x]
  | cons i is ih =>
    rw [add_children]
    cases hpar : (nd a i).parent with
    | none =>
      simp only
      obtain ⟨g1, g2⟩ := ih a f (fun j hj => hp j (List.mem_cons_of_mem _ hj)) h1
        (by
          intro x
          have := h2 x
          rw [cnt_cons] at this
          omega)
      refine ⟨g1, fun x => ?_⟩
      rw [g2 x, List.filter_cons, hpar]
      simp
    | some p =>
      simp only
      have hpl : p < a.length := hp i (List.mem_cons_self _ _) p hpar
      have hfp : (f p).length < (nd a p).num_children := by
        have := h2 p
        rw [cnt_cons, hpar, if_pos rfl] at this
        omega
      have hnd : ∀ x, nd (add_child a p i) x =
          if x = p then { nd a p with child := slots (f p ++ [i]) (nd a p).num_children }
          else nd a x := by
        intro x
        unfold add_child
        rw [nd_upd]
        by_cases hx : x = p
        · rw [if_pos ⟨hx, hpl⟩, if_pos hx]
          simp only
          rw [h1 p, add_child_slots i _ (f p) hfp]
        · rw [if_neg (by omega), if_neg hx]
      have hsame : same_parent (add_child a p i) a := by
        refine ⟨by simp [add_child, length_upd], fun x => ?_⟩
        rw [hnd x]
        split
        · rename_i h; rw [h]
        · rfl
      have hnc : ∀ x, (nd (add_child a p i) x).num_children = (nd a x).num_children := by
        intro x
        rw [hnd x]
        split
        · rename_i h; rw [h]
        · rfl
      obtain ⟨g1, g2⟩ := ih (add_child a p i) (fun x => if x = p then f p ++ [i] else f x)
        (by
          intro j hj q hq
          rw [hsame.2] at hq
          rw [hsame.1]
          exact hp j (List.mem_cons_of_mem _ hj) q hq)
        (by
          intro x
          rw [hnc x, hnd x]
          by_cases hx : x = p
          · simp [hx]
          · simp [hx, h1 x])
        (by
          intro x
          rw [hnc x, cnt_congr hsame]
          have := h2 x
          rw [cnt_cons, hpar] at this
          by_cases hx : x = p
          · subst hx
            rw [if_pos rfl] at this
            simp only [if_true, List.length_append, List.length_singleton]
            omega
          · have hne : ¬ (some p = some x) := fun e => hx (Option.some.inj e).symm
            rw [if_neg hne] at this
            simp only [hx, if_false]
            omega)
      refine ⟨g1.trans hsame.1, fun x => ?_⟩
      rw [g2 x, hnc x, hnd x]
      simp only [hsame.2]
      rw [List.filter_cons, hpar]
      by_cases hx : x = p
      · subst hx
        simp
      · have : ¬ (some p = some x) := fun e => hx (Option.some.inj e).symm
        simp [hx, this]

/-- What both building loops leave: every node has as `num_children` the
number of area nodes of which it is the parent, and as child array those
nodes in index order, no slot left `NULL`; nothing else changes. -/
theorem build_children_spec (n : Nat) (a : List node_t)
    (hp : ∀ i, i < n → ∀ p, (nd a i).parent = some p → p < a.length)
    (h0 : ∀ x, (nd a x).num_children = 0 ∧ (nd a x).child = []) :
    ∀ x, nd (build_children n a) x =
      { nd a x with
        num_children := cnt a (List.range n) x
        child := ((List.range n).filter (fun i => decide ((nd a i).parent = some x))).map some } := by
  have hp2 : ∀ i ∈ List.range n, ∀ p, (nd a i).parent = some p → p < a.length :=
    fun i hi => hp i (List.mem_range.1 hi)
  obtain ⟨c1, c2⟩ := count_children_spec (List.range n) a hp2
  have hsame : same_parent (count_children (List.range n) a) a :=
    ⟨c1, fun x => by rw [c2 x]⟩
  have hnc : ∀ x, (nd (count_children (List.range n) a) x).num_children
      = cnt a (List.range n) x := by
    intro x; rw [c2 x]; simp [(h0 x).1]
  obtain ⟨_, g2⟩ := add_children_spec (List.range n) (count_children (List.range n) a)
    (fun _ => [])
    (by
      intro j hj q hq
      rw [hsame.2] at hq
      rw [hsame.1]
      exact hp2 j hj q hq)
    (by
      intro x
      rw [c2 x]
      simp [slots, (h0 x).2])
    (by
      intro x
      rw [hnc x, cnt_congr hsame]
      simp)
  intro x
  unfold build_children
  rw [g2 x, hnc x]
  simp only [hsame.2, List.nil_append]
  rw [c2 x]
  simp only [(h0 x).1, Nat.zero_add]
  congr 1
  unfold slots cnt
  split
  · rename_i h; rw [h]; rfl
  · simp

/-! ## Geometry of a valid input -/

theorem encloses_iff (a : List node_t) (i j : Nat) :
    encloses a i j = true ↔
      (nd a i).start ≤ (nd a j).start ∧ (nd a j).end_ ≤ (nd a i).end_ := by
  simp [encloses]

theorem duplicates_iff (a : List node_t) (i j : Nat) :
    duplicates a i j = true ↔
      (nd a i).start = (nd a j).start ∧ (nd a i).end_ = (nd a j).end_ := by
  simp [duplicates]

theorem geom_ok_coalesce (fmh : FmapHeader) (hv : valid_input fmh)
    (hd : distinct_ranges (coalesce (load fmh))) :
    geom_ok (coalesce (load fmh)).all_nodes (coalesce (load fmh)).numnodes := by
  obtain ⟨_, h2, h3, _, _⟩ := coalesce_inv_coalesce fmh
  obtain ⟨v1, v2, v3⟩ := hv
  have hroot : (nd (coalesce (load fmh)).all_nodes (coalesce (load fmh)).numnodes).start
        = fmh.fmap_base ∧
      (nd (coalesce (load fmh)).all_nodes (coalesce (load fmh)).numnodes).end_
        = fmh.fmap_base + fmh.fmap_size ∧
      (nd (coalesce (load fmh)).all_nodes (coalesce (load fmh)).numnodes).size
        = fmh.fmap_size := by
    rw [h2]
    exact ⟨Nat.mod_eq_of_lt (by omega), Nat.mod_eq_of_lt v1, Nat.mod_eq_of_lt (by omega)⟩
  have harea : ∀ x, x < (coalesce (load fmh)).numnodes → ∃ r ∈ fmh.areas,
      (nd (coalesce (load fmh)).all_nodes x).start = r.area_offset ∧
      (nd (coalesce (load fmh)).all_nodes x).end_ = r.area_offset + r.area_size ∧
      (nd (coalesce (load fmh)).all_nodes x).size = r.area_size := by
    intro x hx
    obtain ⟨r, hr, e1, e2, e3⟩ := h3 x hx
    obtain ⟨w1, _, _⟩ := v2 r hr
    refine ⟨r, hr, ?_, ?_, ?_⟩
    · rw [e1]; exact Nat.mod_eq_of_lt (by omega)
    · rw [e2]; exact Nat.mod_eq_of_lt w1
    · rw [e3]; exact Nat.mod_eq_of_lt (by omega)
  refine ⟨?_, ?_, ?_, hd⟩
  · intro x hx
    rcases Nat.lt_or_eq_of_le hx with hlt | heq
    · obtain ⟨r, _, e1, e2, e3⟩ := harea x hlt
      rw [e1, e2, e3]; omega
    · rw [heq, hroot.1, hroot.2.1, hroot.2.2]; omega
  · intro x hx
    obtain ⟨r, hr, e1, e2, _⟩ := harea x hx
    obtain ⟨_, w2, w3⟩ := v2 r hr
    rw [hroot.1, hroot.2.1, e1, e2]
    exact ⟨w2, w3⟩
  · intro x y hx hy
    rw [Bool.eq_false_iff]
    intro hov
    rw [overlaps_iff] at hov
    obtain ⟨r, hr, e1, e2, _⟩ := harea x hx
    obtain ⟨q, hq, f1, f2, _⟩ := harea y hy
    rw [e1, e2, f1, f2] at hov
    exact v3 r hr q hq hov

theorem geom_ok_congr {a b : List node_t} (h : same_geom a b) (n : Nat) (hg : geom_ok a n) :
    geom_ok b n := by
  obtain ⟨g1, g2, g3, g4⟩ := hg
  refine ⟨?_, ?_, ?_, ?_⟩
  · intro x hx
    rw [← (h x).1, ← (h x).2.1, ← (h x).2.2.1]
    exact g1 x hx
  · intro x hx
    rw [← (h x).1, ← (h x).2.1, ← (h n).1, ← (h n).2.1]
    exact g2 x hx
  · intro x y hx hy
    rw [← overlaps_congr h]; exact g3 x y hx hy
  · intro y hy x hx
    have := g4 y hy x hx
    simp only [duplicates, (h x).1, (h y).1, (h x).2.1, (h y).2.1] at this ⊢
    exact this

theorem scan_parent_le (a : List node_t) (n i : Nat) (hi : i < n) :
    scan_parent a n i ≤ n ∧ scan_parent a n i ≠ i := by
  obtain ⟨h1, _, _⟩ := scan_parent_spec a n i
  rcases h1 with h | ⟨h, h', _⟩
  · rw [h]; exact ⟨le_refl _, by omega⟩
  · exact ⟨le_of_lt h, h'⟩

theorem scan_parent_encloses (a : List node_t) (n i : Nat) (hg : geom_ok a n) (hi : i < n) :
    (nd a (scan_parent a n i)).start ≤ (nd a i).start ∧
    (nd a i).end_ ≤ (nd a (scan_parent a n i)).end_ := by
  obtain ⟨h1, _, _⟩ := scan_parent_spec a n i
  rcases h1 with h | ⟨_, _, h⟩
  · rw [h]; exact hg.2.1 i hi
  · exact (encloses_iff a _ i).1 h

/-- Two area nodes with the same parent: neither encloses the other. -/
theorem sibling_not_encloses (a : List node_t) (n i j : Nat) (hg : geom_ok a n)
    (hi : i < n) (hij : i ≠ j)
    (hp : scan_parent a n i = scan_parent a n j) :
    ¬ ((nd a i).start ≤ (nd a j).start ∧ (nd a j).end_ ≤ (nd a i).end_) := by
  intro henc
  obtain ⟨_, _, s3⟩ := scan_parent_spec a n j
  have hsz := s3 i hi hij ((encloses_iff a i j).2 henc)
  obtain ⟨pe1, pe2⟩ := scan_parent_encloses a n i hg hi
  obtain ⟨pl, pne⟩ := scan_parent_le a n i hi
  rw [← hp] at hsz
  obtain ⟨gi1, gi2⟩ := hg.1 i (le_of_lt hi)
  obtain ⟨gp1, gp2⟩ := hg.1 (scan_parent a n i) pl
  rw [gi2, gp2] at hsz
  have hdup : (nd a (scan_parent a n i)).start = (nd a i).start ∧
      (nd a (scan_parent a n i)).end_ = (nd a i).end_ := by omega
  rcases Nat.lt_or_gt_of_ne pne with hlt | hgt
  · have := hg.2.2.2 i (by omega) (scan_parent a n i) hlt
    rw [Bool.eq_false_iff] at this
    exact this ((duplicates_iff a _ _).2 hdup)
  · have := hg.2.2.2 (scan_parent a n i) (by omega) i hgt
    rw [Bool.eq_false_iff] at this
    exact this ((duplicates_iff a _ _).2 ⟨hdup.1.symm, hdup.2.symm⟩)

/-- Two area nodes with the same parent, `j` starting no later than `i`:
`j` ends where `i` starts or before. -/
theorem sibling_order (a : List node_t) (n i j : Nat) (hg : geom_ok a n)
    (hi : i < n) (hj : j < n) (hij : i ≠ j)
    (hp : scan_parent a n i = scan_parent a n j)
    (hs : (nd a j).start ≤ (nd a i).start) :
    (nd a j).end_ ≤ (nd a i).start := by
  have e1 := sibling_not_encloses a n i j hg hi hij hp
  have e2 := sibling_not_encloses a n j i hg hj (fun e => hij e.symm) hp.symm
  have o1 := hg.2.2.1 i j hi hj
  have o2 := hg.2.2.1 j i hj hi
  rw [Bool.eq_false_iff, Ne, overlaps_iff] at o1 o2
  obtain ⟨gi1, _⟩ := hg.1 i (le_of_lt hi)
  obtain ⟨gj1, _⟩ := hg.1 j (le_of_lt hj)
  omega

/-! ## Children and gaps tile the parent -/

theorem covers_append (x : Nat) (l1 l2 : List (Nat × Nat)) :
    covers x (l1 ++ l2) = covers x l1 + covers x l2 := by
  simp [covers, List.filter_append]

theorem covers_nil (x : Nat) : covers x [] = 0 := rfl

theorem covers_single (x s e : Nat) :
    covers x [(s, e)] = if s ≤ x ∧ x < e then 1 else 0 := by
  unfold covers
  by_cases h : s ≤ x ∧ x < e
  · simp [List.filter_cons, h]
  · simp [List.filter_cons, h]

theorem covers_gap_first (x : Nat) (pn c : node_t) (i : Nat) :
    covers x (gap_first pn c i) =
      if i = 0 ∧ c.end_ ≤ x ∧ x < pn.end_ then 1 else 0 := by
  unfold gap_first
  by_cases h1 : i = 0 ∧ pn.end_ ≠ c.end_
  · rw [if_pos h1, covers_single]
    by_cases h2 : c.end_ ≤ x ∧ x < pn.end_
    · rw [if_pos h2, if_pos ⟨h1.1, h2⟩]
    · rw [if_neg h2, if_neg (fun h3 => h2 h3.2)]
  · rw [if_neg h1, covers_nil, if_neg]
    intro h3
    apply h1
    refine ⟨h3.1, ?_⟩
    omega

theorem covers_gap_next (x : Nat) (pn c next : node_t) (i : Nat) :
    covers x (gap_next pn c next i) =
      if i < pn.num_children - 1 ∧ next.end_ ≤ x ∧ x < c.start then 1 else 0 := by
  unfold gap_next
  by_cases h1 : i < pn.num_children - 1 ∧ c.start ≠ next.end_
  · rw [if_pos h1, covers_single]
    by_cases h2 : next.end_ ≤ x ∧ x < c.start
    · rw [if_pos h2, if_pos ⟨h1.1, h2⟩]
    · rw [if_neg h2, if_neg (fun h3 => h2 h3.2)]
  · rw [if_neg h1, covers_nil, if_neg]
    intro h3
    apply h1
    refine ⟨h3.1, ?_⟩
    omega

theorem covers_gap_last (x : Nat) (pn c : node_t) (i : Nat) :
    covers x (gap_last pn c i) =
      if i = pn.num_children - 1 ∧ pn.start ≤ x ∧ x < c.start then 1 else 0 := by
  unfold gap_last
  by_cases h1 : i = pn.num_children - 1 ∧ c.start ≠ pn.start
  · rw [if_pos h1, covers_single]
    by_cases h2 : pn.start ≤ x ∧ x < c.start
    · rw [if_pos h2, if_pos ⟨h1.1, h2⟩]
    · rw [if_neg h2, if_neg (fun h3 => h2 h3.2)]
  · rw [if_neg h1, covers_nil, if_neg]
    intro h3
    apply h1
    refine ⟨h3.1, ?_⟩
    omega

/-- The first `k` iterations of the loop of `show` over children `cs 0`,
`cs 1`, ... that lie inside the node, each ending where the one before
starts or before: every byte from the end of child `k` (from the start of
the node, once all children are done) to the end of the node lies in exactly
one range, and no other byte lies in any. -/
theorem covers_rows (x : Nat) (pn : node_t) (cs : Nat → node_t)
    (hin : ∀ i, i < pn.num_children →
      pn.start ≤ (cs i).start ∧ (cs i).start ≤ (cs i).end_ ∧ (cs i).end_ ≤ pn.end_)
    (hord : ∀ i, i + 1 < pn.num_children → (cs (i + 1)).end_ ≤ (cs i).start)
    (k : Nat) (hk : k ≤ pn.num_children) :
    covers x ((List.range k).flatMap (fun i => piece_row pn (cs i) (cs (i + 1)) i)) =
      if k = 0 then 0
      else if k < pn.num_children then (if (cs k).end_ ≤ x ∧ x < pn.end_ then 1 else 0)
      else (if pn.start ≤ x ∧ x < pn.end_ then 1 else 0) := by
  induction k with
  | zero => simp [covers]
  | succ k ih =>
    have ih' := ih (by omega)
    obtain ⟨i1, i2, i3⟩ := hin k (by omega)
    rw [List.range_succ, List.flatMap_append, covers_append, ih']
    simp only [List.flatMap_cons, List.flatMap_nil, List.append_nil]
    unfold piece_row
    rw [covers_append, covers_append, covers_append, covers_single,
      covers_gap_first x pn (cs k) k, covers_gap_last x pn (cs k) k]
    rw [if_neg (by omega : ¬ (k + 1 = 0))]
    by_cases hlast : k + 1 < pn.num_children
    · have hnext := hord k hlast
      rw [covers_gap_next x pn (cs k) (cs (k + 1)) k, if_pos hlast]
      by_cases hk0 : k = 0
      · subst hk0
        simp only [if_true, true_and]
        split_ifs <;> omega
      · rw [if_neg hk0, if_pos (by omega : k < pn.num_children)]
        split_ifs <;> omega
    · rw [if_neg hlast]
      have hgn : gap_next pn (cs k) (cs (k + 1)) k = [] := by
        unfold gap_next
        rw [if_neg (by omega)]
      rw [hgn, covers_nil]
      by_cases hk0 : k = 0
      · subst hk0
        simp only [if_true, true_and]
        split_ifs <;> omega
      · rw [if_neg hk0, if_pos (by omega : k < pn.num_children)]
        split_ifs <;> omega

/-! ## The iteration bounds of the coalescing loops are never the reason to stop -/

theorem coalesce_j_fuel (i fuel j : Nat) (t : table_t) (h : t.numnodes - j ≤ fuel) (k : Nat) :
    coalesce_j i (fuel + k) j t = coalesce_j i fuel j t := by
  induction fuel generalizing j t with
  | zero =>
    have hj : ¬ j < t.numnodes := by omega
    cases k with
    | zero => rfl
    | succ k => simp [coalesce_j, hj]
  | succ fuel ih =>
    rw [show fuel + 1 + k = (fuel + k) + 1 by omega, coalesce_j, coalesce_j]
    split
    · split
      · exact ih (j + 1) _ (by simp only; omega)
      · exact ih (j + 1) t (by omega)
    · rfl

theorem coalesce_i_fuel (fuel i : Nat) (t : table_t) (h : t.numnodes - i ≤ fuel) (k : Nat) :
    coalesce_i (fuel + k) i t = coalesce_i fuel i t := by
  induction fuel generalizing i t with
  | zero =>
    have hi : ¬ i < t.numnodes := by omega
    cases k with
    | zero => rfl
    | succ k => simp [coalesce_i, hi]
  | succ fuel ih =>
    rw [show fuel + 1 + k = (fuel + k) + 1 by omega, coalesce_i, coalesce_i]
    split
    · apply ih
      have := (coalesce_j_shape i (t.numnodes - (i + 1)) (i + 1) t).2
      omega
    · rfl

/-- The inner loop of the coalescing pass stops because `j < numnodes`
fails: a larger bound gives the same table. -/
theorem coalesce_j_bound_enough (i : Nat) (t : table_t) (k : Nat) :
    coalesce_j i (t.numnodes - (i + 1) + k) (i + 1) t =
      coalesce_j i (t.numnodes - (i + 1)) (i + 1) t :=
  coalesce_j_fuel i _ (i + 1) t (le_refl _) k

/-- The outer loop of the coalescing pass stops because `i < numnodes`
fails: a larger bound gives the same table. -/
theorem coalesce_bound_enough (t : table_t) (k : Nat) :
    coalesce_i (t.numnodes + k) 0 t = coalesce t :=
  coalesce_i_fuel t.numnodes 0 t (by omega) k

/-! ## One row for each overlapping pair -/

theorem error_rows_append (l1 l2 : List out_t) :
    error_rows (l1 ++ l2) = error_rows l1 + error_rows l2 := by
  simp [error_rows, List.filter_append]

theorem resolve_step_rows (opt : Int) (a : List node_t) (i j : Nat) (s : scan_t) :
    error_rows (resolve_step opt a i j s).out = error_rows s.out + ov_count a i [j] := by
  unfold resolve_step ov_count
  by_cases hij : i = j
  · simp [hij]
  · by_cases hov : overlaps a i j = true
    · rw [if_neg hij, if_pos hov]
      simp only [error_rows_append]
      by_cases ho : opt < 2 <;> simp [hij, hov, ho, error_rows]
    · by_cases hen : (encloses a j i && decide ((nd a j).size < (nd a s.k).size)) = true
      · simp [hij, hov, hen]
      · simp [hij, hov, hen]

theorem resolve_j_rows (opt : Int) (a : List node_t) (i : Nat) (js : List Nat) (s : scan_t) :
    error_rows (resolve_j opt a i js s).out = error_rows s.out + ov_count a i js := by
  induction js generalizing s with
  | nil => simp [resolve_j, ov_count]
  | cons j js ih =>
    simp only [resolve_j]
    rw [ih, resolve_step_rows, ov_count_cons a i j js]
    omega

theorem resolve_i_rows (opt : Int) (n : Nat) (is : List Nat) (r : resolve_t) :
    error_rows (resolve_i opt n is r).out = error_rows r.out +
      (is.map (fun i => ov_count r.all_nodes i (List.range n))).sum := by
  induction is generalizing r with
  | nil => simp [resolve_i]
  | cons i is ih =>
    simp only [resolve_i]
    have hsp : same_but_parent (resolve_node opt n i r).all_nodes r.all_nodes := by
      rw [resolve_node_nodes]; exact same_but_parent_upd _ _ _
    have hg := same_but_parent_geom hsp
    have hmap : (List.map (fun x => ov_count (resolve_node opt n i r).all_nodes x (List.range n)) is)
        = List.map (fun x => ov_count r.all_nodes x (List.range n)) is := by
      apply List.map_congr_left
      intro x _
      exact ov_count_congr hg x _
    have hrow : error_rows (resolve_node opt n i r).out =
        error_rows r.out + ov_count r.all_nodes i (List.range n) := by
      unfold resolve_node
      simp only
      rw [resolve_j_rows]
    rw [ih, hmap, hrow, List.map_cons, List.sum_cons]
    omega

theorem resolve_rows (opt : Int) (t : table_t) :
    error_rows (resolve opt t).out = (overlap_pairs t.all_nodes t.numnodes).card := by
  unfold resolve
  rw [resolve_i_rows, sum_ov_count]
  simp [error_rows]

/-! ## Evaluation of scenario 2 -/

theorem load_ex_dup (nx ny : String) (b s t e : Nat)
    (h1 : b < s) (h2 : s ≤ t) (h3 : t < e) (h4 : e < U32) :
    load (ex_dup nx ny b s t e) =
      { all_nodes :=
          [{ name := nx, start := s, size := t - s, end_ := t, parent := none,
             num_children := 0, child := [], alias_ := [] },
           { name := ny, start := s, size := t - s, end_ := t, parent := none,
             num_children := 0, child := [], alias_ := [] },
           { name := "-entire flash-", start := b, size := e - b, end_ := e, parent := none,
             num_children := 0, child := [], alias_ := [] }]
        numnodes := 2 } := by
  have e1 : s % U32 = s := Nat.mod_eq_of_lt (by omega)
  have e2 : (t - s) % U32 = t - s := Nat.mod_eq_of_lt (by omega)
  have e3 : (s + (t - s)) % U32 = t := by
    rw [show s + (t - s) = t by omega]; exact Nat.mod_eq_of_lt (by omega)
  have e4 : b % U32 = b := Nat.mod_eq_of_lt (by omega)
  have e5 : (e - b) % U32 = e - b := Nat.mod_eq_of_lt (by omega)
  have e6 : (b + (e - b)) % U32 = e := by
    rw [show b + (e - b) = e by omega]; exact Nat.mod_eq_of_lt h4
  simp [load, ex_dup, mk_node, root_node, e1, e2, e3, e4, e5, e6]

theorem coalesce_ex_dup (nx ny : String) (b s t e : Nat)
    (h1 : b < s) (h2 : s ≤ t) (h3 : t < e) (h4 : e < U32) :
    coalesce (load (ex_dup nx ny b s t e)) =
      { all_nodes :=
          [{ name := nx, start := s, size := t - s, end_ := t, parent := none,
             num_children := 0, child := [], alias_ := [ny] },
           { name := "-entire flash-", start := b, size := e - b, end_ := e, parent := none,
             num_children := 0, child := [], alias_ := [] },
           { name := "-entire flash-", start := b, size := e - b, end_ := e, parent := none,
             num_children := 0, child := [], alias_ := [] }]
        numnodes := 1 } := by
  rw [load_ex_dup nx ny b s t e h1 h2 h3 h4]
  simp [coalesce, coalesce_i, coalesce_j, duplicates, nd, add_dupe, shift_down, upd]

theorem resolve_ex_dup (opt : Int) (nx ny : String) (b s t e : Nat)
    (h1 : b < s) (h2 : s ≤ t) (h3 : t < e) (h4 : e < U32) :
    resolve opt (coalesce (load (ex_dup nx ny b s t e))) =
      { all_nodes :=
          [{ name := nx, start := s, size := t - s, end_ := t, parent := some 1,
             num_children := 0, child := [], alias_ := [ny] },
           { name := "-entire flash-", start := b, size := e - b, end_ := e, parent := none,
             num_children := 0, child := [], alias_ := [] },
           { name := "-entire flash-", start := b, size := e - b, end_ := e, parent := none,
             num_children := 0, child := [], alias_ := [] }]
        errorcnt := 0
        out := [] } := by
  rw [coalesce_ex_dup nx ny b s t e h1 h2 h3 h4]
  simp [resolve, resolve_i, resolve_node, resolve_j, resolve_step, List.range, List.range.loop,
    upd, nd]

/-! ## The final table -/

theorem getD_mem_nat (l : List Nat) (i : Nat) (h : i < l.length) : l.getD i 0 ∈ l := by
  rw [List.getD_eq_getElem l 0 h]
  exact List.getElem_mem h

theorem getD_ne_of_nodup (l : List Nat) (hn : l.Nodup) (i j : Nat) (hi : i < l.length)
    (hj : j < l.length) (hij : i ≠ j) : l.getD i 0 ≠ l.getD j 0 := by
  rw [List.getD_eq_getElem l 0 hi, List.getD_eq_getElem l 0 hj]
  intro e
  exact hij ((hn.getElem_inj_iff).1 e)

theorem child_ptrs_map_some (l : List Nat) : child_ptrs (l.map some) = some l := by
  induction l with
  | nil => rfl
  | cons b l ih => simp [child_ptrs, ih]

/-- The final table in terms of the resolved one: only `num_children` and
`child` differ, and they hold the area nodes of which the node is the
parent. -/
theorem final_table_spec (opt : Int) (fmh : FmapHeader) (x : Nat) :
    nd (final_table opt fmh) x =
      { nd (resolve opt (coalesce (load fmh))).all_nodes x with
        num_children := cnt (resolve opt (coalesce (load fmh))).all_nodes
          (List.range (coalesce (load fmh)).numnodes) x
        child := ((List.range (coalesce (load fmh)).numnodes).filter (fun i =>
          decide ((nd (resolve opt (coalesce (load fmh))).all_nodes i).parent = some x))).map
            some } := by
  obtain ⟨c1, _, _, _, c5⟩ := coalesce_inv_coalesce fmh
  obtain ⟨r1, r2, _⟩ := resolve_spec opt (coalesce (load fmh)) (le_of_lt c1)
  unfold final_table
  apply build_children_spec
  · intro i hi q hq
    rw [r2 i hi] at hq
    have hq : scan_parent (coalesce (load fmh)).all_nodes (coalesce (load fmh)).numnodes i = q :=
      Option.some.inj hq
    have := (scan_parent_le (coalesce (load fmh)).all_nodes (coalesce (load fmh)).numnodes i hi).1
    rw [r1.1]
    omega
  · intro y
    have e := r1.2 y
    have e1 := congrArg node_t.num_children e
    have e2 := congrArg node_t.child e
    exact ⟨e1.trans (c5 y).2.1, e2.trans (c5 y).2.2⟩

theorem final_table_geom (opt : Int) (fmh : FmapHeader) :
    same_geom (coalesce (load fmh)).all_nodes (final_table opt fmh) := by
  obtain ⟨c1, _, _, _, _⟩ := coalesce_inv_coalesce fmh
  obtain ⟨r1, _, _⟩ := resolve_spec opt (coalesce (load fmh)) (le_of_lt c1)
  have hg := same_but_parent_geom r1
  intro x
  rw [final_table_spec opt fmh x]
  exact ⟨(hg x).1.symm, (hg x).2.1.symm, (hg x).2.2.1.symm, (hg x).2.2.2.symm⟩

/-! ## sort_nodes leaves an ordered array alone -/

theorem sort_j_sorted (a : List node_t) (i n j : Nat) (ary : List Nat)
    (h : ∀ y, j ≤ y → y < j + n → key a (ary.getD y 0) ≤ key a (ary.getD i 0)) :
    sort_j a i n j ary = ary := by
  induction n generalizing j with
  | zero => rfl
  | succ n ih =>
    rw [sort_j]
    have hj := h j (le_refl _) (by omega)
    unfold key at hj
    rw [if_neg (by omega)]
    exact ih (j + 1) (fun y h1 h2 => h y (by omega) (by omega))

theorem sort_i_sorted (a : List node_t) (num n i : Nat) (ary : List Nat)
    (hnum : i + n = num)
    (h : ∀ y, y < num → ∀ x, x < y → key a (ary.getD y 0) ≤ key a (ary.getD x 0)) :
    sort_i a num n i ary = ary := by
  induction n generalizing i with
  | zero => rfl
  | succ n ih =>
    rw [sort_i, sort_j_sorted a i (num - (i + 1)) (i + 1) ary
      (fun y h1 h2 => h y (by omega) i (by omega))]
    exact ih (i + 1) (by omega)

/-! ## The scan keeps the first of the smallest enclosers -/

theorem resolve_step_strict (opt : Int) (a : List node_t) (i j : Nat) (s : scan_t) :
    (resolve_step opt a i j s).k = s.k ∨
      ((resolve_step opt a i j s).k = j ∧ (nd a j).size < (nd a s.k).size) := by
  unfold resolve_step
  split
  · exact Or.inl rfl
  · split
    · exact Or.inl rfl
    · split
      · rename_i hen
        rw [Bool.and_eq_true, decide_eq_true_eq] at hen
        exact Or.inr ⟨rfl, hen.2⟩
      · exact Or.inl rfl

theorem resolve_j_first (opt : Int) (a : List node_t) (i : Nat) (js : List Nat) (s : scan_t)
    (hs : js.Pairwise (fun x y => x < y)) :
    (resolve_j opt a i js s).k = s.k ∨
      ((resolve_j opt a i js s).k ∈ js ∧
        (nd a (resolve_j opt a i js s).k).size < (nd a s.k).size ∧
        ∀ q ∈ js, q ≠ i → encloses a q i = true →
          (nd a q).size = (nd a (resolve_j opt a i js s).k).size →
          (resolve_j opt a i js s).k ≤ q) := by
  induction js generalizing s with
  | nil => exact Or.inl rfl
  | cons j js ih =>
    simp only [resolve_j]
    rw [List.pairwise_cons] at hs
    obtain ⟨_, g2, g3⟩ := resolve_step_k opt a i j s
    rcases ih (resolve_step opt a i j s) hs.2 with h | ⟨hm, hlt, hq⟩
    · rcases resolve_step_strict opt a i j s with g | ⟨gj, glt⟩
      · exact Or.inl (h.trans g)
      · refine Or.inr ⟨?_, ?_, ?_⟩
        · rw [h, gj]; exact List.mem_cons_self _ _
        · rw [h, gj]; exact glt
        · intro q hqm _ _ _
          rw [h, gj]
          rcases List.mem_cons.1 hqm with e | e
          · rw [e]
          · exact le_of_lt (hs.1 q e)
    · refine Or.inr ⟨List.mem_cons_of_mem _ hm, lt_of_lt_of_le hlt g2, ?_⟩
      intro q hqm hqi hqe hsz
      rcases List.mem_cons.1 hqm with e | e
      · subst e
        have := g3 hqi hqe
        omega
      · exact hq q e hqi hqe hsz

theorem nodup_range_pairwise (n : Nat) : (List.range n).Pairwise (fun x y => x < y) :=
  List.pairwise_lt_range n

/-! ## Counting the child references -/

theorem sum_fibers (l : List Nat) (f : Nat → Option Nat) (m : Nat)
    (h : ∀ i ∈ l, ∃ p, p < m ∧ f i = some p) :
    ((List.range m).map (fun x => (l.filter (fun i => decide (f i = some x))).length)).sum
      = l.length := by
  induction l with
  | nil => simp
  | cons a l ih =>
    obtain ⟨p, hp, hfa⟩ := h a (List.mem_cons_self _ _)
    have ih' := ih (fun i hi => h i (List.mem_cons_of_mem _ hi))
    have hsplit : ∀ x, ((a :: l).filter (fun i => decide (f i = some x))).length =
        (if x = p then 1 else 0) + (l.filter (fun i => decide (f i = some x))).length := by
      intro x
      rw [List.filter_cons, hfa]
      by_cases hx : x = p
      · subst hx; simp; omega
      · have : ¬ (some p = some x) := fun e => hx (Option.some.inj e).symm
        simp [hx, this]
    simp only [hsplit]
    rw [list_sum_range, Finset.sum_add_distrib,
      ← list_sum_range (fun x => (l.filter (fun i => decide (f i = some x))).length), ih',
      Finset.sum_ite_eq' (Finset.range m) p (fun _ => 1)]
    simp [hp]
    omega

theorem final_table_parent (opt : Int) (fmh : FmapHeader) (x : Nat) :
    (nd (final_table opt fmh) x).parent =
      if x < (coalesce (load fmh)).numnodes then
        some (scan_parent (coalesce (load fmh)).all_nodes (coalesce (load fmh)).numnodes x)
      else none := by
  obtain ⟨c1, _, _, _, c5⟩ := coalesce_inv_coalesce fmh
  obtain ⟨_, r2, r3⟩ := resolve_spec opt (coalesce (load fmh)) (le_of_lt c1)
  rw [final_table_spec opt fmh x]
  simp only
  by_cases hx : x < (coalesce (load fmh)).numnodes
  · rw [if_pos hx, r2 x hx]
  · rw [if_neg hx, r3 x (by omega)]
    exact (c5 x).1

/-- The child array of node `x` in the final table: the area nodes whose
scan selected `x`, in index order. -/
theorem final_table_child (opt : Int) (fmh : FmapHeader) (x : Nat) :
    (nd (final_table opt fmh) x).child =
      ((List.range (coalesce (load fmh)).numnodes).filter (fun i =>
        decide (scan_parent (coalesce (load fmh)).all_nodes (coalesce (load fmh)).numnodes i
          = x))).map some ∧
    (nd (final_table opt fmh) x).num_children = (nd (final_table opt fmh) x).child.length := by
  obtain ⟨c1, _, _, _, _⟩ := coalesce_inv_coalesce fmh
  obtain ⟨_, r2, _⟩ := resolve_spec opt (coalesce (load fmh)) (le_of_lt c1)
  have hf : (List.range (coalesce (load fmh)).numnodes).filter (fun i =>
      decide ((nd (resolve opt (coalesce (load fmh))).all_nodes i).parent = some x)) =
      (List.range (coalesce (load fmh)).numnodes).filter (fun i =>
        decide (scan_parent (coalesce (load fmh)).all_nodes (coalesce (load fmh)).numnodes i
          = x)) := by
    apply List.filter_congr
    intro i hi
    rw [r2 i (List.mem_range.1 hi)]
    simp
  rw [final_table_spec opt fmh x]
  simp only
  rw [← hf]
  exact ⟨rfl, by simp [cnt]⟩

theorem filter_eq_length_one (l : List (Option Nat)) (a : Option Nat) (hn : l.Nodup)
    (ha : a ∈ l) : (l.filter (fun c => decide (c = a))).length = 1 := by
  induction l with
  | nil => exact absurd ha (List.not_mem_nil a)
  | cons b l ih =>
    rw [List.nodup_cons] at hn
    rw [List.filter_cons]
    by_cases hb : b = a
    · subst hb
      have : l.filter (fun c => decide (c = b)) = [] := by
        rw [List.filter_eq_nil_iff]
        intro c hc
        simp only [decide_eq_true_eq]
        intro e
        exact hn.1 (e ▸ hc)
      simp [this]
    · have : a ∈ l := by
        rcases List.mem_cons.1 ha with e | e
        · exact absurd e.symm hb
        · exact e
      simp [hb, ih hn.2 this]

/-! ## The sorted children of a node on a valid input -/

/-- On a valid input with distinct ranges, the child array of `p` as `show`
sorts it: every child lies inside `p`, no child is inverted, and each child
ends where the one before it starts, or before. -/
theorem children_layout (opt : Int) (fmh : FmapHeader) (p : Nat)
    (hv : valid_input fmh) (hd : distinct_ranges (coalesce (load fmh))) :
    ∃ ary0 : List Nat,
      (if (nd (final_table opt fmh) p).child.length = (nd (final_table opt fmh) p).num_children
       then child_ptrs (nd (final_table opt fmh) p).child else none) = some ary0 ∧
      (∀ i, i < (nd (final_table opt fmh) p).num_children →
        (nd (final_table opt fmh) p).start ≤
          (nd (final_table opt fmh) ((sort_nodes (final_table opt fmh)
            (nd (final_table opt fmh) p).num_children ary0).getD i 0)).start ∧
        (nd (final_table opt fmh) ((sort_nodes (final_table opt fmh)
            (nd (final_table opt fmh) p).num_children ary0).getD i 0)).start ≤
          (nd (final_table opt fmh) ((sort_nodes (final_table opt fmh)
            (nd (final_table opt fmh) p).num_children ary0).getD i 0)).end_ ∧
        (nd (final_table opt fmh) ((sort_nodes (final_table opt fmh)
            (nd (final_table opt fmh) p).num_children ary0).getD i 0)).end_ ≤
          (nd (final_table opt fmh) p).end_) ∧
      (∀ i, i + 1 < (nd (final_table opt fmh) p).num_children →
        (nd (final_table opt fmh) ((sort_nodes (final_table opt fmh)
            (nd (final_table opt fmh) p).num_children ary0).getD (i + 1) 0)).end_ ≤
        (nd (final_table opt fmh) ((sort_nodes (final_table opt fmh)
            (nd (final_table opt fmh) p).num_children ary0).getD i 0)).start) := by
  have hg0 := geom_ok_coalesce fmh hv hd
  have hsg := final_table_geom opt fmh
  obtain ⟨hchild, hnum⟩ := final_table_child opt fmh p
  generalize hL : (List.range (coalesce (load fmh)).numnodes).filter (fun i =>
    decide (scan_parent (coalesce (load fmh)).all_nodes (coalesce (load fmh)).numnodes i = p))
    = L at hchild
  rw [hchild, List.length_map] at hnum
  have hLmem : ∀ c ∈ L, c < (coalesce (load fmh)).numnodes ∧
      scan_parent (coalesce (load fmh)).all_nodes (coalesce (load fmh)).numnodes c = p := by
    intro c hcm
    rw [← hL, List.mem_filter, List.mem_range, decide_eq_true_eq] at hcm
    exact hcm
  have hLnd : L.Nodup := by
    rw [← hL]; exact (List.nodup_range _).filter _
  obtain ⟨sp, ss⟩ := sort_nodes_spec (final_table opt fmh) L
  refine ⟨L, ?_, ?_, ?_⟩
  · rw [hchild, List.length_map, hnum, if_pos rfl, child_ptrs_map_some]
  · intro i hi
    rw [hnum] at hi ⊢
    have hm := hLmem _ (sp.mem_iff.1 (getD_mem_nat _ i (by rw [sp.length_eq]; exact hi)))
    have e := scan_parent_encloses _ _ _ hg0 hm.1
    rw [hm.2] at e
    have g := (hg0.1 _ (le_of_lt hm.1)).1
    rw [← (hsg p).1, ← (hsg p).2.1, ← (hsg _).1, ← (hsg _).2.1]
    exact ⟨e.1, g, e.2⟩
  · intro i hi
    rw [hnum] at hi ⊢
    have hm1 := hLmem _ (sp.mem_iff.1 (getD_mem_nat _ i (by rw [sp.length_eq]; omega)))
    have hm2 := hLmem _ (sp.mem_iff.1 (getD_mem_nat _ (i + 1) (by rw [sp.length_eq]; exact hi)))
    have hne := getD_ne_of_nodup _ ((sp.nodup_iff).2 hLnd) i (i + 1)
      (by rw [sp.length_eq]; omega) (by rw [sp.length_eq]; exact hi) (by omega)
    have hs := ss i (i + 1) (by omega) hi
    unfold key at hs
    rw [← (hsg _).2.1, ← (hsg _).1]
    rw [← (hsg _).1, ← (hsg _).1] at hs
    exact sibling_order _ _ _ _ hg0 hm1.1 hm2.1 hne (hm1.2.trans hm2.2.symm) hs

/-! ## What the printer adds to the output -/

theorem gap_rows_append (l1 l2 : List out_t) :
    gap_rows (l1 ++ l2) = gap_rows l1 + gap_rows l2 := by
  simp [gap_rows, List.filter_append]

theorem is_gap_row_gap (indent start end_ size : Nat) (name : String) :
    is_gap_row (line indent "" start end_ size ("  // gap in " ++ name)) = true := by
  simp [is_gap_row, line, String.data_append]

theorem gap_rows_node_rows (indent : Nat) (pn : node_t) : gap_rows (node_rows indent pn) = 0 := by
  unfold gap_rows node_rows
  rw [List.length_eq_zero, List.filter_eq_nil_iff]
  intro o ho
  rcases List.mem_cons.1 ho with e | e
  · rw [e]; simp [is_gap_row, line]
  · obtain ⟨a, _, e⟩ := List.mem_map.1 e
    rw [← e]; simp [is_gap_row, line]

theorem grows_refl (g : Nat) (s : show_t) : grows g s s :=
  ⟨[], by simp, fun o ho => absurd ho (List.not_mem_nil o), le_refl _, by simp [gap_rows]⟩

theorem grows_trans {g : Nat} {s1 s2 s3 : show_t} (h1 : grows g s1 s2) (h2 : grows g s2 s3) :
    grows g s1 s3 := by
  obtain ⟨r1, e1, l1, c1, g1⟩ := h1
  obtain ⟨r2, e2, l2, c2, g2⟩ := h2
  refine ⟨r1 ++ r2, by rw [e2, e1, List.append_assoc], ?_, le_trans c1 c2, ?_⟩
  · intro o ho
    rcases List.mem_append.1 ho with h | h
    · exact l1 o h
    · exact l2 o h
  · rw [gap_rows_append, g1, g2]
    by_cases hg : g ≠ 0
    · simp only [hg, if_true, ne_eq, not_false_eq_true]; omega
    · simp [hg]

theorem grows_empty (g indent start end_ : Nat) (name : String) (s : show_t) :
    grows g s (empty g indent start end_ name s) ∧
    (empty g indent start end_ name s).gapcount = s.gapcount + 1 := by
  unfold empty
  by_cases hg : g ≠ 0
  · refine ⟨⟨[line (indent + 1) "" start end_ ((end_ + U32 - start) % U32)
        ("  // gap in " ++ name)], by simp [hg], ?_, by simp, ?_⟩, rfl⟩
    · intro o ho
      rw [List.mem_singleton] at ho; rw [ho]; rfl
    · simp [gap_rows, List.filter_cons, is_gap_row_gap, hg]
  · refine ⟨⟨[], by simp [hg], fun o ho => absurd ho (List.not_mem_nil o), by simp, ?_⟩, rfl⟩
    simp [gap_rows, hg]

theorem grows_empties (g indent : Nat) (name : String) (gs : List (Nat × Nat)) (s : show_t) :
    grows g s (empties g indent name gs s) ∧
    (empties g indent name gs s).gapcount = s.gapcount + gs.length := by
  induction gs generalizing s with
  | nil => exact ⟨grows_refl g s, rfl⟩
  | cons x gs ih =>
    unfold empties
    rw [List.foldl_cons]
    obtain ⟨h1, h2⟩ := grows_empty g indent x.1 x.2 name s
    obtain ⟨h3, h4⟩ := ih (empty g indent x.1 x.2 name s)
    unfold empties at h3 h4
    refine ⟨grows_trans h1 h3, ?_⟩
    rw [h4, h2, List.length_cons]; omega

theorem grows_node_rows (g indent : Nat) (pn : node_t) (s : show_t) :
    grows g s { s with out := s.out ++ node_rows indent pn } := by
  refine ⟨node_rows indent pn, rfl, ?_, le_refl _, ?_⟩
  · intro o ho
    unfold node_rows at ho
    rcases List.mem_cons.1 ho with e | e
    · rw [e]; rfl
    · obtain ⟨a, _, e⟩ := List.mem_map.1 e
      rw [← e]; rfl
  · rw [gap_rows_node_rows]; simp

theorem empties_all_nodes (g indent : Nat) (name : String) (gs : List (Nat × Nat)) (s : show_t) :
    (empties g indent name gs s).all_nodes = s.all_nodes := by
  induction gs generalizing s with
  | nil => rfl
  | cons x gs ih =>
    unfold empties
    rw [List.foldl_cons]
    have h := ih (empty g indent x.1 x.2 name s)
    unfold empties at h
    rw [h]
    rfl

theorem show_succ (g fuel p indent sf : Nat) (s : show_t) :
    show_ g (fuel + 1) p indent sf s =
      match (if (nd s.all_nodes p).child.length = (nd s.all_nodes p).num_children
             then child_ptrs (nd s.all_nodes p).child else none) with
      | none => none
      | some ary0 =>
        (List.range (nd s.all_nodes p).num_children).foldlM (show_body g fuel p indent sf)
          (show_start p indent sf ary0 s) := by
  rw [show_]
  simp only
  cases (if (nd s.all_nodes p).child.length = (nd s.all_nodes p).num_children
      then child_ptrs (nd s.all_nodes p).child else none) with
  | none => rfl
  | some ary0 =>
    simp only
    unfold show_start node_rows
    by_cases h : sf ≠ 0
    · simp only [if_pos h]
      rfl
    · simp only [if_neg h]
      rfl

theorem grows_start (g p ind sf : Nat) (ary0 : List Nat) (s : show_t) :
    grows g s (show_start p ind sf ary0 s) ∧
    (sf ≠ 0 → (show_start p ind sf ary0 s).out = s.out ++ node_rows ind (nd s.all_nodes p)) := by
  by_cases h : sf ≠ 0
  · obtain ⟨rows, e1, e2, e3, e4⟩ := grows_node_rows g ind (nd s.all_nodes p) s
    refine ⟨⟨rows, ?_, e2, le_refl _, ?_⟩, fun _ => ?_⟩
    · unfold show_start; rw [if_pos h]; exact e1
    · rw [e4]; rfl
    · unfold show_start; rw [if_pos h]
  · refine ⟨⟨[], ?_, fun o ho => absurd ho (List.not_mem_nil o), le_refl _, ?_⟩,
      fun h2 => absurd h2 h⟩
    · unfold show_start; rw [if_neg h]; simp
    · have : (show_start p ind sf ary0 s).gapcount = s.gapcount := rfl
      rw [this]; simp [gap_rows]

/-- A property of pairs of states that holds of every state with itself and
goes through steps holds of the two ends of a loop. -/
theorem foldlM_rel (R : show_t → show_t → Prop) (hrefl : ∀ s, R s s)
    (htrans : ∀ s1 s2 s3, R s1 s2 → R s2 s3 → R s1 s3)
    (f : show_t → Nat → Option show_t)
    (hf : ∀ s i s2, f s i = some s2 → R s s2) (l : List Nat) (s s2 : show_t)
    (h : l.foldlM f s = some s2) : R s s2 := by
  induction l generalizing s with
  | nil =>
    simp only [List.foldlM_nil] at h
    cases h
    exact hrefl _
  | cons i l ih =>
    rw [List.foldlM_cons] at h
    cases hfi : f s i with
    | none => rw [hfi] at h; exact absurd h (by simp)
    | some s1 =>
      rw [hfi] at h
      exact htrans _ _ _ (hf s i s1 hfi) (ih s1 h)

theorem foldlM_grows (g : Nat) (f : show_t → Nat → Option show_t)
    (hf : ∀ s i s2, f s i = some s2 → grows g s s2) (l : List Nat) (s s2 : show_t)
    (h : l.foldlM f s = some s2) : grows g s s2 :=
  foldlM_rel (grows g) (grows_refl g) (fun _ _ _ h1 h2 => grows_trans h1 h2) f hf l s s2 h

/-- A loop whose steps have a result in every state that satisfies `I`, and
keep `I`, has a result from such a state. -/
theorem foldlM_total (I : show_t → Prop) (f : show_t → Nat → Option show_t) (l : List Nat)
    (hf : ∀ s, I s → ∀ i ∈ l, ∃ s2, f s i = some s2 ∧ I s2) (s : show_t) (hs : I s) :
    ∃ s2, l.foldlM f s = some s2 := by
  induction l generalizing s with
  | nil => exact ⟨s, rfl⟩
  | cons i l ih =>
    rw [List.foldlM_cons]
    obtain ⟨s1, h1, h2⟩ := hf s hs i (List.mem_cons_self _ _)
    rw [h1]
    exact ih (fun s hs i hi => hf s hs i (List.mem_cons_of_mem _ hi)) s1 h2

theorem foldlM_key {κ : Type} (k : show_t → κ) (f f2 : show_t → Nat → Option show_t)
    (hf : ∀ s s2 i, k s = k s2 → (f s i).map k = (f2 s2 i).map k)
    (l : List Nat) (s s2 : show_t) (h : k s = k s2) :
    (l.foldlM f s).map k = (l.foldlM f2 s2).map k := by
  induction l generalizing s s2 with
  | nil => simp [h]
  | cons i l ih =>
    rw [List.foldlM_cons, List.foldlM_cons]
    have e := hf s s2 i h
    cases h1 : f s i with
    | none =>
      rw [h1] at e
      cases h2 : f2 s2 i with
      | none => rfl
      | some y => rw [h2] at e; exact absurd e (by simp)
    | some x =>
      rw [h1] at e
      cases h2 : f2 s2 i with
      | none => rw [h2] at e; exact absurd e (by simp)
      | some y =>
        rw [h2] at e
        exact ih x y (by simpa using e)

theorem show_body_key (g g2 fuel p ind ind2 sf sf2 : Nat)
    (ih : ∀ (q i1 i2 f1 f2 : Nat) (s s2 : show_t), s.gapcount = s2.gapcount →
      s.all_nodes = s2.all_nodes →
      (show_ g fuel q i1 f1 s).map (fun x => (x.gapcount, x.all_nodes)) =
        (show_ g2 fuel q i2 f2 s2).map (fun x => (x.gapcount, x.all_nodes)))
    (t t2 : show_t) (i : Nat)
    (ht : (fun x : show_t => (x.gapcount, x.all_nodes)) t =
      (fun x : show_t => (x.gapcount, x.all_nodes)) t2) :
    (show_body g fuel p ind sf t i).map (fun x => (x.gapcount, x.all_nodes)) =
      (show_body g2 fuel p ind2 sf2 t2 i).map (fun x => (x.gapcount, x.all_nodes)) := by
  simp only [Prod.mk.injEq] at ht
  obtain ⟨hg, ha⟩ := ht
  unfold show_body
  rw [← ha]
  cases child_ptrs (nd t.all_nodes p).child with
  | none => rfl
  | some ary =>
    simp only
    have e := ih (ary.getD i 0) (ind + sf) (ind2 + sf2) 1 1
      (empties g ind (nd t.all_nodes p).name
        (gap_first (nd t.all_nodes p) (nd t.all_nodes (ary.getD i 0)) i) t)
      (empties g2 ind2 (nd t.all_nodes p).name
        (gap_first (nd t.all_nodes p) (nd t.all_nodes (ary.getD i 0)) i) t2)
      (by rw [(grows_empties _ _ _ _ _).2, (grows_empties _ _ _ _ _).2, hg])
      (by rw [empties_all_nodes, empties_all_nodes, ha])
    cases h1 : show_ g fuel (ary.getD i 0) (ind + sf) 1
        (empties g ind (nd t.all_nodes p).name
          (gap_first (nd t.all_nodes p) (nd t.all_nodes (ary.getD i 0)) i) t) with
    | none =>
      rw [h1] at e
      cases h2 : show_ g2 fuel (ary.getD i 0) (ind2 + sf2) 1
          (empties g2 ind2 (nd t.all_nodes p).name
            (gap_first (nd t.all_nodes p) (nd t.all_nodes (ary.getD i 0)) i) t2) with
      | none => rfl
      | some y => rw [h2] at e; exact absurd e (by simp)
    | some x =>
      rw [h1] at e
      cases h2 : show_ g2 fuel (ary.getD i 0) (ind2 + sf2) 1
          (empties g2 ind2 (nd t.all_nodes p).name
            (gap_first (nd t.all_nodes p) (nd t.all_nodes (ary.getD i 0)) i) t2) with
      | none => rw [h2] at e; exact absurd e (by simp)
      | some y =>
        rw [h2] at e
        simp only [Option.map_some', Option.some.injEq, Prod.mk.injEq] at e
        obtain ⟨exy, eaxy⟩ := e
        simp only
        rw [← eaxy]
        cases child_ptrs (nd x.all_nodes p).child with
        | none => rfl
        | some ary3 =>
          simp only [Option.map_some', Option.some.injEq, Prod.mk.injEq]
          refine ⟨?_, ?_⟩
          · rw [(grows_empties _ _ _ _ _).2, (grows_empties _ _ _ _ _).2,
              (grows_empties _ _ _ _ _).2, (grows_empties _ _ _ _ _).2, exy]
          · rw [empties_all_nodes, empties_all_nodes, empties_all_nodes, empties_all_nodes,
              eaxy]

/-- Whatever the display setting, the indentation and the flag: the counter
and the table after `show` are the same (and `show` has a result in both
runs or in none). -/
theorem show_gapcount (g g2 fuel p ind ind2 sf sf2 : Nat) (s s2 : show_t)
    (h : s.gapcount = s2.gapcount) (ha : s.all_nodes = s2.all_nodes) :
    (show_ g fuel p ind sf s).map (fun x => (x.gapcount, x.all_nodes)) =
      (show_ g2 fuel p ind2 sf2 s2).map (fun x => (x.gapcount, x.all_nodes)) := by
  induction fuel generalizing p ind ind2 sf sf2 s s2 with
  | zero => rfl
  | succ fuel ih =>
    rw [show_succ, show_succ, ← ha]
    cases (if (nd s.all_nodes p).child.length = (nd s.all_nodes p).num_children
        then child_ptrs (nd s.all_nodes p).child else none) with
    | none => rfl
    | some ary0 =>
      simp only
      apply foldlM_key
      · exact show_body_key g g2 fuel p ind ind2 sf sf2
          (fun q i1 i2 f1 f2 s s2 h1 h2 => ih q i1 i2 f1 f2 s s2 h1 h2)
      · unfold show_start
        simp only [Prod.mk.injEq]
        exact ⟨h, by rw [ha]⟩

/-- What `show` adds: rows of `line` only, starting, when the node itself is
shown, with the rows of the node and of its aliases. -/
theorem show_grows (g fuel p ind sf : Nat) (s s2 : show_t)
    (h : show_ g fuel p ind sf s = some s2) :
    grows g s s2 ∧
    (sf ≠ 0 → ∃ rest, s2.out = s.out ++ node_rows ind (nd s.all_nodes p) ++ rest) := by
  induction fuel generalizing p ind sf s s2 with
  | zero => exact absurd h (by simp [show_])
  | succ fuel ih =>
    rw [show_succ] at h
    cases hc : (if (nd s.all_nodes p).child.length = (nd s.all_nodes p).num_children
        then child_ptrs (nd s.all_nodes p).child else none) with
    | none => rw [hc] at h; exact absurd h (by simp)
    | some ary0 =>
      rw [hc] at h
      simp only at h
      have hbody : ∀ t i t2, show_body g fuel p ind sf t i = some t2 → grows g t t2 := by
        intro t i t2 ht
        unfold show_body at ht
        split at ht
        · exact absurd ht (by simp)
        · split at ht
          · exact absurd ht (by simp)
          · rename_i t1 h1
            split at ht
            · exact absurd ht (by simp)
            · injection ht with ht
              rw [← ht]
              exact grows_trans (grows_empties _ _ _ _ _).1
                (grows_trans (ih _ _ _ _ _ h1).1
                  (grows_trans (grows_empties _ _ _ _ _).1 (grows_empties _ _ _ _ _).1))
      have hfold := foldlM_grows g _ hbody _ _ _ h
      obtain ⟨hs1, hs2⟩ := grows_start g p ind sf ary0 s
      refine ⟨grows_trans hs1 hfold, fun hsf => ?_⟩
      obtain ⟨rows, e, _⟩ := hfold
      rw [hs2 hsf] at e
      exact ⟨rows, e⟩

/-! ## The printer rearranges the child arrays and nothing else -/

theorem child_perm_refl (a : List node_t) : child_perm a a := fun _ => ⟨rfl, List.Perm.refl _⟩

theorem child_perm_trans {a b c : List node_t} (h1 : child_perm a b) (h2 : child_perm b c) :
    child_perm a c := fun x =>
  ⟨(h2 x).1.trans (h1 x).1, (h2 x).2.trans (h1 x).2⟩

theorem child_ptrs_eq (c : List (Option Nat)) (l : List Nat) (h : child_ptrs c = some l) :
    c = l.map some := by
  induction c generalizing l with
  | nil =>
    simp only [child_ptrs, Option.some.injEq] at h
    rw [← h]; rfl
  | cons x c ih =>
    cases x with
    | none => exact absurd h (by simp [child_ptrs])
    | some v =>
      rw [child_ptrs] at h
      cases hc : child_ptrs c with
      | none => rw [hc] at h; exact absurd h (by simp)
      | some l2 =>
        rw [hc] at h
        simp only [Option.map_some', Option.some.injEq] at h
        rw [← h, ih l2 hc]; rfl

theorem perm_map_some (c : List (Option Nat)) (l : List Nat) (h : List.Perm c (l.map some)) :
    ∃ l2, c = l2.map some ∧ List.Perm l2 l := by
  have hall : ∀ o ∈ c, ∃ v, o = some v := by
    intro o ho
    obtain ⟨v, _, e⟩ := List.mem_map.1 (h.mem_iff.1 ho)
    exact ⟨v, e.symm⟩
  have hc : c = (c.map (fun o => o.getD 0)).map some := by
    rw [List.map_map]
    conv_lhs => rw [← List.map_id c]
    apply List.map_congr_left
    intro o ho
    obtain ⟨v, e⟩ := hall o ho
    rw [e]; rfl
  refine ⟨c.map (fun o => o.getD 0), hc, ?_⟩
  have h2 := h.map (fun o => o.getD 0)
  rw [List.map_map] at h2
  have e : ((fun o : Option Nat => o.getD 0) ∘ some) = id := rfl
  rw [e, List.map_id] at h2
  exact h2

theorem child_perm_start (p ind sf : Nat) (ary0 : List Nat) (s : show_t)
    (hc : (if (nd s.all_nodes p).child.length = (nd s.all_nodes p).num_children
      then child_ptrs (nd s.all_nodes p).child else none) = some ary0) :
    child_perm s.all_nodes (show_start p ind sf ary0 s).all_nodes := by
  have hlen : (nd s.all_nodes p).child.length = (nd s.all_nodes p).num_children := by
    by_contra hn
    rw [if_neg hn] at hc
    exact absurd hc (by simp)
  rw [if_pos hlen] at hc
  have hch := child_ptrs_eq _ _ hc
  have hnum : (nd s.all_nodes p).num_children = ary0.length := by
    rw [← hlen, hch, List.length_map]
  intro x
  unfold show_start
  simp only
  rw [nd_upd]
  by_cases hx : x = p ∧ p < s.all_nodes.length
  · rw [if_pos hx, hx.1]
    refine ⟨rfl, ?_⟩
    simp only
    rw [hnum]
    conv_rhs => rw [hch]
    exact (sort_nodes_spec s.all_nodes ary0).1.map some
  · rw [if_neg hx]
    exact ⟨rfl, List.Perm.refl _⟩

/-- Source `show` leaves every node as it is but for the order of its child
array. -/
theorem show_child_perm (g fuel p ind sf : Nat) (s s2 : show_t)
    (h : show_ g fuel p ind sf s = some s2) : child_perm s.all_nodes s2.all_nodes := by
  induction fuel generalizing p ind sf s s2 with
  | zero => exact absurd h (by simp [show_])
  | succ fuel ih =>
    rw [show_succ] at h
    cases hc : (if (nd s.all_nodes p).child.length = (nd s.all_nodes p).num_children
        then child_ptrs (nd s.all_nodes p).child else none) with
    | none => rw [hc] at h; exact absurd h (by simp)
    | some ary0 =>
      rw [hc] at h
      simp only at h
      have hbody : ∀ t i t2, show_body g fuel p ind sf t i = some t2 →
          child_perm t.all_nodes t2.all_nodes := by
        intro t i t2 ht
        unfold show_body at ht
        split at ht
        · exact absurd ht (by simp)
        · split at ht
          · exact absurd ht (by simp)
          · rename_i t1 h1
            split at ht
            · exact absurd ht (by simp)
            · injection ht with ht
              have q := ih _ _ _ _ _ h1
              rw [empties_all_nodes] at q
              rw [← ht, empties_all_nodes, empties_all_nodes]
              exact q
      have hfold := foldlM_rel (fun s s2 => child_perm s.all_nodes s2.all_nodes)
        (fun s => child_perm_refl _) (fun _ _ _ h1 h2 => child_perm_trans h1 h2)
        _ hbody _ _ _ h
      exact child_perm_trans (child_perm_start p ind sf ary0 s hc) hfold

/-! ## The printer has a result -/

theorem nodup_bounded_length (l : List Nat) (n : Nat) (hn : l.Nodup) (hb : ∀ x ∈ l, x < n) :
    l.length ≤ n := by
  rw [← List.toFinset_card_of_nodup hn, ← Finset.card_range n]
  apply Finset.card_le_card
  intro x hx
  rw [List.mem_toFinset] at hx
  exact Finset.mem_range.2 (hb x hx)

theorem at_depth_le (a : List node_t) (n k c : Nat) (h : at_depth a n k c) : k ≤ n := by
  obtain ⟨h1, h2⟩ := h
  have key : ∀ m1 m2, m1 < m2 → m2 < k → (up a n)^[m1] c ≠ (up a n)^[m2] c := by
    intro m1 m2 h12 hm2 e
    have e2 : (up a n)^[m1 + (k - m2)] c = n := by
      rw [Nat.add_comm, Function.iterate_add_apply, e, ← Function.iterate_add_apply,
        show k - m2 + m2 = k by omega]
      exact h1
    have := h2 (m1 + (k - m2)) (by omega)
    omega
  have hl := nodup_bounded_length ((List.range k).map (fun m => (up a n)^[m] c)) n
    (by
      rw [List.nodup_map_iff_inj_on (List.nodup_range k)]
      intro x hx y hy e
      rw [List.mem_range] at hx hy
      rcases Nat.lt_trichotomy x y with hlt | heq | hgt
      · exact absurd e (key x y hlt hy)
      · exact heq
      · exact absurd e.symm (key y x hgt hx))
    (by
      intro x hx
      obtain ⟨m, hm, e⟩ := List.mem_map.1 hx
      rw [← e]
      exact h2 m (List.mem_range.1 hm))
  simpa using hl

theorem at_depth_child (a : List node_t) (n k p c : Nat) (h : at_depth a n k p)
    (hc : c < n) (hp : scan_parent a n c = p) : at_depth a n (k + 1) c := by
  have hup : up a n c = p := by
    unfold up
    rw [if_pos hc, hp]
  obtain ⟨h1, h2⟩ := h
  refine ⟨?_, ?_⟩
  · rw [Function.iterate_succ_apply, hup]; exact h1
  · intro m hm
    cases m with
    | zero => exact hc
    | succ m =>
      rw [Function.iterate_succ_apply, hup]
      exact h2 m (by omega)

/-- The child array of `p` in a table that is the final table with the child
arrays rearranged: it has `num_children` slots, none `NULL`, and the area
nodes in it are those whose parent is `p`. -/
theorem child_perm_final (opt : Int) (fmh : FmapHeader) (a : List node_t)
    (ha : child_perm (final_table opt fmh) a) (p : Nat) :
    ∃ ary : List Nat, (nd a p).child = ary.map some ∧
      ary.length = (nd a p).num_children ∧
      ∀ c ∈ ary, c < (coalesce (load fmh)).numnodes ∧
        scan_parent (coalesce (load fmh)).all_nodes (coalesce (load fmh)).numnodes c = p := by
  obtain ⟨hchild, hnum⟩ := final_table_child opt fmh p
  obtain ⟨h1, h2⟩ := ha p
  rw [hchild] at h2
  obtain ⟨ary, e1, e2⟩ := perm_map_some _ _ h2
  refine ⟨ary, e1, ?_, ?_⟩
  · have e3 := congrArg node_t.num_children h1
    simp only at e3
    rw [e3, hnum, hchild, List.length_map]
    exact e2.length_eq
  · intro c hc
    have := e2.mem_iff.1 hc
    rw [List.mem_filter, List.mem_range, decide_eq_true_eq] at this
    exact this

/-- From a table that is the final table with the child arrays rearranged,
`show`, called on a node `k` steps below the root with a bound of at least
`numnodes + 1 - k`, has a result. -/
theorem show_total (opt : Int) (fmh : FmapHeader) (g fuel p k ind sf : Nat) (s : show_t)
    (hs : child_perm (final_table opt fmh) s.all_nodes)
    (hd : at_depth (coalesce (load fmh)).all_nodes (coalesce (load fmh)).numnodes k p)
    (hf : (coalesce (load fmh)).numnodes + 1 ≤ fuel + k) :
    ∃ s2, show_ g fuel p ind sf s = some s2 := by
  induction fuel generalizing p k ind sf s with
  | zero =>
    have := at_depth_le _ _ _ _ hd
    omega
  | succ fuel ih =>
    rw [show_succ]
    obtain ⟨ary0, e1, e2, _⟩ := child_perm_final opt fmh s.all_nodes hs p
    have hc : (if (nd s.all_nodes p).child.length = (nd s.all_nodes p).num_children
        then child_ptrs (nd s.all_nodes p).child else none) = some ary0 := by
      rw [e1, List.length_map, if_pos e2, child_ptrs_map_some]
    rw [hc]
    simp only
    apply foldlM_total (fun t => child_perm (final_table opt fmh) t.all_nodes)
    · intro t ht i hi
      rw [List.mem_range] at hi
      obtain ⟨ary, a1, a2, a3⟩ := child_perm_final opt fmh t.all_nodes ht p
      have hnum : (nd t.all_nodes p).num_children = (nd s.all_nodes p).num_children := by
        have q1 := congrArg node_t.num_children (ht p).1
        have q2 := congrArg node_t.num_children (hs p).1
        simp only at q1 q2
        rw [q1, q2]
      have hm := a3 _ (getD_mem_nat ary i (by omega))
      unfold show_body
      rw [a1, child_ptrs_map_some]
      simp only
      obtain ⟨t1, h1⟩ := ih (ary.getD i 0) (k + 1) (ind + sf) 1
        (empties g ind (nd t.all_nodes p).name
          (gap_first (nd t.all_nodes p) (nd t.all_nodes (ary.getD i 0)) i) t)
        (by rw [empties_all_nodes]; exact ht)
        (at_depth_child _ _ _ _ _ hd hm.1 hm.2) (by omega)
      rw [h1]
      simp only
      have ht1 : child_perm (final_table opt fmh) t1.all_nodes := by
        have q := show_child_perm _ _ _ _ _ _ _ h1
        rw [empties_all_nodes] at q
        exact child_perm_trans ht q
      obtain ⟨ary3, b1, _, _⟩ := child_perm_final opt fmh t1.all_nodes ht1 p
      rw [b1, child_ptrs_map_some]
      simp only
      refine ⟨_, rfl, ?_⟩
      rw [empties_all_nodes, empties_all_nodes]
      exact ht1
    · exact child_perm_trans hs (child_perm_start p ind sf ary0 s hc)

/-- Source `human_fmap` returns for every input: 1 when resolution counted
an error, 0 otherwise. -/
theorem human_fmap_total (opt : Int) (gaps : Nat) (fmh : FmapHeader) :
    ∃ r, human_fmap opt gaps fmh = some r ∧
      r.retval = (if (resolve opt (coalesce (load fmh))).errorcnt ≠ 0 then 1 else 0) ∧
      r.errorcnt = (resolve opt (coalesce (load fmh))).errorcnt := by
  unfold human_fmap
  simp only
  split
  · rename_i h
    exact ⟨_, rfl, by simp [h], rfl⟩
  · rename_i h
    obtain ⟨s2, h2⟩ := show_total opt fmh gaps ((coalesce (load fmh)).numnodes + 1)
      (coalesce (load fmh)).numnodes 0 0 gaps
      { all_nodes := final_table opt fmh,
        out := (resolve opt (coalesce (load fmh))).out ++ [out_t.header], gapcount := 0 }
      (child_perm_refl _)
      ⟨rfl, fun m hm => absurd hm (Nat.not_lt_zero m)⟩ (by omega)
    unfold final_table at h2
    rw [h2]
    exact ⟨_, rfl, by simp [h], rfl⟩

/-- When `human_fmap` returns 0, the table it leaves is the table handed to
`show` with the child arrays rearranged; nothing else has changed. -/
theorem human_fmap_table (opt : Int) (gaps : Nat) (fmh : FmapHeader) (r : result_t)
    (hr : human_fmap opt gaps fmh = some r) (h0 : r.retval = 0) :
    child_perm (final_table opt fmh) r.all_nodes ∧
    r.numnodes = (coalesce (load fmh)).numnodes := by
  unfold human_fmap at hr
  simp only at hr
  split at hr
  · injection hr with hr
    rw [← hr] at h0
    exact absurd h0 (by simp)
  · split at hr
    · exact absurd hr (by simp)
    · rename_i s2 h2
      injection hr with hr
      rw [← hr]
      exact ⟨show_child_perm _ _ _ _ _ _ _ h2, rfl⟩

/-! ## Gap rows and the warning in a complete run -/

theorem gap_rows_of_diag (out : List out_t) (h : ∀ o ∈ out, is_diag o = true) :
    gap_rows out = 0 ∧ out_t.warning ∉ out := by
  refine ⟨?_, ?_⟩
  · unfold gap_rows
    rw [List.length_eq_zero, List.filter_eq_nil_iff]
    intro o ho
    have := h o ho
    cases o <;> simp [is_diag, is_gap_row] at this ⊢
  · intro hw
    have := h _ hw
    simp [is_diag] at this

theorem warning_not_line (rows : List out_t) (h : ∀ o ∈ rows, is_line_row o = true) :
    out_t.warning ∉ rows := by
  intro hw
  have := h _ hw
  simp [is_line_row] at this

/-- A complete run, whatever the options: it has a result; the gap rows are
as many as the gaps counted when gaps are displayed and none otherwise; the
warning is written exactly when gaps were counted and are not displayed. -/
theorem human_fmap_rows (opt : Int) (gaps : Nat) (fmh : FmapHeader) :
    ∃ r, human_fmap opt gaps fmh = some r ∧
      gap_rows r.out = (if gaps ≠ 0 then r.gapcount else 0) ∧
      (out_t.warning ∈ r.out ↔ (r.gapcount ≠ 0 ∧ gaps = 0)) := by
  have hdiag := gap_rows_of_diag _ (resolve_out_diag opt (coalesce (load fmh)))
  by_cases herr : (resolve opt (coalesce (load fmh))).errorcnt ≠ 0
  · refine ⟨{ retval := 1, out := (resolve opt (coalesce (load fmh))).out,
              all_nodes := (resolve opt (coalesce (load fmh))).all_nodes,
              numnodes := (coalesce (load fmh)).numnodes,
              errorcnt := (resolve opt (coalesce (load fmh))).errorcnt, gapcount := 0 },
      ?_, ?_, ?_⟩
    · unfold human_fmap
      simp only
      rw [if_pos herr]
    · simp only
      rw [hdiag.1]; simp
    · simp only
      constructor
      · intro h; exact absurd h hdiag.2
      · intro h; exact absurd rfl h.1
  · obtain ⟨s2, h2⟩ := show_total opt fmh gaps ((coalesce (load fmh)).numnodes + 1)
      (coalesce (load fmh)).numnodes 0 0 gaps
      { all_nodes := final_table opt fmh,
        out := (resolve opt (coalesce (load fmh))).out ++ [out_t.header], gapcount := 0 }
      (child_perm_refl _)
      ⟨rfl, fun m hm => absurd hm (Nat.not_lt_zero m)⟩ (by omega)
    obtain ⟨⟨rows, e1, e2, _, e4⟩, _⟩ := show_grows _ _ _ _ _ _ _ h2
    simp only at e1 e4
    have hhead : gap_rows ((resolve opt (coalesce (load fmh))).out ++ [out_t.header]) = 0 := by
      rw [gap_rows_append, hdiag.1]; rfl
    have hnw : out_t.warning ∉ s2.out := by
      rw [e1]
      intro hw
      rcases List.mem_append.1 hw with h | h
      · rcases List.mem_append.1 h with h | h
        · exact hdiag.2 h
        · simp at h
      · exact warning_not_line rows e2 h
    have hrows : gap_rows s2.out = (if gaps ≠ 0 then s2.gapcount else 0) := by
      rw [e1, gap_rows_append, hhead, e4]; simp
    refine ⟨{ retval := 0,
              out := s2.out ++ (if s2.gapcount ≠ 0 ∧ gaps = 0 then [out_t.warning] else []),
              all_nodes := s2.all_nodes, numnodes := (coalesce (load fmh)).numnodes,
              errorcnt := (resolve opt (coalesce (load fmh))).errorcnt,
              gapcount := s2.gapcount }, ?_, ?_, ?_⟩
    · unfold human_fmap
      simp only
      rw [if_neg herr]
      unfold final_table at h2
      rw [h2]
    · simp only
      have hw0 : gap_rows (if s2.gapcount ≠ 0 ∧ gaps = 0 then [out_t.warning] else []) = 0 := by
        split <;> rfl
      rw [gap_rows_append, hrows, hw0, Nat.add_zero]
    · simp only
      by_cases hw : s2.gapcount ≠ 0 ∧ gaps = 0
      · rw [if_pos hw]
        simp [hw]
      · rw [if_neg hw]
        simp only [List.append_nil]
        constructor
        · intro h; exact absurd h hnw
        · intro h; exact absurd h hw

/-- The counter of a complete run does not depend on the display setting,
nor does the table that the run leaves. -/
theorem human_fmap_gapcount (opt : Int) (g g2 : Nat) (fmh : FmapHeader) :
    (human_fmap opt g fmh).map (fun r => (r.gapcount, r.all_nodes)) =
      (human_fmap opt g2 fmh).map (fun r => (r.gapcount, r.all_nodes)) := by
  unfold human_fmap
  simp only
  split
  · rfl
  · have e := show_gapcount
      g g2 ((coalesce (load fmh)).numnodes + 1) (coalesce (load fmh)).numnodes 0 0 g g2
      { all_nodes := build_children (coalesce (load fmh)).numnodes
          (resolve opt (coalesce (load fmh))).all_nodes,
        out := (resolve opt (coalesce (load fmh))).out ++ [out_t.header], gapcount := 0 }
      { all_nodes := build_children (coalesce (load fmh)).numnodes
          (resolve opt (coalesce (load fmh))).all_nodes,
        out := (resolve opt (coalesce (load fmh))).out ++ [out_t.header], gapcount := 0 }
      rfl rfl
    cases h1 : show_ g ((coalesce (load fmh)).numnodes + 1) (coalesce (load fmh)).numnodes 0 g
        { all_nodes := build_children (coalesce (load fmh)).numnodes
            (resolve opt (coalesce (load fmh))).all_nodes,
          out := (resolve opt (coalesce (load fmh))).out ++ [out_t.header], gapcount := 0 } with
    | none =>
      rw [h1] at e
      cases h2 : show_ g2 ((coalesce (load fmh)).numnodes + 1) (coalesce (load fmh)).numnodes
          0 g2
          { all_nodes := build_children (coalesce (load fmh)).numnodes
              (resolve opt (coalesce (load fmh))).all_nodes,
            out := (resolve opt (coalesce (load fmh))).out ++ [out_t.header],
            gapcount := 0 } with
      | none => rfl
      | some y => rw [h2] at e; exact absurd e (by simp)
    | some x =>
      rw [h1] at e
      cases h2 : show_ g2 ((coalesce (load fmh)).numnodes + 1) (coalesce (load fmh)).numnodes
          0 g2
          { all_nodes := build_children (coalesce (load fmh)).numnodes
              (resolve opt (coalesce (load fmh))).all_nodes,
            out := (resolve opt (coalesce (load fmh))).out ++ [out_t.header],
            gapcount := 0 } with
      | none => rw [h2] at e; exact absurd e (by simp)
      | some y =>
        rw [h2] at e
        simpa using e

/-! ## The calls of add_dupe: induction with the loop position -/

theorem coalesce_j_merge (i fuel j : Nat) (t : table_t) (hj : j < t.numnodes)
    (hd : duplicates t.all_nodes i j = true) :
    coalesce_j i (fuel + 1) j t = coalesce_j i fuel (j + 1) (merge_step i j t) := by
  rw [coalesce_j, if_pos hj, if_pos hd]
  rfl

theorem coalesce_j_pos (i : Nat) (PI : Nat → table_t → Prop)
    (hmerge : ∀ j t, PI j t → j < t.numnodes → duplicates t.all_nodes i j = true →
      PI (j + 1) (merge_step i j t))
    (hskip : ∀ j t, PI j t → j < t.numnodes → PI (j + 1) t)
    (fuel j : Nat) (t : table_t) (h : PI j t) :
    (∃ j2, PI j2 (coalesce_j i fuel j t)) ∧
    ∀ e ∈ coalesce_j_log i fuel j t, e.i = i ∧ PI e.j e.before ∧ e.j < e.before.numnodes ∧
      duplicates e.before.all_nodes e.i e.j = true := by
  induction fuel generalizing j t with
  | zero => exact ⟨⟨j, h⟩, fun e he => absurd he (List.not_mem_nil e)⟩
  | succ fuel ih =>
    by_cases hj : j < t.numnodes
    · by_cases hd : duplicates t.all_nodes i j = true
      · rw [coalesce_j_merge i fuel j t hj hd, coalesce_j_log, if_pos hj, if_pos hd]
        obtain ⟨h1, h2⟩ := ih (j + 1) (merge_step i j t) (hmerge j t h hj hd)
        refine ⟨h1, fun e he => ?_⟩
        rcases List.mem_cons.1 he with e1 | e1
        · rw [e1]; exact ⟨rfl, h, hj, hd⟩
        · exact h2 e e1
      · rw [coalesce_j, if_pos hj, if_neg hd, coalesce_j_log, if_pos hj, if_neg hd]
        exact ih (j + 1) t (hskip j t h hj)
    · rw [coalesce_j, if_neg hj, coalesce_j_log, if_neg hj]
      exact ⟨⟨j, h⟩, fun e he => absurd he (List.not_mem_nil e)⟩

theorem coalesce_i_pos (PO : Nat → table_t → Prop) (PI : Nat → Nat → table_t → Prop)
    (henter : ∀ i t, PO i t → i < t.numnodes → PI i (i + 1) t)
    (hexit : ∀ i j t, PI i j t → PO (i + 1) t)
    (hmerge : ∀ i j t, PI i j t → j < t.numnodes → duplicates t.all_nodes i j = true →
      PI i (j + 1) (merge_step i j t))
    (hskip : ∀ i j t, PI i j t → j < t.numnodes → PI i (j + 1) t)
    (fuel i : Nat) (t : table_t) (h : PO i t) :
    (∃ i2, PO i2 (coalesce_i fuel i t)) ∧
    ∀ e ∈ coalesce_i_log fuel i t, PI e.i e.j e.before ∧ e.j < e.before.numnodes ∧
      duplicates e.before.all_nodes e.i e.j = true := by
  induction fuel generalizing i t with
  | zero => exact ⟨⟨i, h⟩, fun e he => absurd he (List.not_mem_nil e)⟩
  | succ fuel ih =>
    by_cases hi : i < t.numnodes
    · rw [coalesce_i, if_pos hi, coalesce_i_log, if_pos hi]
      obtain ⟨⟨j2, g1⟩, g2⟩ := coalesce_j_pos i (PI i) (hmerge i) (hskip i)
        (t.numnodes - (i + 1)) (i + 1) t (henter i t h hi)
      obtain ⟨h1, h2⟩ := ih (i + 1) _ (hexit i j2 _ g1)
      refine ⟨h1, fun e he => ?_⟩
      rcases List.mem_append.1 he with e1 | e1
      · obtain ⟨q1, q2, q3, q4⟩ := g2 e e1
        rw [q1] at q4 ⊢
        exact ⟨q2, q3, q4⟩
      · exact h2 e e1
    · rw [coalesce_i, if_neg hi, coalesce_i_log, if_neg hi]
      exact ⟨⟨i, h⟩, fun e he => absurd he (List.not_mem_nil e)⟩

/-- Induction over the coalescing pass with the loop position: `PO i` holds
between two rounds of the outer loop, `PI i j` inside round `i` before `j` is
tested. Then `PO` holds at the end and `PI` holds at every call of
`add_dupe`. -/
theorem coalesce_pos (PO : Nat → table_t → Prop) (PI : Nat → Nat → table_t → Prop)
    (henter : ∀ i t, PO i t → i < t.numnodes → PI i (i + 1) t)
    (hexit : ∀ i j t, PI i j t → PO (i + 1) t)
    (hmerge : ∀ i j t, PI i j t → j < t.numnodes → duplicates t.all_nodes i j = true →
      PI i (j + 1) (merge_step i j t))
    (hskip : ∀ i j t, PI i j t → j < t.numnodes → PI i (j + 1) t)
    (t : table_t) (h : PO 0 t) :
    (∃ i2, PO i2 (coalesce t)) ∧
    ∀ e ∈ coalesce_log t, PI e.i e.j e.before ∧ e.j < e.before.numnodes ∧
      duplicates e.before.all_nodes e.i e.j = true :=
  coalesce_i_pos PO PI henter hexit hmerge hskip t.numnodes 0 t h

/-- The table after one merge, entry by entry: node `i` gets the name of
node `j` in front of its alias list, the entries from `j` up to the root
move down by one, nothing else changes. -/
theorem nd_merge_step_eq (t : table_t) (i j x : Nat) (hij : i < j) (hj : j < t.numnodes)
    (hn : t.numnodes < t.all_nodes.length) :
    nd (merge_step i j t).all_nodes x =
      if x = i then
        { nd t.all_nodes i with
          alias_ := (nd t.all_nodes j).name :: (nd t.all_nodes i).alias_ }
      else if j ≤ x ∧ x < t.numnodes then nd t.all_nodes (x + 1)
      else nd t.all_nodes x := by
  unfold merge_step
  simp only
  rw [nd_add_dupe i j t.numnodes x t.all_nodes (le_of_lt hj)]
  by_cases hx : x = i
  · rw [if_pos hx, if_neg (by omega), nd_upd, if_pos ⟨hx, by omega⟩]
  · rw [if_neg hx]
    by_cases h2 : j ≤ x ∧ x < t.numnodes
    · rw [if_pos h2, if_pos h2, nd_upd, if_neg (by omega)]
    · rw [if_neg h2, if_neg h2, nd_upd, if_neg (by omega)]

/-! ## The alias lists and the order of the merges -/

theorem replay_append (t : table_t) (l1 l2 : List merge_t) :
    replay t (l1 ++ l2) = replay (replay t l1) l2 := by
  induction l1 generalizing t with
  | nil => rfl
  | cons e l ih => exact ih _

theorem is_trace_append (t : table_t) (l1 l2 : List merge_t) (h1 : is_trace t l1)
    (h2 : is_trace (replay t l1) l2) : is_trace t (l1 ++ l2) := by
  induction l1 generalizing t with
  | nil => exact h2
  | cons e l ih => exact ⟨h1.1, ih _ h1.2 h2⟩

theorem coalesce_j_trace (i fuel j : Nat) (t : table_t) :
    is_trace t (coalesce_j_log i fuel j t) ∧
    replay t (coalesce_j_log i fuel j t) = coalesce_j i fuel j t := by
  induction fuel generalizing j t with
  | zero => exact ⟨trivial, rfl⟩
  | succ fuel ih =>
    by_cases hj : j < t.numnodes
    · by_cases hd : duplicates t.all_nodes i j = true
      · rw [coalesce_j_merge i fuel j t hj hd, coalesce_j_log, if_pos hj, if_pos hd]
        exact ⟨⟨rfl, (ih (j + 1) (merge_step i j t)).1⟩, (ih (j + 1) (merge_step i j t)).2⟩
      · rw [coalesce_j, if_pos hj, if_neg hd, coalesce_j_log, if_pos hj, if_neg hd]
        exact ih (j + 1) t
    · rw [coalesce_j, if_neg hj, coalesce_j_log, if_neg hj]
      exact ⟨trivial, rfl⟩

theorem coalesce_i_trace (fuel i : Nat) (t : table_t) :
    is_trace t (coalesce_i_log fuel i t) ∧
    replay t (coalesce_i_log fuel i t) = coalesce_i fuel i t := by
  induction fuel generalizing i t with
  | zero => exact ⟨trivial, rfl⟩
  | succ fuel ih =>
    by_cases hi : i < t.numnodes
    · rw [coalesce_i, if_pos hi, coalesce_i_log, if_pos hi]
      obtain ⟨j1, j2⟩ := coalesce_j_trace i (t.numnodes - (i + 1)) (i + 1) t
      obtain ⟨h1, h2⟩ := ih (i + 1) (coalesce_j i (t.numnodes - (i + 1)) (i + 1) t)
      refine ⟨is_trace_append _ _ _ j1 (by rw [j2]; exact h1), ?_⟩
      rw [replay_append, j2, h2]
    · rw [coalesce_i, if_neg hi, coalesce_i_log, if_neg hi]
      exact ⟨trivial, rfl⟩

/-- The log of the pass is the sequence of its merges, in the order in which
they are made, and the pass leaves the table that these merges give. -/
theorem coalesce_trace (t : table_t) :
    is_trace t (coalesce_log t) ∧ replay t (coalesce_log t) = coalesce t :=
  coalesce_i_trace t.numnodes 0 t

/-- Resolution and the building of the child arrays leave the alias lists
alone. -/
theorem final_table_alias (opt : Int) (fmh : FmapHeader) (x : Nat) :
    (nd (final_table opt fmh) x).alias_ = (nd (coalesce (load fmh)).all_nodes x).alias_ := by
  obtain ⟨c1, _, _, _, _⟩ := coalesce_inv_coalesce fmh
  obtain ⟨r1, _, _⟩ := resolve_spec opt (coalesce (load fmh)) (le_of_lt c1)
  rw [final_table_spec opt fmh x]
  have e := congrArg node_t.alias_ (r1.2 x)
  exact e

theorem coalesce_j_alias (i fuel j : Nat) (t : table_t) (hij : i < j)
    (hn : t.numnodes < t.all_nodes.length) :
    (nd (coalesce_j i fuel j t).all_nodes i).alias_ =
      ((coalesce_j_log i fuel j t).map merged_name).reverse ++ (nd t.all_nodes i).alias_ ∧
    (∀ x, x < i → nd (coalesce_j i fuel j t).all_nodes x = nd t.all_nodes x) ∧
    (∀ e ∈ coalesce_j_log i fuel j t, e.i = i) ∧
    ((∀ x, i < x → x < t.numnodes → (nd t.all_nodes x).alias_ = []) →
      ∀ x, i < x → x < (coalesce_j i fuel j t).numnodes →
        (nd (coalesce_j i fuel j t).all_nodes x).alias_ = []) ∧
    (coalesce_j i fuel j t).numnodes < (coalesce_j i fuel j t).all_nodes.length := by
  induction fuel generalizing j t with
  | zero =>
    exact ⟨by simp [coalesce_j, coalesce_j_log], fun _ _ => rfl,
      fun e he => absurd he (List.not_mem_nil e), fun h => h, hn⟩
  | succ fuel ih =>
    by_cases hj : j < t.numnodes
    · by_cases hd : duplicates t.all_nodes i j = true
      · rw [coalesce_j_merge i fuel j t hj hd, coalesce_j_log, if_pos hj, if_pos hd]
        have hn1 : (merge_step i j t).numnodes < (merge_step i j t).all_nodes.length := by
          rw [merge_step_length]
          have : (merge_step i j t).numnodes = t.numnodes - 1 := rfl
          omega
        obtain ⟨h1, h2, h3, h4, h5⟩ := ih (j + 1) (merge_step i j t) (by omega) hn1
        refine ⟨?_, ?_, ?_, ?_, h5⟩
        · rw [h1, nd_merge_step_eq t i j i hij hj hn, if_pos rfl]
          simp [merged_name]
        · intro x hx
          rw [h2 x hx, nd_merge_step_eq t i j x hij hj hn, if_neg (by omega), if_neg (by omega)]
        · intro e he
          rcases List.mem_cons.1 he with e1 | e1
          · rw [e1]
          · exact h3 e e1
        · intro hemp
          apply h4
          intro x hx1 hx2
          have hx3 : x < t.numnodes - 1 := hx2
          rw [nd_merge_step_eq t i j x hij hj hn, if_neg (by omega)]
          by_cases hc : j ≤ x ∧ x < t.numnodes
          · rw [if_pos hc]; exact hemp (x + 1) (by omega) (by omega)
          · rw [if_neg hc]; exact hemp x hx1 (by omega)
      · rw [coalesce_j, if_pos hj, if_neg hd, coalesce_j_log, if_pos hj, if_neg hd]
        exact ih (j + 1) t (by omega) hn
    · rw [coalesce_j, if_neg hj, coalesce_j_log, if_neg hj]
      exact ⟨by simp, fun _ _ => rfl, fun e he => absurd he (List.not_mem_nil e), fun h => h, hn⟩

theorem filter_eq_nil_of_ne (l : List merge_t) (x : Nat) (h : ∀ e ∈ l, e.i ≠ x) :
    l.filter (fun e => decide (e.i = x)) = [] := by
  rw [List.filter_eq_nil_iff]
  intro e he
  simp [h e he]

theorem filter_eq_self_of_eq (l : List merge_t) (x : Nat) (h : ∀ e ∈ l, e.i = x) :
    l.filter (fun e => decide (e.i = x)) = l := by
  rw [List.filter_eq_self]
  intro e he
  simp [h e he]

theorem coalesce_i_alias (fuel i : Nat) (t : table_t)
    (hn : t.numnodes < t.all_nodes.length)
    (hemp : ∀ x, i ≤ x → x < t.numnodes → (nd t.all_nodes x).alias_ = []) :
    (∀ x, x < i → nd (coalesce_i fuel i t).all_nodes x = nd t.all_nodes x) ∧
    (∀ e ∈ coalesce_i_log fuel i t, i ≤ e.i) ∧
    (∀ x, i ≤ x → x < (coalesce_i fuel i t).numnodes →
      (nd (coalesce_i fuel i t).all_nodes x).alias_ =
        (((coalesce_i_log fuel i t).filter (fun e => decide (e.i = x))).map merged_name).reverse)
    := by
  induction fuel generalizing i t with
  | zero =>
    refine ⟨fun _ _ => rfl, fun e he => absurd he (List.not_mem_nil e), fun x h1 h2 => ?_⟩
    simp only [coalesce_i, coalesce_i_log, List.filter_nil, List.map_nil, List.reverse_nil]
    exact hemp x h1 h2
  | succ fuel ih =>
    by_cases hi : i < t.numnodes
    · rw [coalesce_i, if_pos hi, coalesce_i_log, if_pos hi]
      obtain ⟨j1, j2, j3, j4, j5⟩ := coalesce_j_alias i (t.numnodes - (i + 1)) (i + 1) t
        (by omega) hn
      obtain ⟨h1, h2, h3⟩ := ih (i + 1) (coalesce_j i (t.numnodes - (i + 1)) (i + 1) t) j5
        (fun x hx1 hx2 => j4 (fun y hy1 hy2 => hemp y (by omega) hy2) x (by omega) hx2)
      refine ⟨?_, ?_, ?_⟩
      · intro x hx
        rw [h1 x (by omega), j2 x hx]
      · intro e he
        rcases List.mem_append.1 he with e1 | e1
        · rw [j3 e e1]
        · have := h2 e e1; omega
      · intro x hx1 hx2
        rw [List.filter_append]
        by_cases hxi : x = i
        · subst hxi
          rw [h1 x (by omega), j1, hemp x (le_refl _) hi,
            filter_eq_self_of_eq (coalesce_j_log x (t.numnodes - (x + 1)) (x + 1) t) x j3,
            filter_eq_nil_of_ne (coalesce_i_log fuel (x + 1)
              (coalesce_j x (t.numnodes - (x + 1)) (x + 1) t)) x
              (fun e he => by have := h2 e he; omega)]
          simp
        · rw [h3 x (by omega) hx2,
            filter_eq_nil_of_ne (coalesce_j_log i (t.numnodes - (i + 1)) (i + 1) t) x
              (fun e he => by rw [j3 e he]; omega)]
          simp
    · rw [coalesce_i, if_neg hi, coalesce_i_log, if_neg hi]
      refine ⟨fun _ _ => rfl, fun e he => absurd he (List.not_mem_nil e), fun x h1 h2 => ?_⟩
      simp only [List.filter_nil, List.map_nil, List.reverse_nil]
      exact hemp x h1 h2

/-- After the coalescing pass the alias list of every area node holds the
names merged into that node, the last merged first. -/
theorem coalesce_alias (fmh : FmapHeader) (x : Nat) (hx : x < (coalesce (load fmh)).numnodes) :
    (nd (coalesce (load fmh)).all_nodes x).alias_ =
      (((coalesce_log (load fmh)).filter (fun e => decide (e.i = x))).map merged_name).reverse := by
  obtain ⟨c1, _, _, _, _⟩ := coalesce_inv_load fmh
  have hemp : ∀ y, 0 ≤ y → y < (load fmh).numnodes → (nd (load fmh).all_nodes y).alias_ = [] := by
    intro y _ hy
    have hy2 : y < fmh.areas.length := hy
    simp [nd, load, List.getElem?_append_left, hy2, mk_node]
  exact (coalesce_i_alias (load fmh).numnodes 0 (load fmh) c1 hemp).2.2 x (Nat.zero_le _) hx

/-- Every call of `add_dupe` made by the pass has `i < j < numnodes`, below
the length of the array, and puts the name of node `j` in front of the alias
list of node `i`. -/
theorem coalesce_log_prepends (fmh : FmapHeader) :
    ∀ e ∈ coalesce_log (load fmh),
      e.i < e.j ∧ e.j < e.before.numnodes ∧ e.before.numnodes < e.before.all_nodes.length ∧
      (nd (merge_step e.i e.j e.before).all_nodes e.i).alias_ =
        merged_name e :: (nd e.before.all_nodes e.i).alias_ := by
  obtain ⟨c1, _, _, _, _⟩ := coalesce_inv_load fmh
  have key := (coalesce_pos (fun _ t => t.numnodes < t.all_nodes.length)
    (fun i j t => i < j ∧ t.numnodes < t.all_nodes.length)
    (fun i t h _ => ⟨by omega, h⟩)
    (fun i j t h => h.2)
    (fun i j t h hj _ => ⟨by omega, by
      rw [merge_step_length]
      have : (merge_step i j t).numnodes = t.numnodes - 1 := rfl
      omega⟩)
    (fun i j t h _ => ⟨by omega, h.2⟩)
    (load fmh) c1).2
  intro e he
  obtain ⟨⟨k1, k2⟩, k3, _⟩ := key e he
  refine ⟨k1, k3, k2, ?_⟩
  rw [nd_merge_step_eq e.before e.i e.j e.i k1 k3 k2, if_pos rfl]
  rfl

/-! ## Bookkeeping of the records through the coalescing pass -/

theorem gd_ghost_merge (g : List (Nat × List Nat)) (i j x : Nat) (hij : i < j)
    (hj : j < g.length) :
    gd (ghost_merge i j g) x =
      if x = i then ((gd g i).1, (gd g j).1 :: (gd g i).2)
      else if j ≤ x then gd g (x + 1) else gd g x := by
  unfold ghost_merge
  generalize ((gd g i).1, (gd g j).1 :: (gd g i).2) = v
  unfold gd
  simp only [List.getD_eq_getElem?_getD, List.getElem?_eraseIdx, List.getElem?_set]
  by_cases h1 : x = i
  · subst h1
    rw [if_pos hij, if_pos rfl, if_pos (by omega), if_pos rfl]
    rfl
  · rw [if_neg h1]
    by_cases h2 : j ≤ x
    · rw [if_neg (by omega), if_neg (by omega), if_pos h2]
    · rw [if_pos (by omega), if_neg (by omega), if_neg h2]

theorem ghost_flat_cons (p : Nat × List Nat) (g : List (Nat × List Nat)) :
    ghost_flat (p :: g) = p.1 :: (p.2 ++ ghost_flat g) := by
  simp [ghost_flat, List.flatMap_cons]

theorem ghost_flat_erase (g : List (Nat × List Nat)) (j : Nat) (hj : j < g.length)
    (he : (gd g j).2 = []) :
    List.Perm (ghost_flat g) ((gd g j).1 :: ghost_flat (g.eraseIdx j)) := by
  induction g generalizing j with
  | nil => exact absurd hj (by simp)
  | cons p g ih =>
    cases j with
    | zero =>
      have hp : p.2 = [] := he
      rw [ghost_flat_cons, hp]
      exact List.Perm.refl _
    | succ j =>
      have h1 : gd (p :: g) (j + 1) = gd g j := by simp [gd]
      rw [h1] at he ⊢
      rw [List.eraseIdx_cons_succ, ghost_flat_cons, ghost_flat_cons]
      have hj2 : j < g.length := by simpa using hj
      have q := ih j hj2 he
      have q2 : List.Perm (p.2 ++ ghost_flat g)
          ((gd g j).1 :: (p.2 ++ ghost_flat (g.eraseIdx j))) :=
        ((List.Perm.append_left p.2 q).trans List.perm_middle)
      exact (List.Perm.cons p.1 q2).trans (List.Perm.swap _ _ _)

theorem ghost_flat_merge (g : List (Nat × List Nat)) (i j : Nat) (hij : i < j)
    (hj : j < g.length) (he : (gd g j).2 = []) :
    List.Perm (ghost_flat (ghost_merge i j g)) (ghost_flat g) := by
  induction g generalizing i j with
  | nil => exact absurd hj (by simp)
  | cons p g ih =>
    cases j with
    | zero => exact absurd hij (Nat.not_lt_zero i)
    | succ j =>
      have hj2 : j < g.length := by simpa using hj
      have h1 : gd (p :: g) (j + 1) = gd g j := by simp [gd]
      rw [h1] at he
      cases i with
      | zero =>
        have h0 : gd (p :: g) 0 = p := by simp [gd]
        unfold ghost_merge
        rw [h0, h1, List.set_cons_zero, List.eraseIdx_cons_succ, ghost_flat_cons,
          ghost_flat_cons]
        have q := ghost_flat_erase g j hj2 he
        refine List.Perm.cons p.1 ?_
        show List.Perm ((gd g j).1 :: p.2 ++ ghost_flat (g.eraseIdx j)) (p.2 ++ ghost_flat g)
        exact (List.perm_middle.symm).trans (List.Perm.append_left p.2 q.symm)
      | succ i =>
        have h2 : gd (p :: g) (i + 1) = gd g i := by simp [gd]
        have q := ih i j (by omega) hj2 he
        unfold ghost_merge at q ⊢
        rw [h1, h2, List.set_cons_succ, List.eraseIdx_cons_succ, ghost_flat_cons,
          ghost_flat_cons]
        exact List.Perm.cons p.1 (List.Perm.append_left p.2 q)

theorem ghost_flat_init (l : List Nat) :
    ghost_flat (l.map (fun o => (o, ([] : List Nat)))) = l := by
  induction l with
  | nil => rfl
  | cons o l ih => rw [List.map_cons, ghost_flat_cons, ih]; rfl

theorem ghost_inv_load (fmh : FmapHeader) :
    ghost_inv fmh (load fmh) ((List.range fmh.areas.length).map (fun o => (o, []))) ∧
    ∀ x, (gd ((List.range fmh.areas.length).map (fun o => (o, ([] : List Nat)))) x).2 = [] := by
  have hgd : ∀ x, x < fmh.areas.length →
      gd ((List.range fmh.areas.length).map (fun o => (o, ([] : List Nat)))) x = (x, []) := by
    intro x hx
    simp [gd, List.getD_eq_getElem?_getD, List.getElem?_map, List.getElem?_range hx]
  refine ⟨⟨by simp [load], by simp [load], ?_, ?_, ?_, ?_⟩, ?_⟩
  · intro x hx
    have hx2 : x < fmh.areas.length := hx
    rw [hgd x hx2]
    simp [nd, load, List.getElem?_append_left, hx2, ghost_node, area_at,
      List.getD_eq_getElem?_getD, mk_node]
  · rw [List.map_map]
    have : (Prod.fst ∘ fun (o : Nat) => (o, ([] : List Nat))) = id := rfl
    rw [this, List.map_id]
  · intro x hx o ho
    have hx2 : x < fmh.areas.length := hx
    rw [hgd x hx2] at ho
    exact absurd ho (List.not_mem_nil o)
  · rw [ghost_flat_init]
  · intro x
    by_cases hx : x < fmh.areas.length
    · rw [hgd x hx]
    · simp [gd, List.getD_eq_getElem?_getD, List.getElem?_map]

theorem ghost_inv_merge (fmh : FmapHeader) (t : table_t) (g : List (Nat × List Nat))
    (i j : Nat) (h : ghost_inv fmh t g) (hij : i < j) (hj : j < t.numnodes)
    (hd : duplicates t.all_nodes i j = true) (he : (gd g j).2 = []) :
    ghost_inv fmh (merge_step i j t) (ghost_merge i j g) := by
  obtain ⟨h1, h2, h3, h4, h5, h6⟩ := h
  have hjg : j < g.length := by omega
  have hnum : (merge_step i j t).numnodes = t.numnodes - 1 := rfl
  have hdup := (duplicates_iff t.all_nodes i j).1 hd
  rw [h3 i (by omega), h3 j hj] at hdup
  have hds : area_start (area_at fmh (gd g i).1) = area_start (area_at fmh (gd g j).1) :=
    hdup.1
  have hde : area_end (area_at fmh (gd g i).1) = area_end (area_at fmh (gd g j).1) :=
    hdup.2
  refine ⟨?_, ?_, ?_, ?_, ?_, ?_⟩
  · rw [hnum]
    unfold ghost_merge
    rw [List.length_eraseIdx, List.length_set, if_pos hjg, h1]
  · rw [merge_step_length, hnum]
    omega
  · intro x hx
    rw [hnum] at hx
    rw [nd_merge_step_eq t i j x hij hj h2, gd_ghost_merge g i j x hij hjg]
    by_cases hxi : x = i
    · rw [if_pos hxi, if_pos hxi, h3 i (by omega), h3 j hj]
      simp [ghost_node, mk_node]
    · rw [if_neg hxi, if_neg hxi]
      by_cases hc : j ≤ x
      · rw [if_pos ⟨hc, by omega⟩, if_pos hc]
        exact h3 (x + 1) (by omega)
      · rw [if_neg (fun q => hc q.1), if_neg hc]
        exact h3 x (by omega)
  · unfold ghost_merge
    refine List.Sublist.trans (List.Sublist.map _ (List.eraseIdx_sublist _ _)) ?_
    rw [List.map_set]
    have hfst : (List.map Prod.fst g).set i (gd g i).1 = List.map Prod.fst g := by
      apply List.ext_getElem?
      intro k
      rw [List.getElem?_set]
      by_cases hk : i = k
      · subst hk
        rw [if_pos rfl, if_pos (by simp; omega)]
        simp [gd, List.getD_eq_getElem?_getD, List.getElem?_map,
          List.getElem?_eq_getElem (show i < g.length by omega)]
      · rw [if_neg hk]
    rw [hfst]
    exact h4
  · intro x hx o ho
    rw [hnum] at hx
    rw [gd_ghost_merge g i j x hij hjg] at ho ⊢
    by_cases hxi : x = i
    · rw [if_pos hxi] at ho ⊢
      rcases List.mem_cons.1 ho with e1 | e1
      · rw [e1]
        exact ⟨hds.symm, hde.symm⟩
      · exact h5 i (by omega) o e1
    · rw [if_neg hxi] at ho ⊢
      by_cases hc : j ≤ x
      · rw [if_pos hc] at ho ⊢
        exact h5 (x + 1) (by omega) o ho
      · rw [if_neg hc] at ho ⊢
        exact h5 x (by omega) o ho
  · exact (ghost_flat_merge g i j hij hjg he).trans h6

/-- The bookkeeping goes through the whole pass: the table that the pass
leaves is described by a bookkeeping list, and at every call of `add_dupe`
node `j`, the one merged away, has no aliases. -/
theorem coalesce_ghost (fmh : FmapHeader) :
    (∃ g, ghost_inv fmh (coalesce (load fmh)) g) ∧
    ∀ e ∈ coalesce_log (load fmh), (nd e.before.all_nodes e.j).alias_ = [] := by
  have key := coalesce_pos
    (fun i t => ∃ g, ghost_inv fmh t g ∧ ∀ x, i ≤ x → x < t.numnodes → (gd g x).2 = [])
    (fun i j t => ∃ g, ghost_inv fmh t g ∧ i < j ∧
      ∀ x, i < x → x < t.numnodes → (gd g x).2 = [])
    (fun i t h _ => by
      obtain ⟨g, h1, h2⟩ := h
      exact ⟨g, h1, by omega, fun x hx1 hx2 => h2 x (by omega) hx2⟩)
    (fun i j t h => by
      obtain ⟨g, h1, _, h2⟩ := h
      exact ⟨g, h1, fun x hx1 hx2 => h2 x (by omega) hx2⟩)
    (fun i j t h hj hd => by
      obtain ⟨g, h1, hij, h2⟩ := h
      refine ⟨ghost_merge i j g, ghost_inv_merge fmh t g i j h1 hij hj hd (h2 j hij hj),
        by omega, ?_⟩
      intro x hx1 hx2
      have hx3 : x < t.numnodes - 1 := hx2
      rw [gd_ghost_merge g i j x hij (by rw [h1.1]; exact hj), if_neg (by omega)]
      by_cases hc : j ≤ x
      · rw [if_pos hc]; exact h2 (x + 1) (by omega) (by omega)
      · rw [if_neg hc]; exact h2 x hx1 (by omega))
    (fun i j t h _ => by
      obtain ⟨g, h1, hij, h2⟩ := h
      exact ⟨g, h1, by omega, h2⟩)
    (load fmh)
    ⟨_, (ghost_inv_load fmh).1, fun x _ _ => (ghost_inv_load fmh).2 x⟩
  refine ⟨?_, ?_⟩
  · obtain ⟨_, g, hg, _⟩ := key.1
    exact ⟨g, hg⟩
  · intro e he
    obtain ⟨⟨g, h1, hij, h2⟩, hj, _⟩ := key.2 e he
    rw [h1.2.2.1 e.j hj]
    simp [ghost_node, h2 e.j hij hj]

/-! ## Reading the bookkeeping list off the table -/

theorem range_map_gd {β : Type} (g : List (Nat × List Nat)) (F : Nat → β)
    (G : Nat × List Nat → β) (h : ∀ x, x < g.length → F x = G (gd g x)) :
    (List.range g.length).map F = g.map G := by
  apply List.ext_getElem
  · simp
  · intro k h1 h2
    have hk : k < g.length := by simpa using h2
    rw [List.getElem_map, List.getElem_map, List.getElem_range, h k hk]
    simp [gd, List.getD_eq_getElem?_getD, List.getElem?_eq_getElem hk]

theorem range_map_area (fmh : FmapHeader) {β : Type} (F : FmapAreaHeader → β) :
    (List.range fmh.areas.length).map (fun o => F (area_at fmh o)) = fmh.areas.map F := by
  apply List.ext_getElem
  · simp
  · intro k h1 h2
    have hk : k < fmh.areas.length := by simpa using h2
    rw [List.getElem_map, List.getElem_map, List.getElem_range]
    simp [area_at, List.getD_eq_getElem?_getD, List.getElem?_eq_getElem hk]

/-! ## The indices of add_dupe and the place of the root -/

theorem shift_down_indices_le (n k x : Nat) (h : x ∈ shift_down_indices n k) :
    k ≤ x ∧ x ≤ k + n := by
  induction n generalizing k with
  | zero => exact absurd h (List.not_mem_nil x)
  | succ n ih =>
    rw [shift_down_indices] at h
    rcases List.mem_cons.1 h with e | h
    · omega
    · rcases List.mem_cons.1 h with e | h
      · omega
      · have := ih (k + 1) h
        omega

/-- At every call of `add_dupe` made by the pass: `i < j < numnodes`, the
count is at most the number of records, the array has one entry more than
there are records, and the root is the entry at index `numnodes`. -/
theorem coalesce_log_root (fmh : FmapHeader) :
    ∀ e ∈ coalesce_log (load fmh),
      e.i < e.j ∧ e.j < e.before.numnodes ∧ e.before.numnodes ≤ fmh.areas.length ∧
      e.before.all_nodes.length = fmh.areas.length + 1 ∧
      nd e.before.all_nodes e.before.numnodes = root_node fmh := by
  have h0 : (load fmh).numnodes ≤ fmh.areas.length ∧
      (load fmh).all_nodes.length = fmh.areas.length + 1 ∧
      nd (load fmh).all_nodes (load fmh).numnodes = root_node fmh :=
    ⟨le_refl _, by simp [load], by simp [nd, load]⟩
  have key := (coalesce_pos
    (fun _ t => t.numnodes ≤ fmh.areas.length ∧ t.all_nodes.length = fmh.areas.length + 1 ∧
      nd t.all_nodes t.numnodes = root_node fmh)
    (fun i j t => i < j ∧ t.numnodes ≤ fmh.areas.length ∧
      t.all_nodes.length = fmh.areas.length + 1 ∧
      nd t.all_nodes t.numnodes = root_node fmh)
    (fun i t h _ => ⟨by omega, h⟩)
    (fun i j t h => h.2)
    (fun i j t h hj _ => by
      obtain ⟨h1, h2, h3, h4⟩ := h
      have hnum : (merge_step i j t).numnodes = t.numnodes - 1 := rfl
      refine ⟨by omega, by omega, by rw [merge_step_length]; exact h3, ?_⟩
      rw [hnum, nd_merge_step_eq t i j (t.numnodes - 1) h1 hj (by omega),
        if_neg (by omega), if_pos (by omega)]
      have : t.numnodes - 1 + 1 = t.numnodes := by omega
      rw [this]
      exact h4)
    (fun i j t h _ => ⟨by omega, h.2⟩)
    (load fmh) h0).2
  intro e he
  obtain ⟨⟨k1, k2, k3, k4⟩, k5, _⟩ := key e he
  exact ⟨k1, k5, k2, k3, k4⟩

/-! # The claims -/

/-! ## C1: the parent is a smallest encloser -/

/-- C1. For every input and every area node `i` of the coalesced set, the
parent assigned to `i` exists and no node `q` of the final set (an area node
or the root, which has index `numnodes`), other than `i`, that encloses `i`
has a size smaller than the size of that parent. -/
theorem C1_parent_is_smallest_encloser (opt_overlap : Int) (fmh : FmapHeader) (i q : Nat)
    (hi : i < (coalesce (load fmh)).numnodes)
    (hq : q ≤ (coalesce (load fmh)).numnodes)
    (hqi : q ≠ i)
    (henc : encloses (resolve opt_overlap (coalesce (load fmh))).all_nodes q i = true) :
    ∃ p, (nd (resolve opt_overlap (coalesce (load fmh))).all_nodes i).parent = some p ∧
      ¬ (nd (resolve opt_overlap (coalesce (load fmh))).all_nodes q).size <
        (nd (resolve opt_overlap (coalesce (load fmh))).all_nodes p).size := by
  obtain ⟨h1, h2, _⟩ := resolve_spec opt_overlap (coalesce (load fmh))
    (le_of_lt (coalesce_load_lt fmh))
  have hg := same_but_parent_geom h1
  refine ⟨_, h2 i hi, ?_⟩
  rw [(hg q).2.2.1, (hg _).2.2.1]
  rw [encloses_congr hg] at henc
  obtain ⟨_, g2, g3⟩ := scan_parent_spec (coalesce (load fmh)).all_nodes
    (coalesce (load fmh)).numnodes i
  rcases Nat.lt_or_eq_of_le hq with hlt | heq
  · exact Nat.not_lt.2 (g3 q hlt hqi henc)
  · rw [heq]; exact Nat.not_lt.2 g2

/-- Witness of C1: node B of `ex_nested` and the root as the other encloser. -/
theorem C1_parent_is_smallest_encloser_witness :
    ∃ p, (nd (resolve 0 (coalesce (load ex_nested))).all_nodes 1).parent = some p ∧
      ¬ (nd (resolve 0 (coalesce (load ex_nested))).all_nodes 2).size <
        (nd (resolve 0 (coalesce (load ex_nested))).all_nodes p).size :=
  C1_parent_is_smallest_encloser 0 ex_nested 1 2 (by decide) (by decide) (by decide) (by decide)

/-! ## C2: the parent encloses the node -/

/-- C2, counterexample. For the single area [200,300) in the image [0,100)
no overlap error is counted, the parent of the area is the root (index 1),
and the root does not enclose the area. -/
theorem C2_counterexample :
    (resolve 0 (coalesce (load ex_outside))).errorcnt = 0 ∧
    (nd (resolve 0 (coalesce (load ex_outside))).all_nodes 0).parent = some 1 ∧
    ¬ ((nd (resolve 0 (coalesce (load ex_outside))).all_nodes 1).start ≤
         (nd (resolve 0 (coalesce (load ex_outside))).all_nodes 0).start ∧
       (nd (resolve 0 (coalesce (load ex_outside))).all_nodes 1).end_ ≥
         (nd (resolve 0 (coalesce (load ex_outside))).all_nodes 0).end_) := by
  decide

/-- C2, amended. For every input, with or without overlap errors, every
area node that lies within the image range (the root encloses it) has an
assigned parent, and that parent encloses it: `parent.start <= node.start`
and `parent.end >= node.end`. -/
theorem C2_parent_encloses (opt_overlap : Int) (fmh : FmapHeader) (i : Nat)
    (hi : i < (coalesce (load fmh)).numnodes)
    (hroot : encloses (resolve opt_overlap (coalesce (load fmh))).all_nodes
      (coalesce (load fmh)).numnodes i = true) :
    ∃ p, (nd (resolve opt_overlap (coalesce (load fmh))).all_nodes i).parent = some p ∧
      (nd (resolve opt_overlap (coalesce (load fmh))).all_nodes p).start ≤
        (nd (resolve opt_overlap (coalesce (load fmh))).all_nodes i).start ∧
      (nd (resolve opt_overlap (coalesce (load fmh))).all_nodes p).end_ ≥
        (nd (resolve opt_overlap (coalesce (load fmh))).all_nodes i).end_ := by
  obtain ⟨h1, h2, _⟩ := resolve_spec opt_overlap (coalesce (load fmh))
    (le_of_lt (coalesce_load_lt fmh))
  have hg := same_but_parent_geom h1
  refine ⟨_, h2 i hi, ?_⟩
  rw [encloses_congr hg] at hroot
  obtain ⟨g1, _, _⟩ := scan_parent_spec (coalesce (load fmh)).all_nodes
    (coalesce (load fmh)).numnodes i
  have key : encloses (coalesce (load fmh)).all_nodes
      (scan_parent (coalesce (load fmh)).all_nodes (coalesce (load fmh)).numnodes i) i = true := by
    rcases g1 with g1 | ⟨_, _, g1⟩
    · rw [g1]; exact hroot
    · exact g1
  rw [← encloses_congr hg] at key
  simpa [encloses] using key

/-- Witness of C2 (amended): node B of `ex_nested`. -/
theorem C2_parent_encloses_witness :
    ∃ p, (nd (resolve 0 (coalesce (load ex_nested))).all_nodes 1).parent = some p ∧
      (nd (resolve 0 (coalesce (load ex_nested))).all_nodes p).start ≤
        (nd (resolve 0 (coalesce (load ex_nested))).all_nodes 1).start ∧
      (nd (resolve 0 (coalesce (load ex_nested))).all_nodes p).end_ ≥
        (nd (resolve 0 (coalesce (load ex_nested))).all_nodes 1).end_ :=
  C2_parent_encloses 0 ex_nested 1 (by decide) (by decide)

/-! ## C3: overlap detection between areas -/

/-- C3. For every input: (1) `human_fmap` returns 1 if and only if
`opt_overlap < 2` and two area records `a`, `b` of the input satisfy
`a.start < b.start < a.end < b.end` (either record may be first in the
input); (2) when it returns 1 the output holds overlap diagnostics only, no
header and no tree row, and `gapcount` is untouched; (3) the error counter
after resolution is, when `opt_overlap < 2`, the number of unordered pairs of
coalesced area nodes that overlap in one order or the other, and 0
otherwise; (4) the number of rows reporting a pair is that same number of
pairs, whatever `opt_overlap`; (5) on P = [0,60), Q = [40,100) in the image
[0,100) the return value is 1. -/
theorem C3_overlap_detection (opt_overlap : Int) (opt_gaps : Nat) (fmh : FmapHeader) :
    ((∃ r, human_fmap opt_overlap opt_gaps fmh = some r ∧ r.retval = 1) ↔
      (opt_overlap < 2 ∧ ∃ a ∈ fmh.areas, ∃ b ∈ fmh.areas,
        area_start a < area_start b ∧ area_start b < area_end a ∧ area_end a < area_end b)) ∧
    (∀ r, human_fmap opt_overlap opt_gaps fmh = some r → r.retval = 1 →
      (∀ o ∈ r.out, is_diag o = true) ∧ r.gapcount = 0 ∧
      r.errorcnt = (resolve opt_overlap (coalesce (load fmh))).errorcnt) ∧
    (resolve opt_overlap (coalesce (load fmh))).errorcnt =
      (if opt_overlap < 2 then
        (overlap_pairs (coalesce (load fmh)).all_nodes (coalesce (load fmh)).numnodes).card
       else 0) ∧
    error_rows (resolve opt_overlap (coalesce (load fmh))).out =
      (overlap_pairs (coalesce (load fmh)).all_nodes (coalesce (load fmh)).numnodes).card ∧
    (human_fmap 1 opt_gaps ex_overlap).map (fun r => r.retval) = some 1 := by
  refine ⟨?_, ?_, resolve_errorcnt opt_overlap _, resolve_rows opt_overlap _, ?_⟩
  · rw [human_fmap_fail_iff, resolve_errorcnt, ← exists_overlap_iff,
      ← overlap_pairs_nonempty_iff]
    by_cases ho : opt_overlap < 2
    · simp [ho]
    · simp [ho]
  · intro r hr h1
    obtain ⟨e1, e2, e3⟩ := human_fmap_fail_out opt_overlap opt_gaps fmh r hr h1
    refine ⟨?_, e3, e2⟩
    rw [e1]
    exact resolve_out_diag opt_overlap _
  · rfl

/-! ## C4: overlaps in the final set, the root included -/

/-- C4, counterexample. The area [50,150) and the root [0,100) overlap
(`overlaps(root, area)` holds), yet in strict mode `human_fmap` counts no
error and returns 0. -/
theorem C4_counterexample :
    overlaps (coalesce (load ex_straddle)).all_nodes (coalesce (load ex_straddle)).numnodes 0
      = true ∧
    (human_fmap 1 0 ex_straddle).map (fun r => (r.retval, r.errorcnt)) = some (0, 0) := by
  decide

/-- C4, amended. For every input, if two coalesced area nodes `i`, `j` (the
root excluded) overlap in one order or the other and `opt_overlap < 2`, then
`human_fmap` returns 1 with a non-zero error counter and the output holds
the row reporting the pair. -/
theorem C4_area_overlap_fails (opt_overlap : Int) (opt_gaps : Nat) (fmh : FmapHeader)
    (i j : Nat)
    (hi : i < (coalesce (load fmh)).numnodes) (hj : j < (coalesce (load fmh)).numnodes)
    (hov : overlaps (coalesce (load fmh)).all_nodes i j = true ∨
      overlaps (coalesce (load fmh)).all_nodes j i = true)
    (hopt : opt_overlap < 2) :
    ∃ r, human_fmap opt_overlap opt_gaps fmh = some r ∧ r.retval = 1 ∧ r.errorcnt ≠ 0 ∧
      (overlap_row (coalesce (load fmh)).all_nodes i j ∈ r.out ∨
       overlap_row (coalesce (load fmh)).all_nodes j i ∈ r.out) := by
  have herr : (resolve opt_overlap (coalesce (load fmh))).errorcnt ≠ 0 := by
    rw [resolve_errorcnt, if_pos hopt, overlap_pairs_nonempty_iff]
    rcases hov with h | h
    · exact ⟨i, j, hi, hj, h⟩
    · exact ⟨j, i, hj, hi, h⟩
  obtain ⟨r, hr, h1⟩ := (human_fmap_fail_iff opt_overlap opt_gaps fmh).2 herr
  obtain ⟨e1, e2, _⟩ := human_fmap_fail_out opt_overlap opt_gaps fmh r hr h1
  refine ⟨r, hr, h1, by rw [e2]; exact herr, ?_⟩
  rw [e1]
  rcases hov with h | h
  · exact Or.inl (resolve_reports opt_overlap _ i j hi hj h)
  · exact Or.inr (resolve_reports opt_overlap _ j i hj hi h)

/-- Witness of C4 (amended): P and Q of `ex_overlap`. -/
theorem C4_area_overlap_fails_witness :
    ∃ r, human_fmap 1 0 ex_overlap = some r ∧ r.retval = 1 ∧ r.errorcnt ≠ 0 ∧
      (overlap_row (coalesce (load ex_overlap)).all_nodes 0 1 ∈ r.out ∨
       overlap_row (coalesce (load ex_overlap)).all_nodes 1 0 ∈ r.out) :=
  C4_area_overlap_fails 1 0 ex_overlap 0 1 (by decide) (by decide) (by decide) (by decide)

/-! ## C5, C6, C7: the coalescing pass skips the record after a merge -/

/-- C5, the code at the failing input. After coalescing X, Y, Z (all
[10,20)) two nodes are left below the root, X with the alias Y and Z with no
alias, and they have the same start and end: after merging Y the loop
advances `j` past the slot into which Z was shifted. -/
theorem C5_coalesce_leaves_duplicates :
    (coalesce (load ex_triple)).numnodes = 2 ∧
    (nd (coalesce (load ex_triple)).all_nodes 0).name = "X" ∧
    (nd (coalesce (load ex_triple)).all_nodes 0).alias_ = ["Y"] ∧
    (nd (coalesce (load ex_triple)).all_nodes 1).name = "Z" ∧
    (nd (coalesce (load ex_triple)).all_nodes 1).alias_ = [] ∧
    duplicates (coalesce (load ex_triple)).all_nodes 0 1 = true := by
  decide

/-- C6, the code at the failing input. A second run of the coalescing pass
on the result for X, Y, Z merges again: the node count drops from 2 to 1 and
X gets the alias list [Z, Y]. -/
theorem C6_coalesce_twice_merges_again :
    (coalesce (load ex_triple)).numnodes = 2 ∧
    (coalesce (coalesce (load ex_triple))).numnodes = 1 ∧
    (nd (coalesce (coalesce (load ex_triple))).all_nodes 0).alias_ = ["Z", "Y"] ∧
    coalesce (coalesce (load ex_triple)) ≠ coalesce (load ex_triple) := by
  decide

/-- C7, the code at the failing input. For X, Y, Z (all [10,20)) resolution
counts no error, X (index 0) gets the parent Z (index 1) and Z gets the
parent X, so neither reaches the root (index 2), and the root has no child
after the child arrays are built. -/
theorem C7_parent_cycle :
    (resolve 1 (coalesce (load ex_triple))).errorcnt = 0 ∧
    (coalesce (load ex_triple)).numnodes = 2 ∧
    (nd (resolve 1 (coalesce (load ex_triple))).all_nodes 0).parent = some 1 ∧
    (nd (resolve 1 (coalesce (load ex_triple))).all_nodes 1).parent = some 0 ∧
    (human_fmap 1 1 ex_triple).map (fun r => (nd r.all_nodes 2).child) = some [] ∧
    (human_fmap 1 1 ex_triple).map (fun r => r.out) =
      some [out_t.header, out_t.line 0 "-entire flash-" 0 100 100 ""] := by
  decide

/-! ## C8: spec scenario 1 -/

/-- C8, counterexample. For A = [0,100), B = [0,50), C = [50,100) in the
image [0,100) it is not the case that B and C get the parent A (index 0)
and that no gap is counted: B gets the root (index 3) and one gap is
counted. -/
theorem C8_counterexample :
    ¬ ((nd (resolve 1 (coalesce (load ex_abc))).all_nodes 0).parent = some 3 ∧
       (nd (resolve 1 (coalesce (load ex_abc))).all_nodes 1).parent = some 0 ∧
       (nd (resolve 1 (coalesce (load ex_abc))).all_nodes 2).parent = some 0 ∧
       (human_fmap 1 0 ex_abc).map (fun r => r.gapcount) = some 0) := by
  decide

/-- C8, amended. For every input, an area node is assigned as the parent of
another one only when its size is strictly smaller than the size of the root:
the scan starts from the root and replaces its candidate on a strictly
smaller size only. So for A = [0,100), B = [0,50), C = [50,100) in the image
[0,100), where A has the size of the root, the resolver assigns the root
(index 3 = `numnodes`) as parent of A, B and C. The root gets the child array
[A, B, C]; the run returns 0 and leaves this array as `show` has sorted it,
C, B, A. -/
theorem C8_scenario_abc :
    (∀ (opt_overlap : Int) (fmh : FmapHeader) (i k : Nat),
      i < (coalesce (load fmh)).numnodes →
      (nd (resolve opt_overlap (coalesce (load fmh))).all_nodes i).parent = some k →
      k ≠ (coalesce (load fmh)).numnodes →
      k < (coalesce (load fmh)).numnodes ∧
      (nd (resolve opt_overlap (coalesce (load fmh))).all_nodes k).size <
        (nd (resolve opt_overlap (coalesce (load fmh))).all_nodes
          (coalesce (load fmh)).numnodes).size) ∧
    (coalesce (load ex_abc)).numnodes = 3 ∧
    (nd (resolve 1 (coalesce (load ex_abc))).all_nodes 0).size =
      (nd (resolve 1 (coalesce (load ex_abc))).all_nodes 3).size ∧
    (nd (resolve 1 (coalesce (load ex_abc))).all_nodes 0).parent = some 3 ∧
    (nd (resolve 1 (coalesce (load ex_abc))).all_nodes 1).parent = some 3 ∧
    (nd (resolve 1 (coalesce (load ex_abc))).all_nodes 2).parent = some 3 ∧
    (nd (final_table 1 ex_abc) 3).child = [some 0, some 1, some 2] ∧
    (human_fmap 1 0 ex_abc).map (fun r => (r.retval, (nd r.all_nodes 3).child)) =
      some (0, [some 2, some 1, some 0]) ∧
    (human_fmap 1 1 ex_abc).map (fun r => (r.retval, (nd r.all_nodes 3).child)) =
      some (0, [some 2, some 1, some 0]) := by
  refine ⟨?_, by decide, by decide, by decide, by decide, by decide, by decide, by decide,
    by decide⟩
  intro opt fmh i k hi hpar hk
  obtain ⟨h1, h2, _⟩ := resolve_spec opt (coalesce (load fmh))
    (le_of_lt (coalesce_load_lt fmh))
  have hg := same_but_parent_geom h1
  rw [h2 i hi] at hpar
  have hk2 : scan_parent (coalesce (load fmh)).all_nodes (coalesce (load fmh)).numnodes i = k :=
    Option.some.inj hpar
  have hf := resolve_j_first 0 (coalesce (load fmh)).all_nodes i
    (List.range (coalesce (load fmh)).numnodes)
    { k := (coalesce (load fmh)).numnodes, errorcnt := 0, out := [] }
    (nodup_range_pairwise _)
  unfold scan_parent at hk2
  rw [hk2] at hf
  rcases hf with hf | ⟨hm, hlt, _⟩
  · exact absurd hf hk
  · rw [(hg k).2.2.1, (hg (coalesce (load fmh)).numnodes).2.2.1]
    exact ⟨List.mem_range.1 hm, hlt⟩

/-! ## C9: spec scenario 2, generalised -/

/-- C9. For every image [b,e) and every two records named `nx`, `ny` with the
same range [s,t), where `b < s <= t < e < 2^32`: coalescing leaves one area
node, named `nx`, with the alias list `[ny]`; its parent is the root (index
1 = `numnodes`); with gap display on, `human_fmap` returns 0 and prints the
header, the root row, the gap row [t,e), the rows of `nx` and of its alias
`ny`, and the gap row [b,s), and no warning; with gap display off it prints
the header, the two rows and the warning, and no gap row; in both cases two
gaps are counted; the ranges met at the root are the gap [t,e), the child
[s,t) and the gap [b,s). -/
theorem C9_scenario_duplicate (opt_overlap : Int) (nx ny : String) (b s t e : Nat)
    (h1 : b < s) (h2 : s ≤ t) (h3 : t < e) (h4 : e < U32) :
    (coalesce (load (ex_dup nx ny b s t e))).numnodes = 1 ∧
    (nd (coalesce (load (ex_dup nx ny b s t e))).all_nodes 0).name = nx ∧
    (nd (coalesce (load (ex_dup nx ny b s t e))).all_nodes 0).alias_ = [ny] ∧
    (nd (resolve opt_overlap (coalesce (load (ex_dup nx ny b s t e)))).all_nodes 0).parent
      = some 1 ∧
    (human_fmap opt_overlap 1 (ex_dup nx ny b s t e)).map
        (fun r => (r.retval, r.gapcount, r.out)) =
      some (0, 2,
        [out_t.header,
         out_t.line 0 "-entire flash-" b e (e - b) "",
         out_t.line 1 "" t e (e - t) "  // gap in -entire flash-",
         out_t.line 1 nx s t (t - s) "",
         out_t.line 1 ny s t (t - s) "  // DUPLICATE",
         out_t.line 1 "" b s (s - b) "  // gap in -entire flash-"]) ∧
    (human_fmap opt_overlap 0 (ex_dup nx ny b s t e)).map
        (fun r => (r.retval, r.gapcount, r.out)) =
      some (0, 2,
        [out_t.header,
         out_t.line 0 nx s t (t - s) "",
         out_t.line 0 ny s t (t - s) "  // DUPLICATE",
         out_t.warning]) ∧
    show_pieces (final_table opt_overlap (ex_dup nx ny b s t e)) 1 =
      [(t, e), (s, t), (b, s)] := by
  have g1 : (e + U32 - t) % U32 = e - t := by
    rw [show e + U32 - t = (e - t) + U32 by omega, Nat.add_mod_right]
    exact Nat.mod_eq_of_lt (by omega)
  have g2 : (s + U32 - b) % U32 = s - b := by
    rw [show s + U32 - b = (s - b) + U32 by omega, Nat.add_mod_right]
    exact Nat.mod_eq_of_lt (by omega)
  have g3 : ¬ e = t := by omega
  have g4 : ¬ s = b := by omega
  refine ⟨?_, ?_, ?_, ?_, ?_, ?_, ?_⟩
  · rw [coalesce_ex_dup nx ny b s t e h1 h2 h3 h4]
  · rw [coalesce_ex_dup nx ny b s t e h1 h2 h3 h4]; rfl
  · rw [coalesce_ex_dup nx ny b s t e h1 h2 h3 h4]; rfl
  · rw [resolve_ex_dup opt_overlap nx ny b s t e h1 h2 h3 h4]; rfl
  · unfold human_fmap
    simp only
    rw [resolve_ex_dup opt_overlap nx ny b s t e h1 h2 h3 h4,
      coalesce_ex_dup nx ny b s t e h1 h2 h3 h4]
    simp [build_children, count_children, add_children, add_child, fill_slot, List.range,
      List.range.loop, upd, nd]
    simp [show_, child_ptrs, sort_nodes, sort_i, sort_j, nd, upd, List.range, List.range.loop,
      gap_first, gap_next, gap_last, empties, empty, line, g1, g2, g3, g4]
  · unfold human_fmap
    simp only
    rw [resolve_ex_dup opt_overlap nx ny b s t e h1 h2 h3 h4,
      coalesce_ex_dup nx ny b s t e h1 h2 h3 h4]
    simp [build_children, count_children, add_children, add_child, fill_slot, List.range,
      List.range.loop, upd, nd]
    simp [show_, child_ptrs, sort_nodes, sort_i, sort_j, nd, upd, List.range, List.range.loop,
      gap_first, gap_next, gap_last, empties, empty, line, g1, g2, g3, g4]
  · unfold final_table
    rw [resolve_ex_dup opt_overlap nx ny b s t e h1 h2 h3 h4,
      coalesce_ex_dup nx ny b s t e h1 h2 h3 h4]
    simp [build_children, count_children, add_children, add_child, fill_slot, List.range,
      List.range.loop, upd, nd, show_pieces, piece_row, child_ptrs, sort_nodes, sort_i, sort_j,
      gap_first, gap_next, gap_last, g3, g4]

/-- Witness of C9: X = Y = [10,20) in the image [0,100). -/
theorem C9_scenario_duplicate_witness :
    (coalesce (load (ex_dup "X" "Y" 0 10 20 100))).numnodes = 1 ∧
    (nd (coalesce (load (ex_dup "X" "Y" 0 10 20 100))).all_nodes 0).name = "X" ∧
    (nd (coalesce (load (ex_dup "X" "Y" 0 10 20 100))).all_nodes 0).alias_ = ["Y"] ∧
    (nd (resolve 1 (coalesce (load (ex_dup "X" "Y" 0 10 20 100)))).all_nodes 0).parent
      = some 1 ∧
    (human_fmap 1 1 (ex_dup "X" "Y" 0 10 20 100)).map
        (fun r => (r.retval, r.gapcount, r.out)) =
      some (0, 2,
        [out_t.header,
         out_t.line 0 "-entire flash-" 0 100 (100 - 0) "",
         out_t.line 1 "" 20 100 (100 - 20) "  // gap in -entire flash-",
         out_t.line 1 "X" 10 20 (20 - 10) "",
         out_t.line 1 "Y" 10 20 (20 - 10) "  // DUPLICATE",
         out_t.line 1 "" 0 10 (10 - 0) "  // gap in -entire flash-"]) ∧
    (human_fmap 1 0 (ex_dup "X" "Y" 0 10 20 100)).map
        (fun r => (r.retval, r.gapcount, r.out)) =
      some (0, 2,
        [out_t.header,
         out_t.line 0 "X" 10 20 (20 - 10) "",
         out_t.line 0 "Y" 10 20 (20 - 10) "  // DUPLICATE",
         out_t.warning]) ∧
    show_pieces (final_table 1 (ex_dup "X" "Y" 0 10 20 100)) 1 =
      [(20, 100), (10, 20), (0, 10)] :=
  C9_scenario_duplicate 1 "X" "Y" 0 10 20 100 (by decide) (by decide) (by decide) (by decide)

/-! ## C10: children and gaps tile the parent -/

/-- C10, amended. For every valid input (no wrap-around, every area within
the image range, no two areas overlapping) in which, in addition, the ranges
of the final node set (coalesced areas and root) are pairwise distinct, and
for every node `p` with at least one child: every byte `x` of
`[p.start, p.end)` lies in exactly one of the ranges that `show` meets at
`p` (the children of `p` and the gaps it computes between them and the
bounds of `p`), and a byte outside lies in none. -/
theorem C10_children_and_gaps_tile (opt_overlap : Int) (fmh : FmapHeader) (p x : Nat)
    (hv : valid_input fmh) (hd : distinct_ranges (coalesce (load fmh)))
    (hc : (nd (final_table opt_overlap fmh) p).num_children ≠ 0) :
    covers x (show_pieces (final_table opt_overlap fmh) p) =
      if (nd (final_table opt_overlap fmh) p).start ≤ x ∧
         x < (nd (final_table opt_overlap fmh) p).end_ then 1 else 0 := by
  obtain ⟨c1, _, _, _, _⟩ := coalesce_inv_coalesce fmh
  obtain ⟨r1, r2, _⟩ := resolve_spec opt_overlap (coalesce (load fmh)) (le_of_lt c1)
  have hg0 := geom_ok_coalesce fmh hv hd
  have hsg := final_table_geom opt_overlap fmh
  have hspec := final_table_spec opt_overlap fmh p
  generalize hL : (List.range (coalesce (load fmh)).numnodes).filter (fun i =>
    decide ((nd (resolve opt_overlap (coalesce (load fmh))).all_nodes i).parent = some p)) = L
    at hspec
  have hnum : (nd (final_table opt_overlap fmh) p).num_children = L.length := by
    rw [hspec, ← hL]; rfl
  have hchild : (nd (final_table opt_overlap fmh) p).child = L.map some := by
    rw [hspec]
  have hLmem : ∀ c ∈ L, c < (coalesce (load fmh)).numnodes ∧
      scan_parent (coalesce (load fmh)).all_nodes (coalesce (load fmh)).numnodes c = p := by
    intro c hcm
    rw [← hL, List.mem_filter, List.mem_range, decide_eq_true_eq] at hcm
    refine ⟨hcm.1, ?_⟩
    have := hcm.2
    rw [r2 c hcm.1] at this
    exact Option.some.inj this
  have hLnd : L.Nodup := by
    rw [← hL]; exact (List.nodup_range _).filter _
  obtain ⟨sp, ss⟩ := sort_nodes_spec (final_table opt_overlap fmh) L
  generalize hary : sort_nodes (final_table opt_overlap fmh) L.length L = ary at sp ss
  have halen : ary.length = L.length := sp.length_eq
  have hamem : ∀ i, i < L.length → ary.getD i 0 < (coalesce (load fmh)).numnodes ∧
      scan_parent (coalesce (load fmh)).all_nodes (coalesce (load fmh)).numnodes
        (ary.getD i 0) = p := by
    intro i hi
    exact hLmem _ (sp.mem_iff.1 (getD_mem_nat ary i (by omega)))
  have hand : ary.Nodup := (sp.nodup_iff).2 hLnd
  have hpieces : show_pieces (final_table opt_overlap fmh) p =
      (List.range (nd (final_table opt_overlap fmh) p).num_children).flatMap (fun i =>
        piece_row (nd (final_table opt_overlap fmh) p)
          (nd (final_table opt_overlap fmh) (ary.getD i 0))
          (nd (final_table opt_overlap fmh) (ary.getD (i + 1) 0)) i) := by
    unfold show_pieces
    rw [hchild, List.length_map, hnum, if_pos rfl, child_ptrs_map_some]
    simp only [hary]
  rw [hpieces]
  have hp_le : p ≤ (coalesce (load fmh)).numnodes := by
    have hpos : 0 < L.length := by omega
    obtain ⟨h1, h2⟩ := hamem 0 hpos
    rw [← h2]
    exact (scan_parent_le _ _ _ h1).1
  have key := covers_rows x (nd (final_table opt_overlap fmh) p)
    (fun i => nd (final_table opt_overlap fmh) (ary.getD i 0))
    (by
      intro i hi
      rw [hnum] at hi
      obtain ⟨h1, h2⟩ := hamem i hi
      have e := scan_parent_encloses _ _ _ hg0 h1
      rw [h2] at e
      have g := (hg0.1 (ary.getD i 0) (le_of_lt h1)).1
      simp only
      rw [← (hsg p).1, ← (hsg p).2.1, ← (hsg (ary.getD i 0)).1, ← (hsg (ary.getD i 0)).2.1]
      exact ⟨e.1, g, e.2⟩)
    (by
      intro i hi
      rw [hnum] at hi
      obtain ⟨h1, h2⟩ := hamem i (by omega)
      obtain ⟨h3, h4⟩ := hamem (i + 1) hi
      have hne := getD_ne_of_nodup ary hand i (i + 1) (by omega) (by omega) (by omega)
      have hs := ss i (i + 1) (by omega) hi
      unfold key at hs
      simp only
      rw [← (hsg (ary.getD (i + 1) 0)).2.1, ← (hsg (ary.getD i 0)).1]
      rw [← (hsg (ary.getD (i + 1) 0)).1, ← (hsg (ary.getD i 0)).1] at hs
      exact sibling_order _ _ _ _ hg0 h1 h3 hne (h2.trans h4.symm) hs)
    (nd (final_table opt_overlap fmh) p).num_children (le_refl _)
  rw [key, if_neg hc, if_neg (by omega)]

/-- Witness of C10 (amended): the root of `ex_nested` and the byte 60. -/
theorem C10_children_and_gaps_tile_witness :
    covers 60 (show_pieces (final_table 1 ex_nested) 2) =
      if (nd (final_table 1 ex_nested) 2).start ≤ 60 ∧
         60 < (nd (final_table 1 ex_nested) 2).end_ then 1 else 0 :=
  C10_children_and_gaps_tile 1 ex_nested 2 60 (by unfold valid_input; decide)
    (by unfold distinct_ranges; decide) (by decide)

/-- C10, counterexample. Areas A = [0,100) and B = [10,20) in the image
[0,100) are a valid input; the root gets both as children (A has the size
of the root, so it never replaces it as a candidate); the run sorts them to
B, A and prints at the root the gap [20,100), B, the gap [100,10) and A:
the byte 15 lies in two of these ranges. -/
theorem C10_counterexample :
    valid_input ex_full ∧
    (nd (final_table 1 ex_full) 2).num_children = 2 ∧
    (human_fmap 1 1 ex_full).map (fun r => (r.retval, (nd r.all_nodes 2).child, r.out)) =
      some (0, [some 1, some 0],
        [out_t.header,
         out_t.line 0 "-entire flash-" 0 100 100 "",
         out_t.line 1 "" 20 100 80 "  // gap in -entire flash-",
         out_t.line 1 "B" 10 20 10 "",
         out_t.line 1 "" 100 10 4294967206 "  // gap in -entire flash-",
         out_t.line 1 "A" 0 100 100 ""]) ∧
    show_pieces (final_table 1 ex_full) 2 = [(20, 100), (10, 20), (100, 10), (0, 100)] ∧
    covers 15 (show_pieces (final_table 1 ex_full) 2) = 2 := by
  unfold valid_input
  decide

/-! ## C11: the child arrays invert the parent assignment -/

/-- C11. For every input, in the table left by the two child-building loops
(`n` is `numnodes`, the root has index `n`): (1) every area node `i` has a
parent `p`, occurs exactly once in the child array of `p` and in no other
child array; (2) every child array has `num_children` slots and no slot is
`NULL`; (3) every entry of the child array of `x` is an area node whose
parent is `x`; (4) the root has no parent; (5) the child arrays of the nodes
`0 .. n` hold `n` references in all, one less than the number of nodes. -/
theorem C11_child_arrays_invert_parents (opt_overlap : Int) (fmh : FmapHeader) :
    (∀ i, i < (coalesce (load fmh)).numnodes →
      ∃ p, p ≤ (coalesce (load fmh)).numnodes ∧
        (nd (final_table opt_overlap fmh) i).parent = some p ∧
        ((nd (final_table opt_overlap fmh) p).child.filter
          (fun c => decide (c = some i))).length = 1 ∧
        ∀ x, x ≠ p → some i ∉ (nd (final_table opt_overlap fmh) x).child) ∧
    (∀ x, (nd (final_table opt_overlap fmh) x).child.length =
        (nd (final_table opt_overlap fmh) x).num_children ∧
      none ∉ (nd (final_table opt_overlap fmh) x).child) ∧
    (∀ x c, some c ∈ (nd (final_table opt_overlap fmh) x).child →
      c < (coalesce (load fmh)).numnodes ∧
      (nd (final_table opt_overlap fmh) c).parent = some x) ∧
    (nd (final_table opt_overlap fmh) (coalesce (load fmh)).numnodes).parent = none ∧
    ((List.range ((coalesce (load fmh)).numnodes + 1)).map
      (fun x => (nd (final_table opt_overlap fmh) x).child.length)).sum =
      (coalesce (load fmh)).numnodes := by
  have hmem : ∀ x c, some c ∈ (nd (final_table opt_overlap fmh) x).child ↔
      (c < (coalesce (load fmh)).numnodes ∧
       scan_parent (coalesce (load fmh)).all_nodes (coalesce (load fmh)).numnodes c = x) := by
    intro x c
    rw [(final_table_child opt_overlap fmh x).1]
    simp [List.mem_map, List.mem_filter]
  refine ⟨?_, ?_, ?_, ?_, ?_⟩
  · intro i hi
    refine ⟨scan_parent (coalesce (load fmh)).all_nodes (coalesce (load fmh)).numnodes i,
      (scan_parent_le _ _ i hi).1, ?_, ?_, ?_⟩
    · rw [final_table_parent, if_pos hi]
    · apply filter_eq_length_one
      · rw [(final_table_child opt_overlap fmh _).1]
        exact ((List.nodup_range _).filter _).map (Option.some_injective Nat)
      · exact (hmem _ i).2 ⟨hi, rfl⟩
    · intro x hx hin
      exact hx ((hmem x i).1 hin).2.symm
  · intro x
    refine ⟨(final_table_child opt_overlap fmh x).2.symm, ?_⟩
    rw [(final_table_child opt_overlap fmh x).1]
    simp
  · intro x c hc
    obtain ⟨h1, h2⟩ := (hmem x c).1 hc
    refine ⟨h1, ?_⟩
    rw [final_table_parent, if_pos h1, h2]
  · rw [final_table_parent, if_neg (by omega)]
  · have hfun : (fun x => (nd (final_table opt_overlap fmh) x).child.length) =
        (fun x => ((List.range (coalesce (load fmh)).numnodes).filter (fun i => decide
          ((fun i => some (scan_parent (coalesce (load fmh)).all_nodes
            (coalesce (load fmh)).numnodes i)) i = some x))).length) := by
      funext x
      rw [(final_table_child opt_overlap fmh x).1, List.length_map]
      congr 1
      apply List.filter_congr
      intro i _
      simp
    rw [hfun, sum_fibers]
    · simp
    · intro i hi
      exact ⟨_, Nat.lt_succ_of_le (scan_parent_le _ _ i (List.mem_range.1 hi)).1, rfl⟩

/-! ## C12: sort_nodes sorts -/

/-- C12. For every node table and every array `ary` of node references, with
`num` the length of the array: the array after `sort_nodes(num, ary)` is a
permutation of the array before, and it is in order of non-increasing start:
`ary[i].start >= ary[i+1].start` for all `i < num - 1` (and so for every
pair of places). -/
theorem C12_sort_nodes_sorts (all_nodes : List node_t) (ary : List Nat) :
    List.Perm (sort_nodes all_nodes ary.length ary) ary ∧
    (∀ i, i + 1 < ary.length →
      (nd all_nodes ((sort_nodes all_nodes ary.length ary).getD i 0)).start ≥
      (nd all_nodes ((sort_nodes all_nodes ary.length ary).getD (i + 1) 0)).start) ∧
    (∀ x y, x < y → y < ary.length →
      (nd all_nodes ((sort_nodes all_nodes ary.length ary).getD x 0)).start ≥
      (nd all_nodes ((sort_nodes all_nodes ary.length ary).getD y 0)).start) := by
  obtain ⟨h1, h2⟩ := sort_nodes_spec all_nodes ary
  exact ⟨h1, fun i hi => h2 i (i + 1) (by omega) hi, fun x y hxy hy => h2 x y hxy hy⟩

/-! ## C13: the sibling sort and ties -/

/-- C13, counterexample. In the table with starts 0, 0, 50 the references
[0, 1, 2] are sorted to [2, 1, 0]: the nodes 0 and 1 have the same start and
come out in the opposite order. -/
theorem C13_counterexample :
    (nd ex_sort_table 0).start = (nd ex_sort_table 1).start ∧
    sort_nodes ex_sort_table 3 [0, 1, 2] = [2, 1, 0] := by
  decide

/-- C13, amended. For every node table and every array of node references
that is already in order of non-increasing start, `sort_nodes` leaves the
array as it is, so there elements with equal start keep their arrival order.
(On other arrays two elements with equal start may come out exchanged.) -/
theorem C13_sorted_array_unchanged (all_nodes : List node_t) (ary : List Nat)
    (h : ∀ y, y < ary.length → ∀ x, x < y →
      (nd all_nodes (ary.getD y 0)).start ≤ (nd all_nodes (ary.getD x 0)).start) :
    sort_nodes all_nodes ary.length ary = ary :=
  sort_i_sorted all_nodes ary.length ary.length 0 ary (by omega) h

/-- Witness of C13 (amended): the references [2, 0, 1], with starts 50, 0, 0. -/
theorem C13_sorted_array_unchanged_witness :
    sort_nodes ex_sort_table [2, 0, 1].length [2, 0, 1] = [2, 0, 1] :=
  C13_sorted_array_unchanged ex_sort_table [2, 0, 1] (by decide)

/-! ## C14: the gap counter and the display setting -/

/-- C14. (1) For every node table, node, bound, indentation and flag: the
value of `gapcount` after `show` is the same with `opt_gaps = 0` and with
`opt_gaps = 1`, the two runs starting from the same table and the same
counter (and `show` has a result in both runs or in neither).
(2) With `opt_gaps = 1` the gap rows that `show` adds are as many as the gaps
it counts; with `opt_gaps = 0` it adds no gap row. (3) For every input a
complete run of `human_fmap` has a result with either setting; the two
results have the same `gapcount`; with `opt_gaps = 1` the output has
`gapcount` gap rows and no warning; with `opt_gaps = 0` it has no gap row,
and it has the warning exactly when `gapcount` is not 0. -/
theorem C14_gapcount_and_display (opt_overlap : Int) (fmh : FmapHeader) :
    (∀ (fuel p ind ind2 sf sf2 : Nat) (s s2 : show_t),
      s.all_nodes = s2.all_nodes → s.gapcount = s2.gapcount →
      (show_ 0 fuel p ind sf s).map (fun x => x.gapcount) =
        (show_ 1 fuel p ind2 sf2 s2).map (fun x => x.gapcount)) ∧
    (∀ (fuel p ind sf : Nat) (s s2 : show_t),
      show_ 1 fuel p ind sf s = some s2 →
      s.gapcount ≤ s2.gapcount ∧
      gap_rows s2.out = gap_rows s.out + (s2.gapcount - s.gapcount)) ∧
    (∀ (fuel p ind sf : Nat) (s s2 : show_t),
      show_ 0 fuel p ind sf s = some s2 → gap_rows s2.out = gap_rows s.out) ∧
    (∃ r0 r1, human_fmap opt_overlap 0 fmh = some r0 ∧ human_fmap opt_overlap 1 fmh = some r1 ∧
      r0.gapcount = r1.gapcount ∧
      gap_rows r1.out = r1.gapcount ∧ out_t.warning ∉ r1.out ∧
      gap_rows r0.out = 0 ∧ (out_t.warning ∈ r0.out ↔ r0.gapcount ≠ 0)) := by
  refine ⟨?_, ?_, ?_, ?_⟩
  · intro fuel p ind ind2 sf sf2 s s2 ha h
    have e := congrArg (Option.map Prod.fst)
      (show_gapcount 0 1 fuel p ind ind2 sf sf2 s s2 h ha)
    rw [Option.map_map, Option.map_map] at e
    exact e
  · intro fuel p ind sf s s2 h
    obtain ⟨⟨rows, e1, _, e3, e4⟩, _⟩ := show_grows 1 fuel p ind sf s s2 h
    refine ⟨e3, ?_⟩
    rw [e1, gap_rows_append, e4]
    simp
  · intro fuel p ind sf s s2 h
    obtain ⟨⟨rows, e1, _, _, e4⟩, _⟩ := show_grows 0 fuel p ind sf s s2 h
    rw [e1, gap_rows_append, e4]
    simp
  · obtain ⟨r0, h0, a0, b0⟩ := human_fmap_rows opt_overlap 0 fmh
    obtain ⟨r1, h1, a1, b1⟩ := human_fmap_rows opt_overlap 1 fmh
    have hg := human_fmap_gapcount opt_overlap 0 1 fmh
    rw [h0, h1] at hg
    have hg2 : r0.gapcount = r1.gapcount ∧ r0.all_nodes = r1.all_nodes := by simpa using hg
    refine ⟨r0, r1, h0, h1, hg2.1, by simpa using a1, ?_, by simpa using a0, ?_⟩
    · intro hw
      have := b1.1 hw
      simp at this
    · rw [b0]; simp

/-! ## C15: the range predicates -/

/-- C15. For every table and all nodes `i`, `j`: `overlaps(i,j)` or
`overlaps(j,i)` holds if and only if the two half-open ranges share a byte
and neither `encloses(i,j)` nor `encloses(j,i)` holds; `overlaps(i,j)`
excludes `encloses` in both directions; and `encloses(i,j)` together with
`encloses(j,i)` is the same as `duplicates(i,j)`. -/
theorem C15_range_predicates (all_nodes : List node_t) (i j : Nat) :
    ((overlaps all_nodes i j = true ∨ overlaps all_nodes j i = true) ↔
      ((∃ x, shares_byte all_nodes i j x) ∧
        encloses all_nodes i j = false ∧ encloses all_nodes j i = false)) ∧
    (overlaps all_nodes i j = true →
      encloses all_nodes i j = false ∧ encloses all_nodes j i = false) ∧
    ((encloses all_nodes i j = true ∧ encloses all_nodes j i = true) ↔
      duplicates all_nodes i j = true) := by
  refine ⟨?_, ?_, ?_⟩
  · rw [overlaps_iff, overlaps_iff, Bool.eq_false_iff, Bool.eq_false_iff, Ne, Ne,
      encloses_iff, encloses_iff]
    unfold shares_byte
    constructor
    · intro h
      rcases h with h | h
      · exact ⟨⟨(nd all_nodes j).start, by omega⟩, by omega, by omega⟩
      · exact ⟨⟨(nd all_nodes i).start, by omega⟩, by omega, by omega⟩
    · rintro ⟨⟨x, hx⟩, h1, h2⟩
      omega
  · intro h
    rw [overlaps_iff] at h
    rw [Bool.eq_false_iff, Bool.eq_false_iff, Ne, Ne, encloses_iff, encloses_iff]
    exact ⟨by omega, by omega⟩
  · rw [encloses_iff, encloses_iff, duplicates_iff]
    constructor
    · intro h; omega
    · intro h; omega

/-! ## C16: the tie-break of parent resolution -/

/-- C16. For every input and every area node `i` whose assigned parent is
an area node `k` (an index below `numnodes`, not the root): every other
candidate `q` (an area node or the root, `q` different from `i` and from
`k`) that encloses `i` and has the size of the parent has an index greater
than `k`. -/
theorem C16_first_candidate_wins (opt_overlap : Int) (fmh : FmapHeader) (i k q : Nat)
    (hi : i < (coalesce (load fmh)).numnodes)
    (hk : k < (coalesce (load fmh)).numnodes)
    (hpar : (nd (resolve opt_overlap (coalesce (load fmh))).all_nodes i).parent = some k)
    (hq : q ≤ (coalesce (load fmh)).numnodes) (hqi : q ≠ i) (hqk : q ≠ k)
    (henc : encloses (resolve opt_overlap (coalesce (load fmh))).all_nodes q i = true)
    (hsz : (nd (resolve opt_overlap (coalesce (load fmh))).all_nodes q).size =
      (nd (resolve opt_overlap (coalesce (load fmh))).all_nodes k).size) :
    k < q := by
  obtain ⟨h1, h2, _⟩ := resolve_spec opt_overlap (coalesce (load fmh))
    (le_of_lt (coalesce_load_lt fmh))
  have hg := same_but_parent_geom h1
  rw [h2 i hi] at hpar
  have hk2 : scan_parent (coalesce (load fmh)).all_nodes (coalesce (load fmh)).numnodes i = k :=
    Option.some.inj hpar
  rw [encloses_congr hg] at henc
  rw [(hg q).2.2.1, (hg k).2.2.1] at hsz
  rcases Nat.lt_or_eq_of_le hq with hlt | heq
  · have hf := resolve_j_first 0 (coalesce (load fmh)).all_nodes i
      (List.range (coalesce (load fmh)).numnodes)
      { k := (coalesce (load fmh)).numnodes, errorcnt := 0, out := [] }
      (nodup_range_pairwise _)
    unfold scan_parent at hk2
    rw [hk2] at hf
    rcases hf with hf | ⟨_, _, hf⟩
    · simp only at hf
      omega
    · have := hf q (List.mem_range.2 hlt) hqi henc hsz
      omega
  · omega

/-- Witness of C16: node B of `ex_tie` is enclosed by P (index 1) and by Q
(index 2), both of size 40; its parent is P, the first of the two. -/
theorem C16_first_candidate_wins_witness :
    (nd (resolve 1 (coalesce (load ex_tie))).all_nodes 0).parent = some 1 ∧
    encloses (resolve 1 (coalesce (load ex_tie))).all_nodes 2 0 = true ∧
    (nd (resolve 1 (coalesce (load ex_tie))).all_nodes 2).size =
      (nd (resolve 1 (coalesce (load ex_tie))).all_nodes 1).size ∧
    1 < 2 :=
  ⟨by decide, by decide, by decide,
   C16_first_candidate_wins 1 ex_tie 0 1 2 (by decide) (by decide) (by decide) (by decide)
    (by decide) (by decide) (by decide) (by decide)⟩

/-! ## C17: the order of the aliases -/

/-- Claim C17. For every input: (1) the log of the coalescing pass lists its
merges in the order in which they are made, and the pass leaves the table
these merges give; (2) each merge puts the name of the merged node `j` in
front of the alias list of node `i`; (3) after the pass, and in the table
handed to `show`, the alias list of a surviving node is the list of the names
merged into it, in reverse order of merging; (4) a call of `show` that prints
its node adds to the output first the row of the node, then one row for each
alias in the order of the alias list, each with the start, end and size of
the node, and the complete run has a result; (5) for the records X, Y, W, Z
with X, Y, Z the same range and W another, X gets the alias list [Z, Y] and
the rows of X, Z, Y are printed in this order. -/
theorem C17_alias_order (fmh : FmapHeader) :
    (is_trace (load fmh) (coalesce_log (load fmh)) ∧
      replay (load fmh) (coalesce_log (load fmh)) = coalesce (load fmh)) ∧
    (∀ e ∈ coalesce_log (load fmh),
      (nd (merge_step e.i e.j e.before).all_nodes e.i).alias_ =
        (nd e.before.all_nodes e.j).name :: (nd e.before.all_nodes e.i).alias_) ∧
    (∀ x, x < (coalesce (load fmh)).numnodes →
      (nd (coalesce (load fmh)).all_nodes x).alias_ =
        (((coalesce_log (load fmh)).filter (fun e => decide (e.i = x))).map
          (fun e => (nd e.before.all_nodes e.j).name)).reverse ∧
      ∀ opt, (nd (final_table opt fmh) x).alias_ =
        (nd (coalesce (load fmh)).all_nodes x).alias_) ∧
    (∀ (g fuel p ind sf : Nat) (s s2 : show_t),
      show_ g fuel p ind sf s = some s2 → sf ≠ 0 →
      ∃ rest, s2.out = s.out ++
        (line ind (nd s.all_nodes p).name (nd s.all_nodes p).start (nd s.all_nodes p).end_
            (nd s.all_nodes p).size "" ::
          (nd s.all_nodes p).alias_.map (fun n =>
            line ind n (nd s.all_nodes p).start (nd s.all_nodes p).end_
              (nd s.all_nodes p).size "  // DUPLICATE")) ++ rest) ∧
    (∀ opt gaps, ∃ r, human_fmap opt gaps fmh = some r) ∧
    ((nd (coalesce (load ex_xywz)).all_nodes 0).name = "X" ∧
      (nd (coalesce (load ex_xywz)).all_nodes 0).alias_ = ["Z", "Y"] ∧
      (human_fmap 0 0 ex_xywz).map (fun r => r.out) =
        some [out_t.header, line 0 "W" 30 40 10 "", line 0 "X" 10 20 10 "",
          line 0 "Z" 10 20 10 "  // DUPLICATE", line 0 "Y" 10 20 10 "  // DUPLICATE",
          out_t.warning]) := by
  refine ⟨coalesce_trace (load fmh), fun e he => (coalesce_log_prepends fmh e he).2.2.2,
    fun x hx => ⟨coalesce_alias fmh x hx, fun opt => final_table_alias opt fmh x⟩,
    fun g fuel p ind sf s s2 h hsf => (show_grows g fuel p ind sf s s2 h).2 hsf,
    fun opt gaps => ?_, by decide, by decide, by decide⟩
  obtain ⟨r, hr, _⟩ := human_fmap_total opt gaps fmh
  exact ⟨r, hr⟩

/-! ## C18: coalescing neither loses nor duplicates a record -/

/-- Claim C18. For every input, after the coalescing pass: (1) the names of
the surviving nodes together with the entries of their alias lists are the
names of the input records, each record counted exactly once; (2) the
surviving nodes, without their aliases, are a subsequence of the nodes of the
input records, in the order of the input; (3) there is a bookkeeping list
that gives for each surviving node the index of its record and the indices of
the records behind its aliases, such that the record indices of the nodes are
a subsequence of 0 .. N-1, all the indices together are a rearrangement of
0 .. N-1, and each alias record has the start and the end of the node holding
it; (4) at every merge the node merged away has no aliases; (5) the log lists
the merges in the order in which they are made. -/
theorem C18_coalesce_accounts (fmh : FmapHeader) :
    List.Perm
      ((List.range (coalesce (load fmh)).numnodes).flatMap (fun x =>
        (nd (coalesce (load fmh)).all_nodes x).name ::
          (nd (coalesce (load fmh)).all_nodes x).alias_))
      (fmh.areas.map (fun a => a.area_name)) ∧
    List.Sublist
      ((List.range (coalesce (load fmh)).numnodes).map (fun x =>
        ({ nd (coalesce (load fmh)).all_nodes x with alias_ := [] } : node_t)))
      (fmh.areas.map mk_node) ∧
    (∃ g : List (Nat × List Nat), g.length = (coalesce (load fmh)).numnodes ∧
      (∀ x, x < (coalesce (load fmh)).numnodes →
        nd (coalesce (load fmh)).all_nodes x =
          { mk_node (area_at fmh (gd g x).1) with
            alias_ := (gd g x).2.map (fun o => (area_at fmh o).area_name) }) ∧
      List.Sublist (g.map Prod.fst) (List.range fmh.areas.length) ∧
      List.Perm (g.flatMap (fun p => p.1 :: p.2)) (List.range fmh.areas.length) ∧
      (∀ x, x < (coalesce (load fmh)).numnodes → ∀ o ∈ (gd g x).2,
        area_start (area_at fmh o) = (nd (coalesce (load fmh)).all_nodes x).start ∧
        area_end (area_at fmh o) = (nd (coalesce (load fmh)).all_nodes x).end_)) ∧
    (∀ e ∈ coalesce_log (load fmh), (nd e.before.all_nodes e.j).alias_ = []) ∧
    (is_trace (load fmh) (coalesce_log (load fmh)) ∧
      replay (load fmh) (coalesce_log (load fmh)) = coalesce (load fmh)) := by
  obtain ⟨⟨g, h1, h2, h3, h4, h5, h6⟩, hlog⟩ := coalesce_ghost fmh
  refine ⟨?_, ?_, ⟨g, h1, h3, h4, h6, ?_⟩, hlog, coalesce_trace (load fmh)⟩
  · have e1 : (List.range (coalesce (load fmh)).numnodes).map (fun x =>
        (nd (coalesce (load fmh)).all_nodes x).name ::
          (nd (coalesce (load fmh)).all_nodes x).alias_) =
        g.map (fun p => (p.1 :: p.2).map (fun o => (area_at fmh o).area_name)) := by
      rw [← h1]
      apply range_map_gd
      intro x hx
      rw [h3 x (by omega)]
      simp [ghost_node, mk_node]
    have e2 : (List.range (coalesce (load fmh)).numnodes).flatMap (fun x =>
        (nd (coalesce (load fmh)).all_nodes x).name ::
          (nd (coalesce (load fmh)).all_nodes x).alias_) =
        (ghost_flat g).map (fun o => (area_at fmh o).area_name) := by
      unfold ghost_flat
      rw [List.map_flatMap]
      unfold List.flatMap
      rw [e1]
    rw [e2, ← range_map_area fmh (fun a => a.area_name)]
    exact List.Perm.map _ h6
  · have e1 : (List.range (coalesce (load fmh)).numnodes).map (fun x =>
        ({ nd (coalesce (load fmh)).all_nodes x with alias_ := [] } : node_t)) =
        g.map (fun p => mk_node (area_at fmh p.1)) := by
      rw [← h1]
      apply range_map_gd
      intro x hx
      rw [h3 x (by omega)]
      simp [ghost_node, mk_node]
    have e3 : g.map (fun p => mk_node (area_at fmh p.1)) =
        (g.map Prod.fst).map (fun o => mk_node (area_at fmh o)) := by
      rw [List.map_map]; rfl
    rw [e1, e3, ← range_map_area fmh mk_node]
    exact List.Sublist.map _ h4
  · intro x hx o ho
    rw [h3 x hx]
    exact h5 x hx o ho

/-! ## C19: siblings on a valid input -/

/-- C19. For every input that is valid (no wrap-around, every area within
the image range, no two areas overlapping) and whose final node set has
pairwise distinct ranges: (1) any two distinct area nodes with the same
parent have disjoint ranges, the end of one being at most the start of the
other; (2) every gap that `show` computes, at any node, has its start at
most its end. -/
theorem C19_siblings_disjoint (opt_overlap : Int) (fmh : FmapHeader)
    (hv : valid_input fmh) (hd : distinct_ranges (coalesce (load fmh))) :
    (∀ i j, i < (coalesce (load fmh)).numnodes → j < (coalesce (load fmh)).numnodes →
      i ≠ j →
      (nd (final_table opt_overlap fmh) i).parent = (nd (final_table opt_overlap fmh) j).parent →
      (nd (final_table opt_overlap fmh) i).end_ ≤ (nd (final_table opt_overlap fmh) j).start ∨
      (nd (final_table opt_overlap fmh) j).end_ ≤ (nd (final_table opt_overlap fmh) i).start) ∧
    (∀ p, ∀ g ∈ show_gaps (final_table opt_overlap fmh) p, g.1 ≤ g.2) := by
  have hg0 := geom_ok_coalesce fmh hv hd
  have hsg := final_table_geom opt_overlap fmh
  refine ⟨?_, ?_⟩
  · intro i j hi hj hij hp
    rw [final_table_parent, final_table_parent, if_pos hi, if_pos hj] at hp
    have hp2 := Option.some.inj hp
    rw [← (hsg i).1, ← (hsg i).2.1, ← (hsg j).1, ← (hsg j).2.1]
    rcases Nat.le_total (nd (coalesce (load fmh)).all_nodes j).start
      (nd (coalesce (load fmh)).all_nodes i).start with h | h
    · exact Or.inr (sibling_order _ _ i j hg0 hi hj hij hp2 h)
    · exact Or.inl (sibling_order _ _ j i hg0 hj hi (fun e => hij e.symm) hp2.symm h)
  · intro p g hgm
    obtain ⟨ary0, h1, h2, h3⟩ := children_layout opt_overlap fmh p hv hd
    unfold show_gaps at hgm
    rw [h1] at hgm
    simp only [List.mem_flatMap, List.mem_range, List.mem_append] at hgm
    obtain ⟨i, hi, hgm⟩ := hgm
    obtain ⟨i1, i2, i3⟩ := h2 i hi
    rcases hgm with (hgm | hgm) | hgm
    · unfold gap_first at hgm
      split at hgm
      · rw [List.mem_singleton] at hgm; rw [hgm]; exact i3
      · exact absurd hgm (List.not_mem_nil g)
    · unfold gap_next at hgm
      split at hgm
      · rename_i hc
        rw [List.mem_singleton] at hgm; rw [hgm]
        exact h3 i (by omega)
      · exact absurd hgm (List.not_mem_nil g)
    · unfold gap_last at hgm
      split at hgm
      · rw [List.mem_singleton] at hgm; rw [hgm]; exact i1
      · exact absurd hgm (List.not_mem_nil g)

/-- Witness of C19: the two siblings of `ex_siblings`. -/
theorem C19_siblings_disjoint_witness :
    (∀ i j, i < (coalesce (load ex_siblings)).numnodes → j < (coalesce (load ex_siblings)).numnodes →
      i ≠ j →
      (nd (final_table 1 ex_siblings) i).parent = (nd (final_table 1 ex_siblings) j).parent →
      (nd (final_table 1 ex_siblings) i).end_ ≤ (nd (final_table 1 ex_siblings) j).start ∨
      (nd (final_table 1 ex_siblings) j).end_ ≤ (nd (final_table 1 ex_siblings) i).start) ∧
    (∀ p, ∀ g ∈ show_gaps (final_table 1 ex_siblings) p, g.1 ≤ g.2) :=
  C19_siblings_disjoint 1 ex_siblings (by unfold valid_input; decide)
    (by unfold distinct_ranges; decide)

/-! ## C20: the compaction stays in bounds and keeps the root -/

/-- Claim C20. For every input and every call `add_dupe(i, j, numnodes)` made
by the coalescing pass (the log lists these calls in order): `i < j <
numnodes`, and `numnodes` is at most the number of records; the array has one
entry more than there are records, and every index that the call reads or
writes is at most the number of records, hence inside the array; after the
call the entry at the decremented count is the root, and the array has kept
its length. At the end of the pass, and in the table handed to resolution and
to `show`, the entry at index `numnodes` is the root, with the start, the
size and the end of the image, and it is the parent given to an area node
that no area node encloses. On the records X, Y, W, Z of `ex_xywz` the pass
makes two calls, which use the indices 0 .. 4 and 0 .. 3 of the five-entry
array. -/
theorem C20_compaction_in_bounds (fmh : FmapHeader) :
    (is_trace (load fmh) (coalesce_log (load fmh)) ∧
      replay (load fmh) (coalesce_log (load fmh)) = coalesce (load fmh)) ∧
    (∀ e ∈ coalesce_log (load fmh),
      e.i < e.j ∧ e.j < e.before.numnodes ∧ e.before.numnodes ≤ fmh.areas.length ∧
      e.before.all_nodes.length = fmh.areas.length + 1 ∧
      (∀ x ∈ add_dupe_indices e.i e.j e.before.numnodes,
        x ≤ fmh.areas.length ∧ x < e.before.all_nodes.length) ∧
      (merge_step e.i e.j e.before).numnodes = e.before.numnodes - 1 ∧
      (merge_step e.i e.j e.before).all_nodes.length = fmh.areas.length + 1 ∧
      nd (merge_step e.i e.j e.before).all_nodes (merge_step e.i e.j e.before).numnodes =
        root_node fmh) ∧
    ((coalesce (load fmh)).numnodes ≤ fmh.areas.length ∧
      (coalesce (load fmh)).all_nodes.length = fmh.areas.length + 1 ∧
      nd (coalesce (load fmh)).all_nodes (coalesce (load fmh)).numnodes = root_node fmh) ∧
    ((root_node fmh).start = fmh.fmap_base % U32 ∧ (root_node fmh).size = fmh.fmap_size % U32 ∧
      (root_node fmh).end_ = (fmh.fmap_base + fmh.fmap_size) % U32) ∧
    (∀ opt,
      (nd (final_table opt fmh) (coalesce (load fmh)).numnodes).name = (root_node fmh).name ∧
      (nd (final_table opt fmh) (coalesce (load fmh)).numnodes).start = (root_node fmh).start ∧
      (nd (final_table opt fmh) (coalesce (load fmh)).numnodes).size = (root_node fmh).size ∧
      (nd (final_table opt fmh) (coalesce (load fmh)).numnodes).end_ = (root_node fmh).end_ ∧
      ∀ i, i < (coalesce (load fmh)).numnodes →
        (∀ j, j < (coalesce (load fmh)).numnodes →
          ¬ (i ≠ j ∧ encloses (coalesce (load fmh)).all_nodes j i = true)) →
        (nd (final_table opt fmh) i).parent = some (coalesce (load fmh)).numnodes) ∧
    (coalesce_log (load ex_xywz)).map (fun e => add_dupe_indices e.i e.j e.before.numnodes) =
      [[1, 0, 0, 1, 2, 2, 3, 3, 4], [2, 0, 0, 2, 3]] := by
  obtain ⟨c1, c2, _, _, _⟩ := coalesce_inv_coalesce fmh
  refine ⟨coalesce_trace (load fmh), ?_, ⟨?_, ?_, c2⟩, ⟨rfl, rfl, rfl⟩, ?_, by decide⟩
  · intro e he
    obtain ⟨k1, k2, k3, k4, k5⟩ := coalesce_log_root fmh e he
    have hnum : (merge_step e.i e.j e.before).numnodes = e.before.numnodes - 1 := rfl
    refine ⟨k1, k2, k3, k4, ?_, hnum, by rw [merge_step_length]; exact k4, ?_⟩
    · intro x hx
      have hx2 : x ≤ e.before.numnodes := by
        unfold add_dupe_indices at hx
        rcases List.mem_cons.1 hx with q | hx
        · omega
        · rcases List.mem_cons.1 hx with q | hx
          · omega
          · rcases List.mem_cons.1 hx with q | hx
            · omega
            · have := shift_down_indices_le _ _ _ hx
              omega
      omega
    · rw [hnum, nd_merge_step_eq e.before e.i e.j (e.before.numnodes - 1) k1 k2 (by omega),
        if_neg (by omega), if_pos (by omega)]
      have : e.before.numnodes - 1 + 1 = e.before.numnodes := by omega
      rw [this]
      exact k5
  · exact (coalesce_i_shape (load fmh).numnodes 0 (load fmh)).2
  · have h := (coalesce_i_shape (load fmh).numnodes 0 (load fmh)).1
    unfold coalesce
    rw [h]
    simp [load]
  · intro opt
    obtain ⟨g1, g2, g3, g4⟩ := final_table_geom opt fmh (coalesce (load fmh)).numnodes
    rw [c2] at g1 g2 g3 g4
    refine ⟨g4.symm, g1.symm, g3.symm, g2.symm, ?_⟩
    intro i hi hno
    rw [final_table_parent opt fmh i, if_pos hi]
    rcases (scan_parent_spec (coalesce (load fmh)).all_nodes
      (coalesce (load fmh)).numnodes i).1 with q | ⟨q1, q2, q3⟩
    · rw [q]
    · exact absurd ⟨fun e => q2 e.symm, q3⟩ (hno _ q1)

end DumpFmap
